import Mathlib

/-! Fork choice of the beacon chain (`beacon-chain/blockchain/fork_choice.go`)

A shallow embedding of the LMD-GHOST head selection and its helpers.

* Go `uint64` values are natural numbers; the places where the source does
  arithmetic on them (`block.Slot + 1`, `i++`) reduce modulo `2 ^ 64`.
* Go `int` (the vote tally) is a 64-bit two's-complement integer.
* A Go `(value, error)` result is an `Except Error value`; a `nil` block
  pointer result is `Option.none`.
* The recursion of `BlockAncestor` and the `for` loops are driven by a fuel
  argument; the outer `Option` of a result is `none` exactly when the fuel ran
  out before the Go function returned.
-/

namespace Prysm

/-! ## Data model -/

/-- A 32-byte root (the value of `bytesutil.ToBytes32`), read as a number. -/
abbrev Digest := Nat

/-- Go error values. `collaborator` is an error handed back by a dependency
(database, hashing, attestation service); the other constructors are the
`fmt.Errorf` sites of `fork_choice.go`. -/
inductive Error where
  | collaborator (code : Nat)
  | couldNotGetParentBlock (cause : Error)
  | parentBlockDoesNotExist
  | couldNotTreeHashIncomingBlock (cause : Error)
  | couldNotGetBlockBySlot (cause : Error)
  | couldNotFetchBlockChildren (cause : Error)
  | unableToDetermineVoteCount (cause : Error)
  | couldNotRetrieveAttestationTarget (cause : Error)
  | couldNotRetrieveJustifiedState (cause : Error)
  | couldNotRetrieveJustifiedHead (cause : Error)
  | couldNotRunForkChoice (cause : Error)
  | couldNotHashHeadBlock (cause : Error)
  | couldNotGenState (cause : Error)
  | failedToUpdateChain (cause : Error)
  | couldNotHashHead (cause : Error)
  deriving DecidableEq, Repr

deriving instance DecidableEq for Except

/-- Outcome of running a Go function with bounded fuel: `none` when the fuel
ran out, otherwise the `(value, error)` pair the function returned. -/
abbrev Res (α : Type) := Option (Except Error α)

/-- The fields of `pb.BeaconBlock` read by the fork choice. -/
structure BeaconBlock where
  Slot : Nat
  ParentRootHash32 : Digest
  StateRootHash32 : Digest
  deriving DecidableEq, Repr

/-- The fields of `pb.Validator` read through `helpers.ActiveValidatorIndices`. -/
structure Validator where
  ActivationEpoch : Nat
  ExitEpoch : Nat
  deriving DecidableEq, Repr

/-- The fields of `pb.BeaconState` read by the fork choice. -/
structure BeaconState where
  Slot : Nat
  JustifiedEpoch : Nat
  FinalizedEpoch : Nat
  ValidatorRegistry : List Validator
  ValidatorBalances : List Nat
  deriving DecidableEq, Repr

/-- The read side of `db.BeaconDB` used by head selection. -/
structure BeaconDB where
  /-- `beaconDB.Block(root)`: the block stored under a root, `nil` when unknown. -/
  Block : Digest → Except Error (Option BeaconBlock)
  /-- `beaconDB.BlockBySlot(ctx, slot)`: the block stored at a slot, `nil` on a skip slot. -/
  BlockBySlot : Nat → Except Error (Option BeaconBlock)
  /-- `beaconDB.HighestBlockSlot()`. -/
  HighestBlockSlot : Nat

/-- Package-level helpers whose source is outside this repository slice. -/
structure Helpers where
  /-- `hashutil.HashBeaconBlock`. -/
  HashBeaconBlock : BeaconBlock → Except Error Digest
  /-- `helpers.EffectiveBalance(state, index)`, a `uint64`. -/
  EffectiveBalance : BeaconState → Nat → Nat
  /-- `params.BeaconConfig().SlotsPerEpoch`. -/
  SlotsPerEpoch : Nat

/-- The attestation service: `attsService.LatestAttestationTarget(ctx, index)`. -/
structure AttestationService where
  LatestAttestationTarget : Nat → Except Error (Option BeaconBlock)

/-- Iteration listing of a Go `map[uint64]*pb.BeaconBlock`: the entries in the
order a `range` loop visits them. -/
abbrev TargetMap := List (Nat × BeaconBlock)

/-- The Canonical Slot Index `c.canonicalBlocks`, a Go `map[uint64][]byte`:
the root recorded for a slot, if any. -/
abbrev CanonicalBlocks := Nat → Option Digest

/-- What the database holds besides the block store: the checkpoint pairs, as
`JustifiedBlock()`, `JustifiedState()`, `FinalizedBlock()` read them back (a
read may fail), the persisted finalized state, and the chain head written by
`UpdateChainHead`. -/
structure DurableState where
  JustifiedBlock : Except Error BeaconBlock
  JustifiedState : Except Error BeaconState
  FinalizedBlock : Except Error BeaconBlock
  FinalizedState : Except Error BeaconState
  ChainHead : Option (BeaconBlock × BeaconState)
  deriving DecidableEq

/-- The remaining methods of `db.BeaconDB`: the historical state archive and,
for every durable write, the error it returns (`none` for `nil`). A write that
returns an error leaves the durable state as it was; a write that returns
`nil` is read back by the matching read. -/
structure StateArchive where
  HistoricalStateFromSlot : Nat → Except Error BeaconState
  SaveJustifiedBlock : BeaconBlock → Option Error
  SaveJustifiedState : BeaconState → Option Error
  SaveFinalizedBlock : BeaconBlock → Option Error
  SaveFinalizedState : BeaconState → Option Error
  UpdateChainHead : BeaconBlock → BeaconState → Option Error

/-- The state behind a `*ChainService` receiver. `durable`, `canonicalBlocks`
and `reorgCount` (the `reorg_counter` metric) are changed by the methods below;
the other fields fix how the collaborators answer during a call. -/
structure ChainService where
  beaconDB : BeaconDB
  archive : StateArchive
  attsService : AttestationService
  durable : DurableState
  canonicalBlocks : CanonicalBlocks
  reorgCount : Nat

/-- Outcome of running a method that changes the service: `none` when the fuel
ran out, otherwise the service as the method left it and the error it
returned (`none` for `nil`). -/
abbrev Run := Option (ChainService × Option Error)

/-! ## Machine integers -/

/-- Number of `uint64` values. -/
def uint64Mod : Nat := 2 ^ 64

/-- `a + b` on `uint64`. -/
def addUint64 (a b : Nat) : Nat := (a + b) % uint64Mod

/-- `a - b` on `uint64`. -/
def subUint64 (a b : Nat) : Nat := (a + uint64Mod - b % uint64Mod) % uint64Mod

/-- `a * b` on `uint64`. -/
def mulUint64 (a b : Nat) : Nat := (a * b) % uint64Mod

/-- Conversion of an integer to Go `int` (64-bit two's complement). -/
def toInt64 (n : Int) : Int := (n + 2 ^ 63) % 2 ^ 64 - 2 ^ 63

/-! ## `BlockAncestor` -/

/-- `BlockAncestor(block, slot, beaconDB)`; the fuel bounds the recursion depth. -/
def BlockAncestor (beaconDB : BeaconDB) (slot : Nat) : Nat → BeaconBlock → Res (Option BeaconBlock)
  | 0, _ => none
  | fuel + 1, block =>
    if block.Slot = slot then some (.ok (some block))
    else if block.Slot < slot then some (.ok none)
    else
      match beaconDB.Block block.ParentRootHash32 with
      | .error err => some (.error (.couldNotGetParentBlock err))
      | .ok none => some (.error .parentBlockDoesNotExist)
      | .ok (some parent) => BlockAncestor beaconDB slot fuel parent

/-- The block reached from `block` by following the parent root `n` times
through `beaconDB.Block`, when every one of the `n` lookups finds a block. -/
def nthParent (beaconDB : BeaconDB) : Nat → BeaconBlock → Option BeaconBlock
  | 0, block => some block
  | n + 1, block =>
    match beaconDB.Block block.ParentRootHash32 with
    | .ok (some parent) => nthParent beaconDB n parent
    | _ => none

/-! ## `VoteCount` -/

/-- The `for validatorIndex, targetBlock := range targets` loop of `VoteCount`,
started with the running total `balances`. -/
def VoteCountLoop (fuel : Nat) (h : Helpers) (block : BeaconBlock) (state : BeaconState)
    (beaconDB : BeaconDB) : TargetMap → Int → Res Int
  | [], balances => some (.ok balances)
  | (validatorIndex, targetBlock) :: rest, balances =>
    match BlockAncestor beaconDB block.Slot fuel targetBlock with
    | none => none
    | some (.error err) => some (.error err)
    | some (.ok none) => VoteCountLoop fuel h block state beaconDB rest balances
    | some (.ok (some ancestor)) =>
      match h.HashBeaconBlock ancestor with
      | .error err => some (.error err)
      | .ok ancestorRoot =>
        match h.HashBeaconBlock block with
        | .error err => some (.error err)
        | .ok blockRoot =>
          if blockRoot = ancestorRoot then
            VoteCountLoop fuel h block state beaconDB rest
              (toInt64 (balances + toInt64 (h.EffectiveBalance state validatorIndex)))
          else VoteCountLoop fuel h block state beaconDB rest balances

/-- `VoteCount(block, state, targets, beaconDB)`. -/
def VoteCount (fuel : Nat) (h : Helpers) (block : BeaconBlock) (state : BeaconState)
    (targets : TargetMap) (beaconDB : BeaconDB) : Res Int :=
  VoteCountLoop fuel h block state beaconDB targets 0

/-! ## `blockChildren` -/

/-- The `for i := startSlot; i <= highestSlot; i++` loop of `blockChildren`. -/
def blockChildrenLoop (beaconDB : BeaconDB) (currentRoot : Digest) (highestSlot : Nat) :
    Nat → Nat → List BeaconBlock → Res (List BeaconBlock)
  | 0, _, _ => none
  | fuel + 1, i, children =>
    if i ≤ highestSlot then
      match beaconDB.BlockBySlot i with
      | .error err => some (.error (.couldNotGetBlockBySlot err))
      | .ok none => blockChildrenLoop beaconDB currentRoot highestSlot fuel (addUint64 i 1) children
      | .ok (some block) =>
        if currentRoot = block.ParentRootHash32 then
          blockChildrenLoop beaconDB currentRoot highestSlot fuel (addUint64 i 1) (children ++ [block])
        else blockChildrenLoop beaconDB currentRoot highestSlot fuel (addUint64 i 1) children
    else some (.ok children)

/-- `c.blockChildren(ctx, block, highestSlot)`. -/
def blockChildren (fuel : Nat) (h : Helpers) (beaconDB : BeaconDB) (block : BeaconBlock)
    (highestSlot : Nat) : Res (List BeaconBlock) :=
  match h.HashBeaconBlock block with
  | .error err => some (.error (.couldNotTreeHashIncomingBlock err))
  | .ok currentRoot =>
    blockChildrenLoop beaconDB currentRoot highestSlot fuel (addUint64 block.Slot 1) []

/-! ## `lmdGhost` -/

/-- The `for i := 0; i < len(children); i++` loop of `lmdGhost`: `maxChildVotes`
is the tally of `children[0]` and is not reassigned by the loop. -/
def maxChildLoop (fuel : Nat) (h : Helpers) (beaconDB : BeaconDB) (startState : BeaconState)
    (voteTargets : TargetMap) (maxChildVotes : Int) :
    List BeaconBlock → BeaconBlock → Res BeaconBlock
  | [], maxChild => some (.ok maxChild)
  | child :: rest, maxChild =>
    match VoteCount fuel h child startState voteTargets beaconDB with
    | none => none
    | some (.error err) => some (.error (.unableToDetermineVoteCount err))
    | some (.ok candidateChildVotes) =>
      if candidateChildVotes > maxChildVotes then
        maxChildLoop fuel h beaconDB startState voteTargets maxChildVotes rest child
      else maxChildLoop fuel h beaconDB startState voteTargets maxChildVotes rest maxChild

/-- Lines 231-246 of `lmdGhost`: the child that becomes the next head, for the
non-empty children list `first :: rest`. -/
def chooseChild (fuel : Nat) (h : Helpers) (beaconDB : BeaconDB) (startState : BeaconState)
    (voteTargets : TargetMap) (first : BeaconBlock) (rest : List BeaconBlock) : Res BeaconBlock :=
  match VoteCount fuel h first startState voteTargets beaconDB with
  | none => none
  | some (.error err) => some (.error (.unableToDetermineVoteCount err))
  | some (.ok maxChildVotes) =>
    maxChildLoop fuel h beaconDB startState voteTargets maxChildVotes (first :: rest) first

/-- The `for` loop of `lmdGhost`; `n` bounds the number of iterations and
`fuel` is handed to the calls made inside an iteration. -/
def lmdGhostLoop (fuel : Nat) (h : Helpers) (beaconDB : BeaconDB) (startState : BeaconState)
    (voteTargets : TargetMap) (highestSlot : Nat) : Nat → BeaconBlock → Res BeaconBlock
  | 0, _ => none
  | n + 1, head =>
    match blockChildren fuel h beaconDB head highestSlot with
    | none => none
    | some (.error err) => some (.error (.couldNotFetchBlockChildren err))
    | some (.ok []) => some (.ok head)
    | some (.ok (first :: rest)) =>
      match chooseChild fuel h beaconDB startState voteTargets first rest with
      | none => none
      | some (.error err) => some (.error err)
      | some (.ok maxChild) =>
        lmdGhostLoop fuel h beaconDB startState voteTargets highestSlot n maxChild

/-- `c.lmdGhost(ctx, startBlock, startState, voteTargets)`. -/
def lmdGhost (fuel : Nat) (h : Helpers) (beaconDB : BeaconDB) (startBlock : BeaconBlock)
    (startState : BeaconState) (voteTargets : TargetMap) : Res BeaconBlock :=
  lmdGhostLoop fuel h beaconDB startState voteTargets beaconDB.HighestBlockSlot fuel startBlock

/-! ## `attestationTargets` -/

/-- Modelled from the spec: `helpers.CurrentEpoch` is not under `src/`; the
spec derives `current_epoch()` from the state's slot, an epoch being a window
of `slots_per_epoch` consecutive slots. -/
def CurrentEpoch (h : Helpers) (state : BeaconState) : Nat :=
  state.Slot / h.SlotsPerEpoch

/-- Modelled from the spec: `helpers.ActiveValidatorIndices` is not under
`src/`; it lists, in registry order, the indices of the validators active at
`epoch`, a validator being active from its activation epoch up to, not
including, its exit epoch. -/
def ActiveValidatorIndices (validators : List Validator) (epoch : Nat) : List Nat :=
  (List.range' 0 validators.length).filter (fun i =>
    match validators.get? i with
    | some v => decide (v.ActivationEpoch ≤ epoch ∧ epoch < v.ExitEpoch)
    | none => false)

/-- The assignment `m[key] = block` on a Go map: an existing entry for `key` is replaced. -/
def mapAssign (m : TargetMap) (key : Nat) (block : BeaconBlock) : TargetMap :=
  m.filter (fun entry => entry.1 != key) ++ [(key, block)]

/-- The `for i, index := range indices` loop of `attestationTargets`; `i` is
the position of `index` in `indices`. -/
def attestationTargetsLoop (attsService : AttestationService) :
    Nat → List Nat → TargetMap → Except Error TargetMap
  | _, [], attestationTargets => .ok attestationTargets
  | i, index :: rest, attestationTargets =>
    match attsService.LatestAttestationTarget index with
    | .error err => .error (.couldNotRetrieveAttestationTarget err)
    | .ok none => attestationTargetsLoop attsService (i + 1) rest attestationTargets
    | .ok (some block) =>
      attestationTargetsLoop attsService (i + 1) rest (mapAssign attestationTargets i block)

/-- `c.attestationTargets(ctx, state)`. -/
def attestationTargets (h : Helpers) (attsService : AttestationService) (state : BeaconState) :
    Except Error TargetMap :=
  attestationTargetsLoop attsService 0
    (ActiveValidatorIndices state.ValidatorRegistry (CurrentEpoch h state)) []

/-! ## `updateFFGCheckPts` -/

/-- Modelled from the spec: `helpers.StartSlot` is not under `src/`; the spec
gives `start_slot_of(epoch) = epoch * slots_per_epoch`, here on `uint64`. -/
def StartSlot (h : Helpers) (epoch : Nat) : Nat :=
  mulUint64 epoch h.SlotsPerEpoch

/-- The loop `for newJustifiedBlock == nil` (and its twin for the finalized
block): decrement `lastAvailBlkSlot` and look the slot up, until a block is
found or a lookup fails. -/
def lastAvailBlkLoop (beaconDB : BeaconDB) : Nat → Nat → Res BeaconBlock
  | 0, _ => none
  | fuel + 1, lastAvailBlkSlot =>
    match beaconDB.BlockBySlot (subUint64 lastAvailBlkSlot 1) with
    | .error err => some (.error err)
    | .ok none => lastAvailBlkLoop beaconDB fuel (subUint64 lastAvailBlkSlot 1)
    | .ok (some block) => some (.ok block)

/-- Lines 44-59 (and 83-98): the block at `slot`, or at the nearest earlier
slot the loop reaches. -/
def newCheckPtBlock (fuel : Nat) (beaconDB : BeaconDB) (slot : Nat) : Res BeaconBlock :=
  match beaconDB.BlockBySlot slot with
  | .error err => some (.error err)
  | .ok (some block) => some (.ok block)
  | .ok none => lastAvailBlkLoop beaconDB fuel slot

/-- Lines 35-72 of `updateFFGCheckPts`: the justified check point. -/
def updateJustifiedCheckPt (fuel : Nat) (h : Helpers) (c : ChainService) (state : BeaconState) :
    Run :=
  match c.durable.JustifiedBlock with
  | .error err => some (c, some err)
  | .ok savedJustifiedBlock =>
    if StartSlot h state.JustifiedEpoch > savedJustifiedBlock.Slot then
      match newCheckPtBlock fuel c.beaconDB (StartSlot h state.JustifiedEpoch) with
      | none => none
      | some (.error err) => some (c, some err)
      | some (.ok newJustifiedBlock) =>
        match c.archive.HistoricalStateFromSlot newJustifiedBlock.Slot with
        | .error err => some (c, some err)
        | .ok newJustifiedState =>
          match c.archive.SaveJustifiedBlock newJustifiedBlock with
          | some err => some (c, some err)
          | none =>
            match c.archive.SaveJustifiedState newJustifiedState with
            | some err =>
              some ({ c with durable :=
                { c.durable with JustifiedBlock := .ok newJustifiedBlock } }, some err)
            | none =>
              some ({ c with durable :=
                { c.durable with JustifiedBlock := .ok newJustifiedBlock,
                                 JustifiedState := .ok newJustifiedState } }, none)
    else some (c, none)

/-- Lines 74-113 of `updateFFGCheckPts`: the finalized check point. The
historical state is fetched at `lastFinalizedSlot`. -/
def updateFinalizedCheckPt (fuel : Nat) (h : Helpers) (c : ChainService) (state : BeaconState) :
    Run :=
  match c.durable.FinalizedBlock with
  | .error err => some (c, some err)
  | .ok savedFinalizedBlock =>
    if StartSlot h state.FinalizedEpoch > savedFinalizedBlock.Slot then
      match newCheckPtBlock fuel c.beaconDB (StartSlot h state.FinalizedEpoch) with
      | none => none
      | some (.error err) => some (c, some err)
      | some (.ok newFinalizedBlock) =>
        match c.archive.HistoricalStateFromSlot (StartSlot h state.FinalizedEpoch) with
        | .error err => some (c, some err)
        | .ok newFinalizedState =>
          match c.archive.SaveFinalizedBlock newFinalizedBlock with
          | some err => some (c, some err)
          | none =>
            match c.archive.SaveFinalizedState newFinalizedState with
            | some err =>
              some ({ c with durable :=
                { c.durable with FinalizedBlock := .ok newFinalizedBlock } }, some err)
            | none =>
              some ({ c with durable :=
                { c.durable with FinalizedBlock := .ok newFinalizedBlock,
                                 FinalizedState := .ok newFinalizedState } }, none)
    else some (c, none)

/-- `c.updateFFGCheckPts(ctx, state)`: the justified check point, then, unless
an error was returned, the finalized one. -/
def updateFFGCheckPts (fuel : Nat) (h : Helpers) (c : ChainService) (state : BeaconState) : Run :=
  match updateJustifiedCheckPt fuel h c state with
  | none => none
  | some (c1, some err) => some (c1, some err)
  | some (c1, none) => updateFinalizedCheckPt fuel h c1 state

/-! ## `ApplyForkChoiceRule` -/

/-- The assignment `canonicalBlocks[slot] = root`. -/
def setCanonical (canonicalBlocks : CanonicalBlocks) (slot : Nat) (root : Digest) :
    CanonicalBlocks :=
  fun s => if s = slot then some root else canonicalBlocks s

/-- The statement `delete(canonicalBlocks, slot)`. -/
def deleteCanonical (canonicalBlocks : CanonicalBlocks) (slot : Nat) : CanonicalBlocks :=
  fun s => if s = slot then none else canonicalBlocks s

/-- The loop `for revertedSlot := block.Slot; revertedSlot > head.Slot; revertedSlot--`,
by recursion on `revertedSlot`: the decrement is only reached for a positive
`revertedSlot`, where it does not wrap. -/
def revertedSlotLoop (headSlot : Nat) : Nat → CanonicalBlocks → CanonicalBlocks
  | 0, canonicalBlocks => canonicalBlocks
  | revertedSlot + 1, canonicalBlocks =>
    if revertedSlot + 1 > headSlot then
      revertedSlotLoop headSlot revertedSlot (deleteCanonical canonicalBlocks (revertedSlot + 1))
    else canonicalBlocks

/-- Lines 129-144 of `ApplyForkChoiceRule`: the head chosen by `lmdGhost` from
the persisted justified block and state. -/
def selectHead (fuel : Nat) (h : Helpers) (c : ChainService) : Res BeaconBlock :=
  match c.durable.JustifiedState with
  | .error err => some (.error (.couldNotRetrieveJustifiedState err))
  | .ok justifiedState =>
    match attestationTargets h c.attsService justifiedState with
    | .error err => some (.error (.couldNotRetrieveAttestationTarget err))
    | .ok targets =>
      match c.durable.JustifiedBlock with
      | .error err => some (.error (.couldNotRetrieveJustifiedHead err))
      | .ok justifiedHead =>
        match lmdGhost fuel h c.beaconDB justifiedHead justifiedState targets with
        | none => none
        | some (.error err) => some (.error (.couldNotRunForkChoice err))
        | some (.ok head) => some (.ok head)

/-- Lines 175-183 of `ApplyForkChoiceRule`: `UpdateChainHead` and the final hash
of the head for the log line. -/
def updateChainHead (h : Helpers) (c : ChainService) (head : BeaconBlock)
    (newState : BeaconState) : Run :=
  match c.archive.UpdateChainHead head newState with
  | some err => some (c, some (.failedToUpdateChain err))
  | none =>
    match h.HashBeaconBlock head with
    | .error err =>
      some ({ c with durable := { c.durable with ChainHead := some (head, newState) } },
        some (.couldNotHashHead err))
    | .ok _ =>
      some ({ c with durable := { c.durable with ChainHead := some (head, newState) } }, none)

/-- `c.ApplyForkChoiceRule(ctx, block, postState)`. -/
def ApplyForkChoiceRule (fuel : Nat) (h : Helpers) (c : ChainService) (block : BeaconBlock)
    (postState : BeaconState) : Run :=
  match selectHead fuel h c with
  | none => none
  | some (.error err) => some (c, some err)
  | some (.ok head) =>
    match h.HashBeaconBlock head with
    | .error err => some (c, some (.couldNotHashHeadBlock err))
    | .ok headRoot =>
      if head.Slot ≠ block.Slot then
        match c.archive.HistoricalStateFromSlot head.Slot with
        | .error err =>
          some ({ c with canonicalBlocks := setCanonical c.canonicalBlocks head.Slot headRoot },
            some (.couldNotGenState err))
        | .ok newState =>
          updateChainHead h
            { c with
              canonicalBlocks :=
                revertedSlotLoop head.Slot block.Slot
                  (setCanonical c.canonicalBlocks head.Slot headRoot),
              reorgCount := c.reorgCount + 1 }
            head newState
      else
        updateChainHead h
          { c with canonicalBlocks := setCanonical c.canonicalBlocks head.Slot headRoot }
          head postState

/-! ## Reference descriptions used by the statements -/

/-- The block that slot `i` contributes to the children of the block with root
`root`: the block stored at `i`, when there is one and its parent root is `root`. -/
def childAt (beaconDB : BeaconDB) (root : Digest) (i : Nat) : Option BeaconBlock :=
  match beaconDB.BlockBySlot i with
  | .ok (some block) => if root = block.ParentRootHash32 then some block else none
  | _ => none

/-- The children of the block with root `root` as the specification lists
them: slots `lo, lo + 1, ..., highestSlot` in ascending order, skipping the
slots that contribute nothing. -/
def childrenSpec (beaconDB : BeaconDB) (root : Digest) (lo highestSlot : Nat) : List BeaconBlock :=
  (List.range' lo (highestSlot + 1 - lo)).filterMap (childAt beaconDB root)

/-- Slots strictly decrease along every parent link of the chain that starts at `block`. -/
def SlotsDecreaseFrom (beaconDB : BeaconDB) (block : BeaconBlock) : Prop :=
  ∀ n x parent, nthParent beaconDB n block = some x →
    beaconDB.Block x.ParentRootHash32 = .ok (some parent) → parent.Slot < x.Slot

/-- The parent lookup of `x` does not produce a block: it fails, or resolves to nothing. -/
def ParentLookupFails (beaconDB : BeaconDB) (x : BeaconBlock) : Prop :=
  (∃ err, beaconDB.Block x.ParentRootHash32 = .error err) ∨
    beaconDB.Block x.ParentRootHash32 = .ok none

/-- What one entry `(validatorIndex, targetBlock)` of the target map does to
the running total of `VoteCount`: `some (.ok none)` leaves it unchanged,
`some (.ok (some v))` adds `v`, an error aborts the count. -/
def entryVote (fuel : Nat) (h : Helpers) (block : BeaconBlock) (state : BeaconState)
    (beaconDB : BeaconDB) (entry : Nat × BeaconBlock) : Res (Option Int) :=
  match BlockAncestor beaconDB block.Slot fuel entry.2 with
  | none => none
  | some (.error err) => some (.error err)
  | some (.ok none) => some (.ok none)
  | some (.ok (some ancestor)) =>
    match h.HashBeaconBlock ancestor with
    | .error err => some (.error err)
    | .ok ancestorRoot =>
      match h.HashBeaconBlock block with
      | .error err => some (.error err)
      | .ok blockRoot =>
        if blockRoot = ancestorRoot then some (.ok (some (toInt64 (h.EffectiveBalance state entry.1))))
        else some (.ok none)

/-- The entry `(v, t)` supports `candidate`: the ancestor of `t` at the slot of
`candidate` is present and has the same root as `candidate`. -/
def supports (fuel : Nat) (h : Helpers) (candidate : BeaconBlock) (beaconDB : BeaconDB)
    (entry : Nat × BeaconBlock) : Bool :=
  match BlockAncestor beaconDB candidate.Slot fuel entry.2 with
  | some (.ok (some ancestor)) =>
    match h.HashBeaconBlock ancestor, h.HashBeaconBlock candidate with
    | .ok ancestorRoot, .ok blockRoot => decide (blockRoot = ancestorRoot)
    | _, _ => false
  | _ => false

/-- The sum of `EffectiveBalance(state, v)` over the entries `(v, t)` that
support `candidate`. -/
def supportingBalance (fuel : Nat) (h : Helpers) (candidate : BeaconBlock) (state : BeaconState)
    (targets : TargetMap) (beaconDB : BeaconDB) : Nat :=
  ((targets.filter (supports fuel h candidate beaconDB)).map
    (fun entry => h.EffectiveBalance state entry.1)).sum

/-- A result with the payload of an error forgotten: `none` when the fuel ran
out, `some none` for an error, `some (some v)` for the value `v`. -/
def outcome {α : Type} (r : Res α) : Option (Option α) :=
  r.map Except.toOption

/-- The entry `s -> d` belongs to the ancestor chain of `head`: some block
reached from `head` through parent roots has slot `s` and root `d`. -/
def IsAncestorEntry (h : Helpers) (beaconDB : BeaconDB) (head : BeaconBlock) (s : Nat)
    (d : Digest) : Prop :=
  ∃ n a, nthParent beaconDB n head = some a ∧ a.Slot = s ∧ h.HashBeaconBlock a = .ok d

/-- The index holds exactly the ancestor chain of `head`: one entry for `head`
and for each of its ancestors, and nothing else. -/
def IsAncestorChain (h : Helpers) (beaconDB : BeaconDB) (head : BeaconBlock)
    (canonicalBlocks : CanonicalBlocks) : Prop :=
  ∀ s d, canonicalBlocks s = some d ↔ IsAncestorEntry h beaconDB head s d

/-! ## A small block store for concrete runs -/

/-- Hashing by state root (every block of the concrete stores below carries its
own state root), balances capped at the maximum deposit of 32 * 10 ^ 9 Gwei. -/
def exampleHelpers : Helpers where
  HashBeaconBlock := fun b => .ok b.StateRootHash32
  EffectiveBalance := fun s i => min (s.ValidatorBalances.getD i 0) 32000000000
  SlotsPerEpoch := 64

/-- A database holding the listed blocks, none of them failing to load. -/
def storeOf (blocks : List BeaconBlock) (highest : Nat) : BeaconDB where
  Block := fun d => .ok (blocks.find? (fun b => b.StateRootHash32 == d))
  BlockBySlot := fun s => .ok (blocks.find? (fun b => b.Slot == s))
  HighestBlockSlot := highest

/-- Block `A` at slot 1, the parent of `B`, `C` and `D`. -/
def blockA : BeaconBlock := ⟨1, 0, 10⟩

/-- Block `B` at slot 2, child of `A`. -/
def blockB : BeaconBlock := ⟨2, 10, 20⟩

/-- Block `C` at slot 3, child of `A`. -/
def blockC : BeaconBlock := ⟨3, 10, 30⟩

/-- Block `D` at slot 4, child of `A`. -/
def blockD : BeaconBlock := ⟨4, 10, 40⟩

/-- The store `A <- B`, `A <- C`, `A <- D`. -/
def forkStore : BeaconDB := storeOf [blockA, blockB, blockC, blockD] 4

/-- Validator 0 attests to `B`, validator 1 to `C`, validator 2 to `D`. -/
def forkTargets : TargetMap := [(0, blockB), (1, blockC), (2, blockD)]

/-- A state whose validators 0, 1, 2 have the given balances. -/
def stateWithBalances (balances : List Nat) : BeaconState := ⟨0, 0, 0, [], balances⟩

/-- A target map in which validators `0, ..., n - 1` all attest to `target`. -/
def unanimousTargets (n : Nat) (target : BeaconBlock) : TargetMap :=
  (List.range' 0 n).map (fun i => (i, target))

/-- A state with `n` validators, each holding the maximum deposit of 32 * 10 ^ 9 Gwei. -/
def fullDepositState (n : Nat) : BeaconState :=
  ⟨0, 0, 0, [], List.replicate n 32000000000⟩

/-- A block at slot 5 whose parent root is its own root. -/
def selfParentBlock : BeaconBlock := ⟨5, 50, 50⟩

/-- The store `A <- B` together with the self-parented block at slot 5. -/
def cyclicStore : BeaconDB := storeOf [blockA, blockB, selfParentBlock] 5

/-- The fork store extended by a child of `D` at the largest `uint64` slot,
which is then the highest block slot. -/
def maxSlotStore : BeaconDB :=
  storeOf [blockA, blockB, blockC, blockD, ⟨2 ^ 64 - 1, 40, 60⟩] (2 ^ 64 - 1)

/-- A state at slot 0 whose validator 0 is not yet active and whose validator 1 is active. -/
def secondActiveState : BeaconState := ⟨0, 0, 0, [⟨10, 20⟩, ⟨0, 100⟩], [32, 32]⟩

/-- An attestation service in which validator 1 last attested to `B` and no
other validator has attested. -/
def secondAttests : AttestationService where
  LatestAttestationTarget := fun index => .ok (if index = 1 then some blockB else none)

/-! ## A small chain service for concrete runs -/

/-- Block `X` at slot 4, child of `B`. -/
def blockX : BeaconBlock := ⟨4, 20, 45⟩

/-- The store `A <- B <- X`, `A <- C`. -/
def reorgStore : BeaconDB := storeOf [blockA, blockB, blockC, blockX] 4

/-- A state at slot 0 with one active validator of balance 32. -/
def oneValidatorState : BeaconState := ⟨0, 0, 0, [⟨0, 100⟩], [32]⟩

/-- An attestation service in which validator 0 last attested to `target`. -/
def attestsTo (target : BeaconBlock) : AttestationService where
  LatestAttestationTarget := fun index => .ok (if index = 0 then some target else none)

/-- The historical state of slot `s`: a state whose slot is `s`. -/
def stateAtSlot (s : Nat) : BeaconState := ⟨s, 0, 0, [], []⟩

/-- An archive that returns `stateAtSlot s` for slot `s` and whose writes all succeed. -/
def slotArchive : StateArchive where
  HistoricalStateFromSlot := fun s => .ok (stateAtSlot s)
  SaveJustifiedBlock := fun _ => none
  SaveJustifiedState := fun _ => none
  SaveFinalizedBlock := fun _ => none
  SaveFinalizedState := fun _ => none
  UpdateChainHead := fun _ _ => none

/-- The index holding the listed `(slot, root)` entries. -/
def canonicalOf (entries : List (Nat × Digest)) : CanonicalBlocks :=
  fun s => (entries.find? (fun e => e.1 == s)).map Prod.snd

/-- A service over `reorgStore` whose justified and finalized block is `A`,
whose only validator attests to `C`, and whose index is the chain
`A <- B <- X` of the block `X` processed last. -/
def reorgService : ChainService where
  beaconDB := reorgStore
  archive := slotArchive
  attsService := attestsTo blockC
  durable := ⟨.ok blockA, .ok oneValidatorState, .ok blockA, .ok oneValidatorState, none⟩
  canonicalBlocks := canonicalOf [(1, 10), (2, 20), (4, 45)]
  reorgCount := 0

/-- The reorg service with the only validator attesting to `X`, and the index
`A <- B` of the chain processed before `X`. -/
def linearService : ChainService where
  beaconDB := reorgStore
  archive := slotArchive
  attsService := attestsTo blockX
  durable := ⟨.ok blockA, .ok oneValidatorState, .ok blockA, .ok oneValidatorState, none⟩
  canonicalBlocks := canonicalOf [(1, 10), (2, 20)]
  reorgCount := 0

/-- The example helpers with the demo configuration of 8 slots per epoch. -/
def demoHelpers : Helpers := { exampleHelpers with SlotsPerEpoch := 8 }

/-- A block at slot 39. -/
def block39 : BeaconBlock := ⟨39, 10, 390⟩

/-- A service whose store holds `A` and the block of slot 39 and nothing at
slot 40; both checkpoints are at `A`. -/
def skipService : ChainService where
  beaconDB := storeOf [blockA, block39] 39
  archive := slotArchive
  attsService := attestsTo blockA
  durable := ⟨.ok blockA, .ok oneValidatorState, .ok blockA, .ok oneValidatorState, none⟩
  canonicalBlocks := canonicalOf []
  reorgCount := 0

/-- A post-state at slot 41 whose justified and finalized epoch are both 5. -/
def epochFiveState : BeaconState := ⟨41, 5, 5, [], []⟩

/-- A service whose persisted justified and finalized block lies at slot 10
while the store holds a block at slot 9 only. -/
def gapService : ChainService where
  beaconDB := storeOf [⟨9, 0, 90⟩] 9
  archive := slotArchive
  attsService := attestsTo blockA
  durable := ⟨.ok ⟨10, 0, 100⟩, .ok oneValidatorState, .ok ⟨10, 0, 100⟩, .ok oneValidatorState,
    none⟩
  canonicalBlocks := canonicalOf []
  reorgCount := 0

/-- A service over a given store with both checkpoints at `A`. -/
def serviceOver (beaconDB : BeaconDB) : ChainService where
  beaconDB := beaconDB
  archive := slotArchive
  attsService := attestsTo blockA
  durable := ⟨.ok blockA, .ok oneValidatorState, .ok blockA, .ok oneValidatorState, none⟩
  canonicalBlocks := canonicalOf []
  reorgCount := 0

/-- A post-state at slot 9 whose justified epoch is 1 and finalized epoch is 0. -/
def epochOneState : BeaconState := ⟨9, 1, 0, [], []⟩

/-- The child an iteration of `lmdGhost` moves to, described from the vote
weights `w`: the last child of `first :: rest` that is strictly heavier than
`first`, and `first` itself when there is none. -/
def lastHeavierThanFirst (w : BeaconBlock → Int) (first : BeaconBlock) (rest : List BeaconBlock) :
    BeaconBlock :=
  (((first :: rest).filter (fun c => decide (w c > w first))).getLast?).getD first

/-- Block `P` at slot 3, a child of `B`: a block of the same slot as `C`. -/
def blockP : BeaconBlock := ⟨3, 20, 35⟩

/-- The skip service with an archive whose write of the justified state fails. -/
def halfWriteService : ChainService :=
  { skipService with
    archive := { slotArchive with SaveJustifiedState := fun _ => some (.collaborator 1) } }

/-- The reorg service with an archive that cannot produce historical states. -/
def noHistoryService : ChainService :=
  { reorgService with
    archive := { slotArchive with HistoricalStateFromSlot := fun _ => .error (.collaborator 2) } }

/-- The reorg service with an archive whose `UpdateChainHead` fails. -/
def noHeadUpdateService : ChainService :=
  { reorgService with
    archive := { slotArchive with UpdateChainHead := fun _ _ => some (.collaborator 3) } }

/-- The store returns `block`, from its slot index or from its root index. -/
def IsStored (beaconDB : BeaconDB) (block : BeaconBlock) : Prop :=
  (∃ i, beaconDB.BlockBySlot i = .ok (some block)) ∨ (∃ d, beaconDB.Block d = .ok (some block))

/-- Every entry `slot -> root` of the index is the root of a stored block of that slot. -/
def IndexOfStoredBlocks (h : Helpers) (beaconDB : BeaconDB) (canonicalBlocks : CanonicalBlocks) :
    Prop :=
  ∀ s d, canonicalBlocks s = some d →
    ∃ b, IsStored beaconDB b ∧ b.Slot = s ∧ h.HashBeaconBlock b = .ok d

/-- A block at the largest `uint64` slot. -/
def lastSlotBlock : BeaconBlock := ⟨2 ^ 64 - 1, 0, 7⟩

/-- A block at slot 0 that names the block at the largest slot as its parent. -/
def wrappedChild : BeaconBlock := ⟨0, 7, 1⟩

/-- A store holding the block at the largest slot and the block at slot 0 that
names it as parent, with highest block slot 0. -/
def wrapStore : BeaconDB := storeOf [wrappedChild, lastSlotBlock] 0

/-! ## `CalculateRewards` (package `casper`) -/

/-- The fields of `pb.ValidatorRecord`: `CalculateRewards` reads and writes
`Balance` only; the dynasty fields are what an activity test reads. -/
structure ValidatorRecord where
  StartDynasty : Nat
  EndDynasty : Nat
  Balance : Nat
  deriving DecidableEq, Repr

/-- The field of `pb.AggregatedAttestation` read by `CalculateRewards`: the
attester bitfield, a byte slice. -/
structure AggregatedAttestation where
  AttesterBitfield : List Nat
  deriving DecidableEq, Repr

/-- What `CalculateRewards` uses from outside this repository slice. -/
structure CasperHelpers where
  /-- `ActiveValidatorIndices(validators, dynasty)` of package `casper`: the
  indices of the active validators. -/
  ActiveValidatorIndices : List ValidatorRecord → Nat → List Nat
  /-- `shared.CheckBit(bitfield, index)`. -/
  CheckBit : List Nat → Nat → Bool
  /-- `params.AttesterReward`, a `uint64`. -/
  AttesterReward : Nat

/-- The loop `for i, attesterIndex := range activeValidators` of
`CalculateRewards`: `i` is the position of `attesterIndex` in
`activeValidators`. The vote bit is read at `attesterIndex`, the balance is
written at `validators[i]`, in `uint64` arithmetic. The result is `none` when
`validators[i]` is out of range, where the Go code stops with a run-time error. -/
def rewardLoop (p : CasperHelpers) (attesterBitfield : List Nat) :
    Nat → List Nat → List ValidatorRecord → Option (List ValidatorRecord)
  | _, [], validators => some validators
  | i, attesterIndex :: rest, validators =>
    match validators[i]? with
    | none => none
    | some v =>
      let voted := p.CheckBit attesterBitfield attesterIndex
      if voted then
        rewardLoop p attesterBitfield (i + 1) rest
          (validators.set i { v with Balance := addUint64 v.Balance p.AttesterReward })
      else
        rewardLoop p attesterBitfield (i + 1) rest
          (validators.set i { v with Balance := subUint64 v.Balance p.AttesterReward })

/-- `CalculateRewards(attestations, validators, dynasty, totalDeposit,
totalParticipatedDeposit)`. The result is `none` where the Go code stops with a
run-time error (an empty attestation list, an index out of range); the error
value it returns is `nil` on every path. -/
def CalculateRewards (p : CasperHelpers) (attestations : List AggregatedAttestation)
    (validators : List ValidatorRecord) (dynasty totalDeposit totalParticipatedDeposit : Nat) :
    Option (Except Error (List ValidatorRecord)) :=
  let activeValidators := p.ActiveValidatorIndices validators dynasty
  match attestations.getLast? with
  | none => none
  | some last =>
    let attesterBitfield := last.AttesterBitfield
    let attesterFactor := mulUint64 totalParticipatedDeposit 3
    let totalFactor := mulUint64 totalDeposit 2
    if attesterFactor ≥ totalFactor then
      (rewardLoop p attesterBitfield 0 activeValidators validators).map Except.ok
    else some (.ok validators)

/-- The record `v` after the reward or penalty decided by bit `index` of the
bitfield: `AttesterReward` is added to the balance when the bit is set and
subtracted when it is not, in `uint64` arithmetic. -/
def rewardFor (p : CasperHelpers) (attesterBitfield : List Nat) (index : Nat)
    (v : ValidatorRecord) : ValidatorRecord :=
  if p.CheckBit attesterBitfield index then
    { v with Balance := addUint64 v.Balance p.AttesterReward }
  else { v with Balance := subUint64 v.Balance p.AttesterReward }

/-- The validator list the claim describes when the threshold is met: the
validator of index `j` gains `AttesterReward` when `j` is active and bit `j` of
the bitfield is set, loses `AttesterReward` when `j` is active and bit `j` is
not set, and is unchanged when `j` is not active. -/
def rewardedByIndex (p : CasperHelpers) (attesterBitfield : List Nat) (active : List Nat)
    (validators : List ValidatorRecord) : List ValidatorRecord :=
  validators.enum.map (fun jv =>
    if jv.1 ∈ active then rewardFor p attesterBitfield jv.1 jv.2 else jv.2)

/-- Concrete helpers for the runs below: a validator is active in `dynasty`
when `StartDynasty <= dynasty < EndDynasty`; bit `index` of a bitfield is
counted from the most significant bit of its first byte; the reward is 1. -/
def exampleCasper : CasperHelpers where
  ActiveValidatorIndices := fun validators dynasty =>
    (validators.enum.filter (fun jv =>
      decide (jv.2.StartDynasty ≤ dynasty ∧ dynasty < jv.2.EndDynasty))).map Prod.fst
  CheckBit := fun bitfield index =>
    decide ((bitfield.getD (index / 8) 0 / 2 ^ (7 - index % 8)) % 2 = 1)
  AttesterReward := 1

/-- Validator 0 (balance 100) is not active in dynasty 0, validator 1
(balance 200) is. -/
def secondActiveRecords : List ValidatorRecord := [⟨10, 20, 100⟩, ⟨0, 100, 200⟩]

/-- One attestation whose bitfield `01000000` has bit 1 set and bit 0 clear. -/
def bitOneAttestation : List AggregatedAttestation := [⟨[64]⟩]

/-- A block whose parent root 99 is not in the cyclic store. -/
def orphanBlock : BeaconBlock := ⟨6, 99, 60⟩

/-- The store `A <- B <- X`, `B <- P`: `P` at slot 3 and `X` at slot 4 are both
children of `B`. -/
def attachStore : BeaconDB := storeOf [blockA, blockB, blockP, blockX] 4

/-- A service over `attachStore` whose justified block is `A`, whose only
validator attests to `P`, and whose index is the chain `A <- B <- X` of the
block `X` processed last. -/
def attachService : ChainService where
  beaconDB := attachStore
  archive := slotArchive
  attsService := attestsTo blockP
  durable := ⟨.ok blockA, .ok oneValidatorState, .ok blockA, .ok oneValidatorState, none⟩
  canonicalBlocks := canonicalOf [(1, 10), (2, 20), (4, 45)]
  reorgCount := 0

/-! # Properties -/

/-! ## The slot scan of `blockChildren` and the leaf returned by `lmdGhost` -/

theorem addUint64_one_of_lt {i : Nat} (h : i + 1 < 2 ^ 64) : addUint64 i 1 = i + 1 := by
  unfold addUint64 uint64Mod
  exact Nat.mod_eq_of_lt h

theorem addUint64_lt (a b : Nat) : addUint64 a b < 2 ^ 64 := by
  unfold addUint64 uint64Mod
  exact Nat.mod_lt _ (by norm_num)

theorem childrenSpec_of_gt {beaconDB : BeaconDB} {root : Digest} {i H : Nat} (h : H < i) :
    childrenSpec beaconDB root i H = [] := by
  unfold childrenSpec
  have : H + 1 - i = 0 := by omega
  simp [this]

theorem childrenSpec_step {beaconDB : BeaconDB} {root : Digest} {i H : Nat} (h : i ≤ H) :
    childrenSpec beaconDB root i H =
      (childAt beaconDB root i).toList ++ childrenSpec beaconDB root (i + 1) H := by
  unfold childrenSpec
  have : H + 1 - i = (H + 1 - (i + 1)) + 1 := by omega
  rw [this, List.range'_succ, List.filterMap_cons]
  cases childAt beaconDB root i <;> simp

/-- When the loop returns a list, it is the accumulator followed by the
specified children of the remaining slots. -/
theorem blockChildrenLoop_ok {beaconDB : BeaconDB} {root : Digest} {H : Nat}
    (hH : H < 2 ^ 64 - 1) :
    ∀ (fuel i : Nat) (acc out : List BeaconBlock),
      blockChildrenLoop beaconDB root H fuel i acc = some (.ok out) →
      out = acc ++ childrenSpec beaconDB root i H := by
  intro fuel
  induction fuel with
  | zero => intro i acc out h; simp [blockChildrenLoop] at h
  | succ fuel ih =>
    intro i acc out h
    unfold blockChildrenLoop at h
    by_cases hi : i ≤ H
    · have hnext : addUint64 i 1 = i + 1 := addUint64_one_of_lt (by omega)
      rw [if_pos hi, hnext] at h
      rw [childrenSpec_step hi]
      cases hb : beaconDB.BlockBySlot i with
      | error e => simp [hb] at h
      | ok r =>
        cases r with
        | none =>
          simp only [hb] at h
          have := ih _ _ _ h
          simp [childAt, hb, this]
        | some c =>
          simp only [hb] at h
          by_cases hp : root = c.ParentRootHash32
          · rw [if_pos hp] at h
            have := ih _ _ _ h
            simp [childAt, hb, hp, this]
          · rw [if_neg hp] at h
            have := ih _ _ _ h
            simp [childAt, hb, hp, this]
    · rw [if_neg hi] at h
      have hout : out = acc := by simpa using h.symm
      rw [childrenSpec_of_gt (by omega), hout]; simp

/-- With `highestSlot` equal to the largest `uint64` the loop never exits. -/
theorem blockChildrenLoop_max {beaconDB : BeaconDB} {root : Digest} {H : Nat}
    (hH : 2 ^ 64 - 1 ≤ H) :
    ∀ (fuel i : Nat) (acc out : List BeaconBlock), i < 2 ^ 64 →
      blockChildrenLoop beaconDB root H fuel i acc ≠ some (.ok out) := by
  intro fuel
  induction fuel with
  | zero => intro i acc out _ h; simp [blockChildrenLoop] at h
  | succ fuel ih =>
    intro i acc out hi h
    unfold blockChildrenLoop at h
    have hle : i ≤ H := by omega
    rw [if_pos hle] at h
    have hn := addUint64_lt i 1
    cases hb : beaconDB.BlockBySlot i with
    | error e => simp [hb] at h
    | ok r =>
      cases r with
      | none => simp only [hb] at h; exact ih _ _ _ hn h
      | some c =>
        simp only [hb] at h
        by_cases hp : root = c.ParentRootHash32
        · rw [if_pos hp] at h; exact ih _ _ _ hn h
        · rw [if_neg hp] at h; exact ih _ _ _ hn h


theorem childAt_none_of_childrenSpec_nil {beaconDB : BeaconDB} {root : Digest} {lo H : Nat}
    (hnil : childrenSpec beaconDB root lo H = []) {i : Nat} (hlo : lo ≤ i) (hi : i ≤ H) :
    childAt beaconDB root i = none := by
  unfold childrenSpec at hnil
  rw [List.filterMap_eq_nil_iff] at hnil
  apply hnil
  rw [List.mem_range']
  exact ⟨i - lo, by omega, by omega⟩

theorem lmdGhostLoop_leaf (fuel : Nat) (h : Helpers) (beaconDB : BeaconDB) (startState : BeaconState)
    (voteTargets : TargetMap) (H : Nat) :
    ∀ (n : Nat) (start head : BeaconBlock),
      lmdGhostLoop fuel h beaconDB startState voteTargets H n start = some (.ok head) →
      blockChildren fuel h beaconDB head H = some (.ok []) := by
  intro n
  induction n with
  | zero => intro start head hret; simp [lmdGhostLoop] at hret
  | succ n ih =>
    intro start head hret
    unfold lmdGhostLoop at hret
    cases hc : blockChildren fuel h beaconDB start H with
    | none => simp [hc] at hret
    | some r =>
      cases r with
      | error e => simp [hc] at hret
      | ok children =>
        cases children with
        | nil =>
          simp only [hc] at hret
          have : start = head := by simpa using hret
          rw [← this]; exact hc
        | cons first rest =>
          simp only [hc] at hret
          cases hm : chooseChild fuel h beaconDB startState voteTargets first rest with
          | none => simp [hm] at hret
          | some r' =>
            cases r' with
            | error e => simp [hm] at hret
            | ok maxChild =>
              simp only [hm] at hret
              exact ih _ _ hret

/-- C3: when `lmdGhost` returns a block `head` without error, `head` is a leaf
of the known block tree: `blockChildren head highestSlot` is the empty list,
and no block stored at a slot in `(head.Slot, highestSlot]` has the root of
`head` as its parent root. -/
theorem lmdGhost_returns_leaf (fuel : Nat) (h : Helpers) (beaconDB : BeaconDB)
    (startBlock : BeaconBlock) (startState : BeaconState) (voteTargets : TargetMap)
    (head : BeaconBlock)
    (hret : lmdGhost fuel h beaconDB startBlock startState voteTargets = some (.ok head)) :
    blockChildren fuel h beaconDB head beaconDB.HighestBlockSlot = some (.ok []) ∧
    ∀ root, h.HashBeaconBlock head = .ok root →
      ∀ i, head.Slot < i → i ≤ beaconDB.HighestBlockSlot →
        ∀ c, beaconDB.BlockBySlot i = .ok (some c) → c.ParentRootHash32 ≠ root := by
  have hleaf := lmdGhostLoop_leaf fuel h beaconDB startState voteTargets _ _ _ _ hret
  refine ⟨hleaf, ?_⟩
  intro root hroot i hlo hhi c hc hpar
  unfold blockChildren at hleaf
  simp only [hroot] at hleaf
  have hH : beaconDB.HighestBlockSlot < 2 ^ 64 - 1 := by
    by_contra hcon
    exact blockChildrenLoop_max (Nat.le_of_not_lt hcon) _ _ _ _ (addUint64_lt _ _) hleaf
  have hspec := blockChildrenLoop_ok hH _ _ _ _ hleaf
  rw [addUint64_one_of_lt (by omega), List.nil_append] at hspec
  have hnone := childAt_none_of_childrenSpec_nil hspec.symm (show head.Slot + 1 ≤ i by omega) hhi
  simp [childAt, hc, hpar] at hnone

/-- C3 at the fork store: `lmdGhost` returns `D`, which has no children. -/
theorem lmdGhost_returns_leaf_witness :
    lmdGhost 10 exampleHelpers forkStore blockA (stateWithBalances [10, 30, 20]) forkTargets
        = some (.ok blockD) ∧
      blockChildren 10 exampleHelpers forkStore blockD forkStore.HighestBlockSlot = some (.ok []) :=
  ⟨by decide, (lmdGhost_returns_leaf 10 exampleHelpers forkStore blockA
    (stateWithBalances [10, 30, 20]) forkTargets blockD (by decide)).1⟩

/-- C1 (evaluation at the failing input): in the store `A <- B, C, D` with
vote weights `B = 10`, `C = 30`, `D = 20`, one iteration of `lmdGhost` at head
`A` lists the children `[B, C, D]` and moves the head to `D`, whose weight 20
is below the weight 30 of its sibling `C`; `lmdGhost` returns `D`. -/
theorem lmdGhost_chooses_lighter_child :
    blockChildren 10 exampleHelpers forkStore blockA forkStore.HighestBlockSlot
        = some (.ok [blockB, blockC, blockD]) ∧
      chooseChild 10 exampleHelpers forkStore (stateWithBalances [10, 30, 20]) forkTargets
        blockB [blockC, blockD] = some (.ok blockD) ∧
      VoteCount 10 exampleHelpers blockD (stateWithBalances [10, 30, 20]) forkTargets forkStore
        = some (.ok 20) ∧
      VoteCount 10 exampleHelpers blockC (stateWithBalances [10, 30, 20]) forkTargets forkStore
        = some (.ok 30) ∧
      lmdGhost 10 exampleHelpers forkStore blockA (stateWithBalances [10, 30, 20]) forkTargets
        = some (.ok blockD) := by
  decide

/-- C2 (evaluation at the failing input): in the store `A <- B, C, D` with
vote weights `B = 10`, `C = 20`, `D = 20`, the children `C` (slot 3) and `D`
(slot 4) tie at the maximum and one iteration of `lmdGhost` at head `A` moves
the head to `D`, the later of the two in enumeration order. -/
theorem lmdGhost_tie_goes_to_later_child :
    blockChildren 10 exampleHelpers forkStore blockA forkStore.HighestBlockSlot
        = some (.ok [blockB, blockC, blockD]) ∧
      VoteCount 10 exampleHelpers blockB (stateWithBalances [10, 20, 20]) forkTargets forkStore
        = some (.ok 10) ∧
      VoteCount 10 exampleHelpers blockC (stateWithBalances [10, 20, 20]) forkTargets forkStore
        = some (.ok 20) ∧
      VoteCount 10 exampleHelpers blockD (stateWithBalances [10, 20, 20]) forkTargets forkStore
        = some (.ok 20) ∧
      chooseChild 10 exampleHelpers forkStore (stateWithBalances [10, 20, 20]) forkTargets
        blockB [blockC, blockD] = some (.ok blockD) ∧
      lmdGhost 10 exampleHelpers forkStore blockA (stateWithBalances [10, 20, 20]) forkTargets
        = some (.ok blockD) := by
  decide

/-! ## `BlockAncestor` and the chain of parent roots -/

theorem nthParent_succ_eq_some {beaconDB : BeaconDB} {n : Nat} {block x : BeaconBlock} :
    nthParent beaconDB (n + 1) block = some x ↔
      ∃ parent, beaconDB.Block block.ParentRootHash32 = .ok (some parent) ∧
        nthParent beaconDB n parent = some x := by
  rw [nthParent]
  cases hb : beaconDB.Block block.ParentRootHash32 with
  | error e => simp
  | ok r =>
    cases r with
    | none => simp
    | some parent => simp

theorem BlockAncestor_succ_of_gt {beaconDB : BeaconDB} {slot fuel : Nat} {block parent : BeaconBlock}
    (hgt : slot < block.Slot)
    (hp : beaconDB.Block block.ParentRootHash32 = .ok (some parent)) :
    BlockAncestor beaconDB slot (fuel + 1) block = BlockAncestor beaconDB slot fuel parent := by
  rw [BlockAncestor, if_neg (by omega), if_neg (by omega)]
  simp only [hp]

/-- A block returned by `BlockAncestor` lies on the parent chain and has the
requested slot. -/
theorem BlockAncestor_sound {beaconDB : BeaconDB} {slot : Nat} :
    ∀ (fuel : Nat) (block found : BeaconBlock),
      BlockAncestor beaconDB slot fuel block = some (.ok (some found)) →
      (∃ n, nthParent beaconDB n block = some found) ∧ found.Slot = slot := by
  intro fuel
  induction fuel with
  | zero => intro block found h; simp [BlockAncestor] at h
  | succ fuel ih =>
    intro block found h
    rw [BlockAncestor] at h
    by_cases h1 : block.Slot = slot
    · rw [if_pos h1] at h
      have hb : block = found := by simpa using h
      subst hb
      exact ⟨⟨0, rfl⟩, h1⟩
    · rw [if_neg h1] at h
      by_cases h2 : block.Slot < slot
      · rw [if_pos h2] at h; simp at h
      · rw [if_neg h2] at h
        cases hb : beaconDB.Block block.ParentRootHash32 with
        | error e => simp [hb] at h
        | ok r =>
          cases r with
          | none => simp [hb] at h
          | some parent =>
            simp only [hb] at h
            obtain ⟨⟨n, hn⟩, hs⟩ := ih parent found h
            exact ⟨⟨n + 1, nthParent_succ_eq_some.2 ⟨parent, hb, hn⟩⟩, hs⟩

theorem SlotsDecreaseFrom.parent {beaconDB : BeaconDB} {block parent : BeaconBlock}
    (hdec : SlotsDecreaseFrom beaconDB block)
    (hp : beaconDB.Block block.ParentRootHash32 = .ok (some parent)) :
    SlotsDecreaseFrom beaconDB parent := by
  intro n x q hn hq
  exact hdec (n + 1) x q (nthParent_succ_eq_some.2 ⟨parent, hp, hn⟩) hq

/-- On a chain with decreasing slots, a block of the requested slot that lies
`n` links up the chain is returned as soon as the fuel exceeds `n`, and `n` is
at most the slot distance. -/
theorem BlockAncestor_complete {beaconDB : BeaconDB} {slot : Nat} :
    ∀ (n : Nat) (block found : BeaconBlock), SlotsDecreaseFrom beaconDB block →
      nthParent beaconDB n block = some found → found.Slot = slot →
      slot ≤ block.Slot ∧ n ≤ block.Slot - slot ∧
        ∀ fuel, n < fuel → BlockAncestor beaconDB slot fuel block = some (.ok (some found)) := by
  intro n
  induction n with
  | zero =>
    intro block found _ hn hs
    have hb : block = found := by simpa [nthParent] using hn
    subst hb
    refine ⟨by omega, by omega, ?_⟩
    intro fuel hf
    obtain ⟨f, rfl⟩ : ∃ f, fuel = f + 1 := ⟨fuel - 1, by omega⟩
    rw [BlockAncestor, if_pos hs]
  | succ n ih =>
    intro block found hdec hn hs
    obtain ⟨parent, hp, hn'⟩ := nthParent_succ_eq_some.1 hn
    obtain ⟨h1, h2, h3⟩ := ih parent found (hdec.parent hp) hn' hs
    have hlt : parent.Slot < block.Slot := hdec 0 block parent rfl hp
    refine ⟨by omega, by omega, ?_⟩
    intro fuel hf
    obtain ⟨f, rfl⟩ : ∃ f, fuel = f + 1 := ⟨fuel - 1, by omega⟩
    rw [BlockAncestor_succ_of_gt (by omega) hp]
    exact h3 f (by omega)

/-- On a chain with decreasing slots that passes below the requested slot
without a block at that slot, `BlockAncestor` returns `nil` without error. -/
theorem BlockAncestor_absent {beaconDB : BeaconDB} {slot : Nat} :
    ∀ (n : Nat) (block x : BeaconBlock), SlotsDecreaseFrom beaconDB block →
      nthParent beaconDB n block = some x → x.Slot < slot →
      (∀ m, m < n → ∀ y, nthParent beaconDB m block = some y → y.Slot ≠ slot) →
      ∀ fuel, block.Slot - slot < fuel → BlockAncestor beaconDB slot fuel block = some (.ok none) := by
  intro n
  induction n with
  | zero =>
    intro block x _ hn hx _ fuel hf
    have hb : block = x := by simpa [nthParent] using hn
    subst hb
    obtain ⟨f, rfl⟩ : ∃ f, fuel = f + 1 := ⟨fuel - 1, by omega⟩
    rw [BlockAncestor, if_neg (by omega), if_pos hx]
  | succ n ih =>
    intro block x hdec hn hx hne fuel hf
    obtain ⟨f, rfl⟩ : ∃ f, fuel = f + 1 := ⟨fuel - 1, by omega⟩
    have h0 : block.Slot ≠ slot := hne 0 (by omega) block rfl
    by_cases hlt : block.Slot < slot
    · rw [BlockAncestor, if_neg h0, if_pos hlt]
    · obtain ⟨parent, hp, hn'⟩ := nthParent_succ_eq_some.1 hn
      have hdecr : parent.Slot < block.Slot := hdec 0 block parent rfl hp
      rw [BlockAncestor_succ_of_gt (by omega) hp]
      refine ih parent x (hdec.parent hp) hn' hx ?_ f (by omega)
      intro m hm y hy
      exact hne (m + 1) (by omega) y (nthParent_succ_eq_some.2 ⟨parent, hp, hy⟩)

/-- C5: on a parent chain along which slots strictly decrease, and with fuel
above the slot distance, `BlockAncestor block slot` returns `found` exactly
when `found` is reached from `block` by following parent roots zero or more
times and `found.Slot = slot`; it returns `block` itself when
`block.Slot = slot`; and it returns `nil` without error when the chain reaches
a block of smaller slot without meeting a block of slot `slot`. -/
theorem BlockAncestor_iff_parent_chain (beaconDB : BeaconDB) (block : BeaconBlock) (slot fuel : Nat)
    (hdec : SlotsDecreaseFrom beaconDB block) (hfuel : block.Slot - slot < fuel) :
    (∀ found, BlockAncestor beaconDB slot fuel block = some (.ok (some found)) ↔
        ((∃ n, nthParent beaconDB n block = some found) ∧ found.Slot = slot)) ∧
      (block.Slot = slot → BlockAncestor beaconDB slot fuel block = some (.ok (some block))) ∧
      ((∃ n x, nthParent beaconDB n block = some x ∧ x.Slot < slot ∧
          ∀ m, m < n → ∀ y, nthParent beaconDB m block = some y → y.Slot ≠ slot) →
        BlockAncestor beaconDB slot fuel block = some (.ok none)) := by
  refine ⟨?_, ?_, ?_⟩
  · intro found
    constructor
    · exact BlockAncestor_sound fuel block found
    · rintro ⟨⟨n, hn⟩, hs⟩
      obtain ⟨_, hle, hret⟩ := BlockAncestor_complete n block found hdec hn hs
      exact hret fuel (by omega)
  · intro hs
    exact (BlockAncestor_complete 0 block block hdec rfl hs).2.2 fuel (by omega)
  · rintro ⟨n, x, hn, hx, hne⟩
    exact BlockAncestor_absent n block x hdec hn hx hne fuel hfuel


theorem forkStore_slotsDecrease : SlotsDecreaseFrom forkStore blockD := by
  intro n x parent hn hp
  rcases n with _ | _ | n
  · simp [nthParent] at hn
    subst hn
    simp [forkStore, storeOf, blockA, blockB, blockC, blockD] at hp
    subst hp
    decide
  · simp [nthParent, forkStore, storeOf, blockA, blockB, blockC, blockD] at hn
    subst hn
    simp [forkStore, storeOf, blockA, blockB, blockC, blockD] at hp
  · simp [nthParent, forkStore, storeOf, blockA, blockB, blockC, blockD] at hn

/-- C5 at the fork store: the ancestor of `D` at slot 1 is `A`, one link up. -/
theorem BlockAncestor_iff_parent_chain_witness :
    SlotsDecreaseFrom forkStore blockD ∧ blockD.Slot - 1 < 4 ∧
      BlockAncestor forkStore 1 4 blockD = some (.ok (some blockA)) :=
  ⟨forkStore_slotsDecrease, by decide,
    ((BlockAncestor_iff_parent_chain forkStore blockD 1 4 forkStore_slotsDecrease
      (by decide)).1 blockA).2 ⟨⟨1, by decide⟩, by decide⟩⟩

/-! ### Errors of `BlockAncestor` -/

theorem BlockAncestor_error_sound {beaconDB : BeaconDB} {slot : Nat} :
    ∀ (fuel : Nat) (block : BeaconBlock) (e : Error),
      BlockAncestor beaconDB slot fuel block = some (.error e) →
      ∃ n x, nthParent beaconDB n block = some x ∧
        (∀ m, m ≤ n → ∀ y, nthParent beaconDB m block = some y → slot < y.Slot) ∧
        ParentLookupFails beaconDB x := by
  intro fuel
  induction fuel with
  | zero => intro block e h; simp [BlockAncestor] at h
  | succ fuel ih =>
    intro block e h
    rw [BlockAncestor] at h
    by_cases h1 : block.Slot = slot
    · rw [if_pos h1] at h; simp at h
    · rw [if_neg h1] at h
      by_cases h2 : block.Slot < slot
      · rw [if_pos h2] at h; simp at h
      · rw [if_neg h2] at h
        have hgt : slot < block.Slot := by omega
        have hzero : ∀ m, m ≤ 0 → ∀ y, nthParent beaconDB m block = some y → slot < y.Slot := by
          intro m hm y hy
          have hm0 : m = 0 := by omega
          subst hm0
          have : block = y := by simpa [nthParent] using hy
          rw [← this]; exact hgt
        cases hb : beaconDB.Block block.ParentRootHash32 with
        | error err => exact ⟨0, block, rfl, hzero, Or.inl ⟨err, hb⟩⟩
        | ok r =>
          cases r with
          | none => exact ⟨0, block, rfl, hzero, Or.inr hb⟩
          | some parent =>
            simp only [hb] at h
            obtain ⟨n, x, hn, hall, hfail⟩ := ih parent e h
            refine ⟨n + 1, x, nthParent_succ_eq_some.2 ⟨parent, hb, hn⟩, ?_, hfail⟩
            intro m hm y hy
            rcases m with _ | m
            · exact hzero 0 (le_refl 0) y hy
            · obtain ⟨q, hq, hy'⟩ := nthParent_succ_eq_some.1 hy
              rw [hb] at hq
              have hqp : parent = q := by simpa using hq
              subst hqp
              exact hall m (by omega) y hy'

theorem BlockAncestor_error_complete {beaconDB : BeaconDB} {slot : Nat} :
    ∀ (n : Nat) (block x : BeaconBlock), nthParent beaconDB n block = some x →
      (∀ m, m ≤ n → ∀ y, nthParent beaconDB m block = some y → slot < y.Slot) →
      ParentLookupFails beaconDB x →
      ∃ e, BlockAncestor beaconDB slot (n + 1) block = some (.error e) := by
  intro n
  induction n with
  | zero =>
    intro block x hn hall hfail
    have hb : block = x := by simpa [nthParent] using hn
    subst hb
    have hgt : slot < block.Slot := hall 0 (le_refl 0) block rfl
    rw [BlockAncestor, if_neg (by omega), if_neg (by omega)]
    rcases hfail with ⟨err, herr⟩ | hnone
    · exact ⟨.couldNotGetParentBlock err, by simp only [herr]⟩
    · exact ⟨.parentBlockDoesNotExist, by simp only [hnone]⟩
  | succ n ih =>
    intro block x hn hall hfail
    have hgt : slot < block.Slot := hall 0 (by omega) block rfl
    obtain ⟨parent, hp, hn'⟩ := nthParent_succ_eq_some.1 hn
    rw [BlockAncestor_succ_of_gt hgt hp]
    refine ih parent x hn' ?_ hfail
    intro m hm y hy
    exact hall (m + 1) (by omega) y (nthParent_succ_eq_some.2 ⟨parent, hp, hy⟩)

/-- C6: `BlockAncestor block slot` returns an error exactly when its parent
walk from `block`, passing only through blocks of slot greater than `slot`,
reaches a block whose parent lookup fails or resolves to no block; and it
never returns an error when `block.Slot ≤ slot`. -/
theorem BlockAncestor_error_iff (beaconDB : BeaconDB) (block : BeaconBlock) (slot : Nat) :
    ((∃ fuel e, BlockAncestor beaconDB slot fuel block = some (.error e)) ↔
        ∃ n x, nthParent beaconDB n block = some x ∧
          (∀ m, m ≤ n → ∀ y, nthParent beaconDB m block = some y → slot < y.Slot) ∧
          ParentLookupFails beaconDB x) ∧
      (block.Slot ≤ slot → ∀ fuel e, BlockAncestor beaconDB slot fuel block ≠ some (.error e)) := by
  constructor
  · constructor
    · rintro ⟨fuel, e, h⟩
      exact BlockAncestor_error_sound fuel block e h
    · rintro ⟨n, x, hn, hall, hfail⟩
      obtain ⟨e, he⟩ := BlockAncestor_error_complete n block x hn hall hfail
      exact ⟨n + 1, e, he⟩
  · intro hle fuel e h
    obtain ⟨n, x, _, hall, _⟩ := BlockAncestor_error_sound fuel block e h
    have := hall 0 (Nat.zero_le n) block rfl
    omega

/-! ## `blockChildren` against its specification -/

/-- Enough fuel lets the loop run to its exit, whatever the store answers. -/
theorem blockChildrenLoop_isSome (beaconDB : BeaconDB) (root : Digest) {H : Nat}
    (hH : H < 2 ^ 64 - 1) :
    ∀ (fuel i : Nat) (acc : List BeaconBlock), H + 1 - i < fuel →
      (blockChildrenLoop beaconDB root H fuel i acc).isSome = true := by
  intro fuel
  induction fuel with
  | zero => intro i acc hf; omega
  | succ fuel ih =>
    intro i acc hf
    unfold blockChildrenLoop
    by_cases hi : i ≤ H
    · have hnext : addUint64 i 1 = i + 1 := addUint64_one_of_lt (by omega)
      rw [if_pos hi, hnext]
      cases hb : beaconDB.BlockBySlot i with
      | error e => simp
      | ok r =>
        cases r with
        | none => simp only; exact ih _ _ (by omega)
        | some c =>
          simp only
          by_cases hp : root = c.ParentRootHash32
          · rw [if_pos hp]; exact ih _ _ (by omega)
          · rw [if_neg hp]; exact ih _ _ (by omega)
    · rw [if_neg hi]; rfl

/-- When no lookup in the scanned range fails, the loop does not return an error. -/
theorem blockChildrenLoop_no_error {beaconDB : BeaconDB} {root : Digest} {H : Nat}
    (hH : H < 2 ^ 64 - 1) :
    ∀ (fuel i : Nat) (acc : List BeaconBlock) (e : Error),
      (∀ j, i ≤ j → j ≤ H → ∃ r, beaconDB.BlockBySlot j = .ok r) →
      blockChildrenLoop beaconDB root H fuel i acc ≠ some (.error e) := by
  intro fuel
  induction fuel with
  | zero => intro i acc e _ h; simp [blockChildrenLoop] at h
  | succ fuel ih =>
    intro i acc e hok h
    unfold blockChildrenLoop at h
    by_cases hi : i ≤ H
    · have hnext : addUint64 i 1 = i + 1 := addUint64_one_of_lt (by omega)
      rw [if_pos hi, hnext] at h
      have hok' : ∀ j, i + 1 ≤ j → j ≤ H → ∃ r, beaconDB.BlockBySlot j = .ok r :=
        fun j h1 h2 => hok j (by omega) h2
      obtain ⟨r, hr⟩ := hok i (le_refl i) hi
      cases r with
      | none => simp only [hr] at h; exact ih _ _ _ hok' h
      | some c =>
        simp only [hr] at h
        by_cases hp : root = c.ParentRootHash32
        · rw [if_pos hp] at h; exact ih _ _ _ hok' h
        · rw [if_neg hp] at h; exact ih _ _ _ hok' h
    · rw [if_neg hi] at h; simp at h

theorem childAt_slot {beaconDB : BeaconDB} {root : Digest} {i : Nat} {c : BeaconBlock}
    (hslot : ∀ j b, beaconDB.BlockBySlot j = .ok (some b) → b.Slot = j)
    (hc : childAt beaconDB root i = some c) : c.Slot = i := by
  unfold childAt at hc
  cases hb : beaconDB.BlockBySlot i with
  | error e => simp [hb] at hc
  | ok r =>
    cases r with
    | none => simp [hb] at hc
    | some b =>
      simp only [hb] at hc
      by_cases hp : root = b.ParentRootHash32
      · rw [if_pos hp] at hc
        have : b = c := by simpa using hc
        rw [← this]; exact hslot i b hb
      · rw [if_neg hp] at hc; simp at hc

theorem mem_childrenSpec {beaconDB : BeaconDB} {root : Digest} {lo H : Nat} {c : BeaconBlock} :
    c ∈ childrenSpec beaconDB root lo H ↔ ∃ i, lo ≤ i ∧ i ≤ H ∧ childAt beaconDB root i = some c := by
  unfold childrenSpec
  rw [List.mem_filterMap]
  constructor
  · rintro ⟨i, hi, hc⟩
    rw [List.mem_range'] at hi
    obtain ⟨k, hk, rfl⟩ := hi
    exact ⟨lo + 1 * k, by omega, by omega, hc⟩
  · rintro ⟨i, h1, h2, hc⟩
    refine ⟨i, ?_, hc⟩
    rw [List.mem_range']
    exact ⟨i - lo, by omega, by omega⟩

/-- In a store whose slot index is faithful, the specified children are in
strictly ascending slot order. -/
theorem childrenSpec_pairwise {beaconDB : BeaconDB} {root : Digest}
    (hslot : ∀ j b, beaconDB.BlockBySlot j = .ok (some b) → b.Slot = j) (H : Nat) :
    ∀ (len lo : Nat), lo + len = H + 1 →
      (childrenSpec beaconDB root lo H).Pairwise (fun a b => a.Slot < b.Slot) := by
  intro len
  induction len with
  | zero =>
    intro lo hlen
    rw [childrenSpec_of_gt (by omega)]
    exact List.Pairwise.nil
  | succ len ih =>
    intro lo hlen
    rw [childrenSpec_step (by omega)]
    have htail := ih (lo + 1) (by omega)
    cases hc : childAt beaconDB root lo with
    | none => simpa using htail
    | some c =>
      simp only [Option.toList, List.singleton_append]
      refine List.Pairwise.cons ?_ htail
      intro d hd
      obtain ⟨i, h1, _, hi⟩ := mem_childrenSpec.1 hd
      rw [childAt_slot hslot hc, childAt_slot hslot hi]
      omega

/-- C9 (as amended): for a block `b` with `b.Slot < 2 ^ 64 - 1` whose root is
`root`, a highest slot `H < 2 ^ 64 - 1`, and a store in which no lookup of a
slot in `b.Slot + 1 .. H` fails, `blockChildren b H` returns (once the fuel
covers the scanned range) exactly the blocks stored at the slots
`b.Slot + 1, ..., H`, in ascending order of the slot queried, that are present
and whose parent root is `root`; the list is empty when `H ≤ b.Slot`; and when
the slot index is faithful the list is in strictly ascending slot order. -/
theorem blockChildren_eq_spec (fuel : Nat) (h : Helpers) (beaconDB : BeaconDB) (b : BeaconBlock)
    (H : Nat) (root : Digest)
    (hroot : h.HashBeaconBlock b = .ok root)
    (hb : b.Slot < 2 ^ 64 - 1) (hH : H < 2 ^ 64 - 1)
    (hok : ∀ j, b.Slot < j → j ≤ H → ∃ r, beaconDB.BlockBySlot j = .ok r)
    (hfuel : H - b.Slot < fuel) :
    blockChildren fuel h beaconDB b H = some (.ok (childrenSpec beaconDB root (b.Slot + 1) H)) ∧
      (H ≤ b.Slot → blockChildren fuel h beaconDB b H = some (.ok [])) ∧
      ((∀ j c, beaconDB.BlockBySlot j = .ok (some c) → c.Slot = j) →
        (childrenSpec beaconDB root (b.Slot + 1) H).Pairwise (fun x y => x.Slot < y.Slot)) := by
  have hstart : addUint64 b.Slot 1 = b.Slot + 1 := addUint64_one_of_lt (by omega)
  have hmain : blockChildren fuel h beaconDB b H
      = some (.ok (childrenSpec beaconDB root (b.Slot + 1) H)) := by
    unfold blockChildren
    simp only [hroot, hstart]
    have hsome := blockChildrenLoop_isSome beaconDB root hH fuel
      (b.Slot + 1) [] (by omega)
    cases hres : blockChildrenLoop beaconDB root H fuel (b.Slot + 1) [] with
    | none => rw [hres] at hsome; simp at hsome
    | some r =>
      cases r with
      | error e =>
        exact absurd hres (blockChildrenLoop_no_error hH fuel _ _ e
          (fun j h1 h2 => hok j (by omega) h2))
      | ok out =>
        have := blockChildrenLoop_ok hH _ _ _ _ hres
        rw [this, List.nil_append]
  refine ⟨hmain, ?_, ?_⟩
  · intro hle
    rw [hmain, childrenSpec_of_gt (by omega)]
  · intro hslot
    by_cases hle : b.Slot + 1 ≤ H + 1
    · exact childrenSpec_pairwise hslot H (H + 1 - (b.Slot + 1)) (b.Slot + 1) (by omega)
    · rw [childrenSpec_of_gt (by omega)]
      exact List.Pairwise.nil

/-- C9 at the fork store: the children of `A` up to slot 4 are `B`, `C`, `D`. -/
theorem blockChildren_eq_spec_witness :
    blockChildren 4 exampleHelpers forkStore blockA 4
      = some (.ok (childrenSpec forkStore 10 (blockA.Slot + 1) 4)) :=
  (blockChildren_eq_spec 4 exampleHelpers forkStore blockA 4 10 (by decide) (by decide)
    (by decide) (fun j _ _ => ⟨_, rfl⟩) (by decide)).1

/-- With `highestSlot` the largest `uint64` and a store that answers every
lookup, the loop never exits. -/
theorem blockChildrenLoop_diverges {beaconDB : BeaconDB} {root : Digest} {H : Nat}
    (hH : 2 ^ 64 - 1 ≤ H) (hok : ∀ j, ∃ r, beaconDB.BlockBySlot j = .ok r) :
    ∀ (fuel i : Nat) (acc : List BeaconBlock), i < 2 ^ 64 →
      blockChildrenLoop beaconDB root H fuel i acc = none := by
  intro fuel
  induction fuel with
  | zero => intro i acc _; rfl
  | succ fuel ih =>
    intro i acc hi
    unfold blockChildrenLoop
    have hle : i ≤ H := by omega
    rw [if_pos hle]
    have hn := addUint64_lt i 1
    obtain ⟨r, hr⟩ := hok i
    cases r with
    | none => simp only [hr]; exact ih _ _ hn
    | some c =>
      simp only [hr]
      by_cases hp : root = c.ParentRootHash32
      · rw [if_pos hp]; exact ih _ _ hn
      · rw [if_neg hp]; exact ih _ _ hn

/-- C9 (counterexample): no lookup fails in either store. For the block `b` at
slot `2 ^ 64 - 1` and highest slot `0 ≤ b.Slot`, `blockChildren b 0` is not
empty: the start slot `b.Slot + 1` wraps to 0 and the block stored at slot 0,
whose parent root is the root of `b`, is returned. For highest slot
`2 ^ 64 - 1`, `blockChildren A (2 ^ 64 - 1)` returns no list at all, because
`i <= highestSlot` holds for every `uint64`. -/
theorem blockChildren_wraps_at_max_slot :
    blockChildren 2 exampleHelpers (storeOf [⟨0, 7, 1⟩] 0) ⟨2 ^ 64 - 1, 0, 7⟩ 0
        = some (.ok [⟨0, 7, 1⟩]) ∧
      ∀ fuel, blockChildren fuel exampleHelpers forkStore blockA (2 ^ 64 - 1) = none := by
  refine ⟨by decide, ?_⟩
  intro fuel
  unfold blockChildren
  exact blockChildrenLoop_diverges (le_refl _) (fun j => ⟨_, rfl⟩) fuel _ [] (addUint64_lt _ _)

/-! ## `VoteCount` -/

theorem toInt64_of_range {n : Int} (h0 : 0 ≤ n) (h1 : n < 2 ^ 63) : toInt64 n = n := by
  unfold toInt64
  omega

theorem VoteCountLoop_cons (fuel : Nat) (h : Helpers) (block : BeaconBlock) (state : BeaconState)
    (beaconDB : BeaconDB) (entry : Nat × BeaconBlock) (rest : TargetMap) (balances : Int) :
    VoteCountLoop fuel h block state beaconDB (entry :: rest) balances =
      match entryVote fuel h block state beaconDB entry with
      | none => none
      | some (.error err) => some (.error err)
      | some (.ok none) => VoteCountLoop fuel h block state beaconDB rest balances
      | some (.ok (some v)) =>
        VoteCountLoop fuel h block state beaconDB rest (toInt64 (balances + v)) := by
  obtain ⟨validatorIndex, targetBlock⟩ := entry
  rw [VoteCountLoop, entryVote]
  cases hba : BlockAncestor beaconDB block.Slot fuel targetBlock with
  | none => rfl
  | some r =>
    cases r with
    | error e => rfl
    | ok a =>
      cases a with
      | none => rfl
      | some ancestor =>
        simp only
        cases h.HashBeaconBlock ancestor with
        | error e => rfl
        | ok ancestorRoot =>
          simp only
          cases h.HashBeaconBlock block with
          | error e => rfl
          | ok blockRoot =>
            simp only
            by_cases heq : blockRoot = ancestorRoot
            · simp only [if_pos heq]
            · simp only [if_neg heq]

/-- The vote of an entry whose ancestor walk and hashing succeed. -/
theorem entryVote_of_ok {fuel : Nat} {h : Helpers} {candidate : BeaconBlock} {state : BeaconState}
    {beaconDB : BeaconDB} {entry : Nat × BeaconBlock} {root : Digest}
    (hroot : h.HashBeaconBlock candidate = .ok root)
    (hwalk : ∃ r, BlockAncestor beaconDB candidate.Slot fuel entry.2 = some (.ok r))
    (hanc : ∀ a, BlockAncestor beaconDB candidate.Slot fuel entry.2 = some (.ok (some a)) →
      ∃ d, h.HashBeaconBlock a = .ok d) :
    entryVote fuel h candidate state beaconDB entry =
      some (.ok (if supports fuel h candidate beaconDB entry = true
        then some (toInt64 (h.EffectiveBalance state entry.1)) else none)) := by
  obtain ⟨r, hr⟩ := hwalk
  unfold entryVote supports
  cases r with
  | none => simp [hr]
  | some a =>
    obtain ⟨d, hd⟩ := hanc a hr
    simp only [hr, hd, hroot]
    by_cases heq : root = d
    · simp [heq]
    · simp [heq]

theorem VoteCountLoop_eq_sum (fuel : Nat) (h : Helpers) (candidate : BeaconBlock)
    (state : BeaconState) (beaconDB : BeaconDB) (root : Digest)
    (hroot : h.HashBeaconBlock candidate = .ok root) :
    ∀ (targets : TargetMap) (balances : Int),
      (∀ entry ∈ targets, ∃ r, BlockAncestor beaconDB candidate.Slot fuel entry.2 = some (.ok r)) →
      (∀ entry ∈ targets, ∀ a,
        BlockAncestor beaconDB candidate.Slot fuel entry.2 = some (.ok (some a)) →
        ∃ d, h.HashBeaconBlock a = .ok d) →
      0 ≤ balances →
      balances + (supportingBalance fuel h candidate state targets beaconDB : Int) < 2 ^ 63 →
      VoteCountLoop fuel h candidate state beaconDB targets balances =
        some (.ok (balances + (supportingBalance fuel h candidate state targets beaconDB : Int))) := by
  intro targets
  induction targets with
  | nil =>
    intro balances _ _ _ _
    simp [VoteCountLoop, supportingBalance]
  | cons entry rest ih =>
    intro balances hwalk hanc h0 hsum
    have hw' : ∀ e ∈ rest, ∃ r, BlockAncestor beaconDB candidate.Slot fuel e.2 = some (.ok r) :=
      fun e he => hwalk e (List.mem_cons_of_mem _ he)
    have ha' : ∀ e ∈ rest, ∀ a,
        BlockAncestor beaconDB candidate.Slot fuel e.2 = some (.ok (some a)) →
        ∃ d, h.HashBeaconBlock a = .ok d :=
      fun e he => hanc e (List.mem_cons_of_mem _ he)
    rw [VoteCountLoop_cons,
      entryVote_of_ok hroot (hwalk entry (List.mem_cons_self _ _))
        (hanc entry (List.mem_cons_self _ _))]
    by_cases hs : supports fuel h candidate beaconDB entry = true
    · have hsb : supportingBalance fuel h candidate state (entry :: rest) beaconDB
          = h.EffectiveBalance state entry.1
            + supportingBalance fuel h candidate state rest beaconDB := by
        simp [supportingBalance, List.filter_cons, hs]
      rw [hsb] at hsum ⊢
      push_cast at hsum ⊢
      have hnn : (0 : Int) ≤ (supportingBalance fuel h candidate state rest beaconDB : Int) :=
        Int.ofNat_nonneg _
      have hen : (0 : Int) ≤ (h.EffectiveBalance state entry.1 : Int) := Int.ofNat_nonneg _
      simp only [if_pos hs]
      rw [toInt64_of_range hen (by omega), toInt64_of_range (by omega) (by omega),
        ih _ hw' ha' (by omega) (by omega)]
      congr 2
      omega
    · have hsb : supportingBalance fuel h candidate state (entry :: rest) beaconDB
          = supportingBalance fuel h candidate state rest beaconDB := by
        simp [supportingBalance, List.filter_cons, hs]
      rw [hsb] at hsum ⊢
      simp only [if_neg hs]
      exact ih _ hw' ha' h0 hsum

/-- C7 (as amended): when no ancestor walk fails, the candidate and the
ancestors found can be hashed, and the sum is below `2 ^ 63` (the tally is a Go
`int`), `VoteCount candidate state targets` is exactly the sum of
`EffectiveBalance(state, v)` over the entries `(v, t)` of `targets` for which
`BlockAncestor(t, candidate.Slot)` is present and has the same root as
`candidate`; nothing is divided by a balance increment. -/
theorem VoteCount_eq_sum (fuel : Nat) (h : Helpers) (candidate : BeaconBlock)
    (state : BeaconState) (targets : TargetMap) (beaconDB : BeaconDB) (root : Digest)
    (hroot : h.HashBeaconBlock candidate = .ok root)
    (hwalk : ∀ entry ∈ targets, ∃ r,
      BlockAncestor beaconDB candidate.Slot fuel entry.2 = some (.ok r))
    (hanc : ∀ entry ∈ targets, ∀ a,
      BlockAncestor beaconDB candidate.Slot fuel entry.2 = some (.ok (some a)) →
      ∃ d, h.HashBeaconBlock a = .ok d)
    (hsum : supportingBalance fuel h candidate state targets beaconDB < 2 ^ 63) :
    VoteCount fuel h candidate state targets beaconDB =
      some (.ok (supportingBalance fuel h candidate state targets beaconDB : Int)) := by
  have := VoteCountLoop_eq_sum fuel h candidate state beaconDB root hroot targets 0 hwalk hanc
    (le_refl 0) (by
      have : ((supportingBalance fuel h candidate state targets beaconDB : Nat) : Int) < 2 ^ 63 := by
        exact_mod_cast hsum
      omega)
  simpa [VoteCount] using this

/-- C7 at the fork store: the vote count of `C` is the balance 30 of validator 1. -/
theorem VoteCount_eq_sum_witness :
    VoteCount 10 exampleHelpers blockC (stateWithBalances [10, 30, 20]) forkTargets forkStore
      = some (.ok 30) :=
  VoteCount_eq_sum 10 exampleHelpers blockC (stateWithBalances [10, 30, 20]) forkTargets
    forkStore 30 (by decide)
    (by
      intro entry he
      simp only [forkTargets, List.mem_cons, List.mem_singleton, List.not_mem_nil, or_false] at he
      rcases he with rfl | rfl | rfl
      · exact ⟨none, by decide⟩
      · exact ⟨some blockC, by decide⟩
      · exact ⟨none, by decide⟩)
    (fun _ _ a _ => ⟨a.StateRootHash32, rfl⟩) (by decide)

theorem toInt64_add_toInt64 (a b : Int) : toInt64 (toInt64 a + toInt64 b) = toInt64 (a + b) := by
  unfold toInt64
  omega

theorem entryVote_unanimous (n i : Nat) (hi : i < n) :
    entryVote 1 exampleHelpers blockB (fullDepositState n) forkStore (i, blockB)
      = some (.ok (some 32000000000)) := by
  have hbal : exampleHelpers.EffectiveBalance (fullDepositState n) i = 32000000000 := by
    simp [exampleHelpers, fullDepositState, List.getD_eq_getElem?_getD, List.getElem?_replicate, hi]
  have hba : BlockAncestor forkStore blockB.Slot 1 blockB = some (.ok (some blockB)) := by decide
  have hh : exampleHelpers.HashBeaconBlock blockB = .ok 20 := rfl
  unfold entryVote
  simp only [hba, hh, hbal, if_true]
  decide

theorem VoteCountLoop_unanimous (n : Nat) :
    ∀ (len k : Nat) (acc : Int), k + len ≤ n →
      VoteCountLoop 1 exampleHelpers blockB (fullDepositState n) forkStore
          ((List.range' k len).map (fun i => (i, blockB))) (toInt64 acc)
        = some (.ok (toInt64 (acc + len * 32000000000))) := by
  intro len
  induction len with
  | zero => intro k acc _; simp [VoteCountLoop]
  | succ len ih =>
    intro k acc hk
    rw [List.range'_succ, List.map_cons, VoteCountLoop_cons, entryVote_unanimous n k (by omega)]
    simp only
    have h32 : (32000000000 : Int) = toInt64 32000000000 := by decide
    rw [h32, toInt64_add_toInt64, ← h32, ih (k + 1) _ (by omega)]
    congr 3
    push_cast
    ring

theorem supportingBalance_unanimous (n : Nat) :
    ∀ (len k : Nat), k + len ≤ n →
      supportingBalance 1 exampleHelpers blockB (fullDepositState n)
          ((List.range' k len).map (fun i => (i, blockB))) forkStore
        = len * 32000000000 := by
  intro len
  induction len with
  | zero => intro k _; simp [supportingBalance]
  | succ len ih =>
    intro k hk
    have hs : supports 1 exampleHelpers blockB forkStore (k, blockB) = true := by
      show supports 1 exampleHelpers blockB forkStore (k, blockB) = true
      unfold supports
      have hba : BlockAncestor forkStore blockB.Slot 1 blockB = some (.ok (some blockB)) := by
        decide
      simp only [hba]
      decide
    have hbal : exampleHelpers.EffectiveBalance (fullDepositState n) k = 32000000000 := by
      have hk' : k < n := by omega
      simp [exampleHelpers, fullDepositState, List.getD_eq_getElem?_getD,
        List.getElem?_replicate, hk']
    have ih' := ih (k + 1) (by omega)
    unfold supportingBalance at ih' ⊢
    rw [List.range'_succ, List.map_cons, List.filter_cons, if_pos hs, List.map_cons,
      List.sum_cons, ih', hbal]
    ring

/-- C7 (counterexample): no ancestor walk fails, and with 288230377
validators that each hold the maximum deposit and all attest to `B`, the sum
of effective balances supporting `B` is 9223372064000000000, yet `VoteCount`
returns the negative number -9223372009709551616: the Go `int` tally wrapped. -/
theorem VoteCount_wraps_int64 :
    (∀ entry ∈ unanimousTargets 288230377 blockB,
        BlockAncestor forkStore blockB.Slot 1 entry.2 = some (.ok (some blockB))) ∧
      supportingBalance 1 exampleHelpers blockB (fullDepositState 288230377)
        (unanimousTargets 288230377 blockB) forkStore = 9223372064000000000 ∧
      VoteCount 1 exampleHelpers blockB (fullDepositState 288230377)
        (unanimousTargets 288230377 blockB) forkStore = some (.ok (-9223372009709551616)) := by
  refine ⟨?_, ?_, ?_⟩
  · intro entry he
    unfold unanimousTargets at he
    rw [List.mem_map] at he
    obtain ⟨i, _, rfl⟩ := he
    show BlockAncestor forkStore blockB.Slot 1 blockB = some (.ok (some blockB))
    decide
  · exact supportingBalance_unanimous 288230377 288230377 0 (le_refl _)
  · have h := VoteCountLoop_unanimous 288230377 288230377 0 0 (le_refl _)
    have h0 : toInt64 0 = 0 := by decide
    rw [h0] at h
    unfold VoteCount unanimousTargets
    rw [h]
    decide

/-! ## Independence of the listing order of the target map -/

/-- With decreasing slots along the chain, `BlockAncestor` returns as soon as
the fuel exceeds the slot distance. -/
theorem BlockAncestor_isSome {beaconDB : BeaconDB} {slot : Nat} :
    ∀ (fuel : Nat) (block : BeaconBlock), SlotsDecreaseFrom beaconDB block →
      block.Slot - slot < fuel → BlockAncestor beaconDB slot fuel block ≠ none := by
  intro fuel
  induction fuel with
  | zero => intro block _ hf; omega
  | succ fuel ih =>
    intro block hdec hf
    rw [BlockAncestor]
    by_cases h1 : block.Slot = slot
    · rw [if_pos h1]; simp
    · rw [if_neg h1]
      by_cases h2 : block.Slot < slot
      · rw [if_pos h2]; simp
      · rw [if_neg h2]
        cases hb : beaconDB.Block block.ParentRootHash32 with
        | error e => simp
        | ok r =>
          cases r with
          | none => simp
          | some parent =>
            simp only
            have hlt : parent.Slot < block.Slot := hdec 0 block parent rfl hb
            exact ih parent (hdec.parent hb) (by omega)

theorem outcome_cases {α : Type} {r1 r2 : Res α} (hr : outcome r1 = outcome r2) :
    (r1 = none ∧ r2 = none) ∨ (∃ e1 e2, r1 = some (.error e1) ∧ r2 = some (.error e2)) ∨
      ∃ v, r1 = some (.ok v) ∧ r2 = some (.ok v) := by
  unfold outcome at hr
  rcases r1 with _ | ⟨e1 | v1⟩ <;> rcases r2 with _ | ⟨e2 | v2⟩ <;>
    simp [Except.toOption] at hr ⊢
  exact hr.symm

theorem toInt64_add_swap (acc v w : Int) :
    toInt64 (toInt64 (acc + v) + w) = toInt64 (toInt64 (acc + w) + v) := by
  unfold toInt64
  omega

theorem entryVote_ne_none {fuel : Nat} {h : Helpers} {block : BeaconBlock} {state : BeaconState}
    {beaconDB : BeaconDB} {entry : Nat × BeaconBlock}
    (hwalk : BlockAncestor beaconDB block.Slot fuel entry.2 ≠ none) :
    entryVote fuel h block state beaconDB entry ≠ none := by
  unfold entryVote
  cases hba : BlockAncestor beaconDB block.Slot fuel entry.2 with
  | none => exact absurd hba hwalk
  | some r =>
    cases r with
    | error e => simp
    | ok a =>
      cases a with
      | none => simp
      | some ancestor =>
        simp only
        cases h.HashBeaconBlock ancestor with
        | error e => simp
        | ok ancestorRoot =>
          simp only
          cases h.HashBeaconBlock block with
          | error e => simp
          | ok blockRoot =>
            simp only
            by_cases heq : blockRoot = ancestorRoot
            · simp [heq]
            · simp [heq]

theorem VoteCountLoop_ne_none (fuel : Nat) (h : Helpers) (block : BeaconBlock)
    (state : BeaconState) (beaconDB : BeaconDB) :
    ∀ (l : TargetMap), (∀ e ∈ l, entryVote fuel h block state beaconDB e ≠ none) →
      ∀ acc, VoteCountLoop fuel h block state beaconDB l acc ≠ none := by
  intro l
  induction l with
  | nil => intro _ acc; simp [VoteCountLoop]
  | cons x l ih =>
    intro hw acc
    have hl : ∀ e ∈ l, entryVote fuel h block state beaconDB e ≠ none :=
      fun e he => hw e (List.mem_cons_of_mem _ he)
    rw [VoteCountLoop_cons]
    cases hx : entryVote fuel h block state beaconDB x with
    | none => exact absurd hx (hw x (List.mem_cons_self _ _))
    | some r =>
      cases r with
      | error e => simp
      | ok v =>
        cases v with
        | none => exact ih hl acc
        | some v => exact ih hl _

theorem VoteCountLoop_perm (fuel : Nat) (h : Helpers) (block : BeaconBlock)
    (state : BeaconState) (beaconDB : BeaconDB) {l1 l2 : TargetMap} (hp : l1.Perm l2) :
    (∀ e ∈ l1, entryVote fuel h block state beaconDB e ≠ none) →
      ∀ acc, outcome (VoteCountLoop fuel h block state beaconDB l1 acc)
        = outcome (VoteCountLoop fuel h block state beaconDB l2 acc) := by
  induction hp with
  | nil => intro _ acc; rfl
  | cons x _ ih =>
    intro hw acc
    have hl := fun e he => hw e (List.mem_cons_of_mem _ he)
    rw [VoteCountLoop_cons, VoteCountLoop_cons]
    cases hx : entryVote fuel h block state beaconDB x with
    | none => rfl
    | some r =>
      cases r with
      | error e => rfl
      | ok v =>
        cases v with
        | none => exact ih hl acc
        | some v => exact ih hl _
  | swap x y l =>
    intro hw acc
    have hx0 := hw x (List.mem_cons_of_mem _ (List.mem_cons_self _ _))
    have hy0 := hw y (List.mem_cons_self _ _)
    have hl : ∀ e ∈ l, entryVote fuel h block state beaconDB e ≠ none :=
      fun e he => hw e (List.mem_cons_of_mem _ (List.mem_cons_of_mem _ he))
    cases hx : entryVote fuel h block state beaconDB x with
    | none => exact absurd hx hx0
    | some rx =>
      cases hy : entryVote fuel h block state beaconDB y with
      | none => exact absurd hy hy0
      | some ry =>
        rcases rx with ex | (_ | vx) <;> rcases ry with ey | (_ | vy) <;>
          simp only [VoteCountLoop_cons, hx, hy, outcome, Option.map, Except.toOption]
        · rw [toInt64_add_swap]
  | trans hp1 _ ih1 ih2 =>
    intro hw acc
    exact (ih1 hw acc).trans (ih2 (fun e he => hw e (hp1.mem_iff.2 he)) acc)


theorem maxChildLoop_agree (fuel : Nat) (h : Helpers) (beaconDB : BeaconDB) (state : BeaconState)
    (t1 t2 : TargetMap)
    (hv : ∀ c, outcome (VoteCount fuel h c state t1 beaconDB)
      = outcome (VoteCount fuel h c state t2 beaconDB)) (votes : Int) :
    ∀ (children : List BeaconBlock) (maxChild : BeaconBlock),
      outcome (maxChildLoop fuel h beaconDB state t1 votes children maxChild)
        = outcome (maxChildLoop fuel h beaconDB state t2 votes children maxChild) := by
  intro children
  induction children with
  | nil => intro maxChild; rfl
  | cons child rest ih =>
    intro maxChild
    rw [maxChildLoop, maxChildLoop]
    rcases outcome_cases (hv child) with ⟨h1, h2⟩ | ⟨e1, e2, h1, h2⟩ | ⟨v, h1, h2⟩
    · simp only [h1, h2]
    · simp only [h1, h2]; rfl
    · simp only [h1, h2]
      by_cases hgt : v > votes
      · rw [if_pos hgt, if_pos hgt]; exact ih child
      · rw [if_neg hgt, if_neg hgt]; exact ih maxChild

theorem chooseChild_agree (fuel : Nat) (h : Helpers) (beaconDB : BeaconDB) (state : BeaconState)
    (t1 t2 : TargetMap)
    (hv : ∀ c, outcome (VoteCount fuel h c state t1 beaconDB)
      = outcome (VoteCount fuel h c state t2 beaconDB))
    (first : BeaconBlock) (rest : List BeaconBlock) :
    outcome (chooseChild fuel h beaconDB state t1 first rest)
      = outcome (chooseChild fuel h beaconDB state t2 first rest) := by
  unfold chooseChild
  rcases outcome_cases (hv first) with ⟨h1, h2⟩ | ⟨e1, e2, h1, h2⟩ | ⟨v, h1, h2⟩
  · simp only [h1, h2]
  · simp only [h1, h2]; rfl
  · simp only [h1, h2]
    exact maxChildLoop_agree fuel h beaconDB state t1 t2 hv v _ _

theorem lmdGhostLoop_agree (fuel : Nat) (h : Helpers) (beaconDB : BeaconDB) (state : BeaconState)
    (t1 t2 : TargetMap)
    (hv : ∀ c, outcome (VoteCount fuel h c state t1 beaconDB)
      = outcome (VoteCount fuel h c state t2 beaconDB)) (H : Nat) :
    ∀ (n : Nat) (head : BeaconBlock),
      outcome (lmdGhostLoop fuel h beaconDB state t1 H n head)
        = outcome (lmdGhostLoop fuel h beaconDB state t2 H n head) := by
  intro n
  induction n with
  | zero => intro head; rfl
  | succ n ih =>
    intro head
    rw [lmdGhostLoop, lmdGhostLoop]
    cases hc : blockChildren fuel h beaconDB head H with
    | none => rfl
    | some r =>
      cases r with
      | error e => rfl
      | ok children =>
        cases children with
        | nil => rfl
        | cons first rest =>
          simp only
          rcases outcome_cases (chooseChild_agree fuel h beaconDB state t1 t2 hv first rest)
            with ⟨h1, h2⟩ | ⟨e1, e2, h1, h2⟩ | ⟨v, h1, h2⟩
          · simp only [h1, h2]
          · simp only [h1, h2]; rfl
          · simp only [h1, h2]; exact ih v

theorem forkStore_slotsDecrease_of_mem :
    ∀ e ∈ forkTargets, SlotsDecreaseFrom forkStore e.2 := by
  intro e he n x parent hn hp
  simp only [forkTargets, List.mem_cons, List.mem_singleton, List.not_mem_nil, or_false] at he
  rcases he with rfl | rfl | rfl <;> rcases n with _ | _ | n
  all_goals
    simp [nthParent, forkStore, storeOf, blockA, blockB, blockC, blockD] at hn
  all_goals
    subst hn
    simp [forkStore, storeOf, blockA, blockB, blockC, blockD] at hp
  all_goals
    subst hp
    decide

/-! ## Termination of `lmdGhost` -/

theorem storeOf_slot (blocks : List BeaconBlock) (highest : Nat) :
    ∀ i c, (storeOf blocks highest).BlockBySlot i = .ok (some c) → c.Slot = i := by
  intro i c hc
  simp only [storeOf, Except.ok.injEq] at hc
  have := List.find?_some hc
  simpa using this

theorem blockChildren_ne_none {fuel : Nat} {h : Helpers} {beaconDB : BeaconDB}
    {head : BeaconBlock} {H : Nat} (hH : H < 2 ^ 64 - 1) (hhead : head.Slot < 2 ^ 64 - 1)
    (hfuel : H - head.Slot < fuel) :
    blockChildren fuel h beaconDB head H ≠ none := by
  unfold blockChildren
  cases h.HashBeaconBlock head with
  | error e => simp
  | ok root =>
    simp only
    rw [addUint64_one_of_lt (by omega)]
    have := blockChildrenLoop_isSome beaconDB root hH fuel
      (head.Slot + 1) [] (by omega)
    intro hnone
    rw [hnone] at this
    simp at this

/-- Every child listed by `blockChildren` lies at a slot above its parent and
at most `highestSlot`, when the slot index is faithful. -/
theorem blockChildren_slot_bounds {fuel : Nat} {h : Helpers} {beaconDB : BeaconDB}
    {head : BeaconBlock} {H : Nat} {children : List BeaconBlock}
    (hH : H < 2 ^ 64 - 1) (hhead : head.Slot < 2 ^ 64 - 1)
    (hslot : ∀ i c, beaconDB.BlockBySlot i = .ok (some c) → c.Slot = i)
    (hc : blockChildren fuel h beaconDB head H = some (.ok children)) :
    ∀ c ∈ children, head.Slot < c.Slot ∧ c.Slot ≤ H := by
  unfold blockChildren at hc
  cases hr : h.HashBeaconBlock head with
  | error e => simp [hr] at hc
  | ok root =>
    simp only [hr] at hc
    rw [addUint64_one_of_lt (by omega)] at hc
    have hspec := blockChildrenLoop_ok hH _ _ _ _ hc
    rw [List.nil_append] at hspec
    intro c hmem
    rw [hspec] at hmem
    obtain ⟨i, h1, h2, hi⟩ := mem_childrenSpec.1 hmem
    have := childAt_slot hslot hi
    omega

theorem VoteCount_ne_none {fuel : Nat} {h : Helpers} {beaconDB : BeaconDB} {state : BeaconState}
    {targets : TargetMap}
    (hwalk : ∀ e ∈ targets, ∀ slot, BlockAncestor beaconDB slot fuel e.2 ≠ none)
    (candidate : BeaconBlock) :
    VoteCount fuel h candidate state targets beaconDB ≠ none :=
  VoteCountLoop_ne_none fuel h candidate state beaconDB targets
    (fun e he => entryVote_ne_none (hwalk e he candidate.Slot)) 0

theorem maxChildLoop_spec {fuel : Nat} {h : Helpers} {beaconDB : BeaconDB} {state : BeaconState}
    {targets : TargetMap}
    (hwalk : ∀ e ∈ targets, ∀ slot, BlockAncestor beaconDB slot fuel e.2 ≠ none) (votes : Int) :
    ∀ (children : List BeaconBlock) (maxChild : BeaconBlock),
      maxChildLoop fuel h beaconDB state targets votes children maxChild ≠ none ∧
        ∀ c, maxChildLoop fuel h beaconDB state targets votes children maxChild = some (.ok c) →
          c = maxChild ∨ c ∈ children := by
  intro children
  induction children with
  | nil =>
    intro maxChild
    refine ⟨by simp [maxChildLoop], ?_⟩
    intro c hc
    left
    simpa [maxChildLoop] using hc.symm
  | cons child rest ih =>
    intro maxChild
    rw [maxChildLoop]
    cases hv : VoteCount fuel h child state targets beaconDB with
    | none => exact absurd hv (VoteCount_ne_none hwalk child)
    | some r =>
      cases r with
      | error e => simp
      | ok v =>
        simp only
        by_cases hgt : v > votes
        · rw [if_pos hgt]
          refine ⟨(ih child).1, ?_⟩
          intro c hc
          rcases (ih child).2 c hc with h1 | h1
          · right; rw [h1]; exact List.mem_cons_self _ _
          · right; exact List.mem_cons_of_mem _ h1
        · rw [if_neg hgt]
          refine ⟨(ih maxChild).1, ?_⟩
          intro c hc
          rcases (ih maxChild).2 c hc with h1 | h1
          · left; exact h1
          · right; exact List.mem_cons_of_mem _ h1

theorem chooseChild_spec {fuel : Nat} (h : Helpers) {beaconDB : BeaconDB} (state : BeaconState)
    {targets : TargetMap}
    (hwalk : ∀ e ∈ targets, ∀ slot, BlockAncestor beaconDB slot fuel e.2 ≠ none)
    (first : BeaconBlock) (rest : List BeaconBlock) :
    chooseChild fuel h beaconDB state targets first rest ≠ none ∧
      ∀ c, chooseChild fuel h beaconDB state targets first rest = some (.ok c) →
        c ∈ first :: rest := by
  unfold chooseChild
  cases hv : VoteCount fuel h first state targets beaconDB with
  | none => exact absurd hv (VoteCount_ne_none hwalk first)
  | some r =>
    cases r with
    | error e => simp
    | ok v =>
      simp only
      refine ⟨(maxChildLoop_spec hwalk v _ _).1, ?_⟩
      intro c hc
      rcases (maxChildLoop_spec hwalk v _ _).2 c hc with h1 | h1
      · rw [h1]; exact List.mem_cons_self _ _
      · exact h1

theorem lmdGhostLoop_ne_none {fuel : Nat} (h : Helpers) {beaconDB : BeaconDB}
    (state : BeaconState) {targets : TargetMap} {H : Nat}
    (hH : H < 2 ^ 64 - 1)
    (hslot : ∀ i c, beaconDB.BlockBySlot i = .ok (some c) → c.Slot = i)
    (hwalk : ∀ e ∈ targets, ∀ slot, BlockAncestor beaconDB slot fuel e.2 ≠ none)
    (hfuel : H < fuel) :
    ∀ (n : Nat) (head : BeaconBlock), head.Slot < 2 ^ 64 - 1 → H - head.Slot < n →
      lmdGhostLoop fuel h beaconDB state targets H n head ≠ none := by
  intro n
  induction n with
  | zero => intro head _ hn; omega
  | succ n ih =>
    intro head hhead hn
    rw [lmdGhostLoop]
    cases hc : blockChildren fuel h beaconDB head H with
    | none => exact absurd hc (blockChildren_ne_none hH hhead (by omega))
    | some r =>
      cases r with
      | error e => simp
      | ok children =>
        cases children with
        | nil => simp
        | cons first rest =>
          simp only
          have hsp := chooseChild_spec h state hwalk first rest
          cases hm : chooseChild fuel h beaconDB state targets first rest with
          | none => exact absurd hm hsp.1
          | some r' =>
            cases r' with
            | error e => simp
            | ok child =>
              simp only
              have hb := blockChildren_slot_bounds hH hhead hslot hc child (hsp.2 child hm)
              exact ih child (by omega) (by omega)

/-- C4 (as amended): on a block store whose highest slot is below
`2 ^ 64 - 1`, in which `BlockBySlot i` only returns blocks of slot `i` and
slots strictly decrease along the parent links above every attestation
target, `lmdGhost` started at a block of slot below `2 ^ 64 - 1` terminates
(with fuel above the highest slot and the target slots it returns a result):
each iteration replaces the head by a block of strictly greater slot that is
at most `highestSlot`, and the loop returns within
`highestSlot - startBlock.Slot` head replacements. -/
theorem lmdGhost_terminates (fuel : Nat) (h : Helpers) (beaconDB : BeaconDB)
    (startBlock : BeaconBlock) (startState : BeaconState) (voteTargets : TargetMap)
    (hH : beaconDB.HighestBlockSlot < 2 ^ 64 - 1) (hstart : startBlock.Slot < 2 ^ 64 - 1)
    (hslot : ∀ i c, beaconDB.BlockBySlot i = .ok (some c) → c.Slot = i)
    (hdec : ∀ e ∈ voteTargets, SlotsDecreaseFrom beaconDB e.2)
    (hfuelH : beaconDB.HighestBlockSlot < fuel)
    (hfuelT : ∀ e ∈ voteTargets, e.2.Slot < fuel) :
    lmdGhost fuel h beaconDB startBlock startState voteTargets ≠ none ∧
      (∀ n, beaconDB.HighestBlockSlot - startBlock.Slot < n →
        lmdGhostLoop fuel h beaconDB startState voteTargets beaconDB.HighestBlockSlot n startBlock
          ≠ none) ∧
      (∀ head first rest child, head.Slot < 2 ^ 64 - 1 →
        blockChildren fuel h beaconDB head beaconDB.HighestBlockSlot = some (.ok (first :: rest)) →
        chooseChild fuel h beaconDB startState voteTargets first rest = some (.ok child) →
        head.Slot < child.Slot ∧ child.Slot ≤ beaconDB.HighestBlockSlot) := by
  have hwalk : ∀ e ∈ voteTargets, ∀ slot, BlockAncestor beaconDB slot fuel e.2 ≠ none := by
    intro e he slot
    have := hfuelT e he
    exact BlockAncestor_isSome fuel e.2 (hdec e he) (by omega)
  have hloop := lmdGhostLoop_ne_none h startState hH hslot hwalk hfuelH
  refine ⟨hloop fuel startBlock hstart (by omega), fun n hn => hloop n startBlock hstart hn, ?_⟩
  intro head first rest child hhead hc hm
  exact blockChildren_slot_bounds hH hhead hslot hc child
    ((chooseChild_spec h startState hwalk first rest).2 child hm)

/-- C4 at the fork store: with fuel 10 the head selection from `A` returns. -/
theorem lmdGhost_terminates_witness :
    lmdGhost 10 exampleHelpers forkStore blockA (stateWithBalances [10, 30, 20]) forkTargets
      ≠ none :=
  (lmdGhost_terminates 10 exampleHelpers forkStore blockA (stateWithBalances [10, 30, 20])
    forkTargets (by decide) (by decide) (storeOf_slot _ _) forkStore_slotsDecrease_of_mem
    (by decide) (by decide)).1

theorem BlockAncestor_selfParent_none :
    ∀ fuel, BlockAncestor cyclicStore 2 fuel selfParentBlock = none := by
  intro fuel
  induction fuel with
  | zero => rfl
  | succ fuel ih =>
    have hp : cyclicStore.Block selfParentBlock.ParentRootHash32 = .ok (some selfParentBlock) := by
      decide
    rw [BlockAncestor_succ_of_gt (by decide) hp]
    exact ih

theorem lmdGhostLoop_cyclic_none (fuel : Nat) :
    ∀ n, lmdGhostLoop fuel exampleHelpers cyclicStore (stateWithBalances [10])
      [(0, selfParentBlock)] 5 n blockA = none := by
  intro n
  cases n with
  | zero => rfl
  | succ n =>
    rw [lmdGhostLoop]
    cases hc : blockChildren fuel exampleHelpers cyclicStore blockA 5 with
    | none => rfl
    | some r =>
      have hc' : blockChildrenLoop cyclicStore 10 5 fuel 2 [] = some r := hc
      cases r with
      | error e =>
        exact absurd hc' (blockChildrenLoop_no_error (by norm_num) fuel _ _ e
          (fun j _ _ => ⟨_, rfl⟩))
      | ok children =>
        have hspec := blockChildrenLoop_ok (by norm_num) _ _ _ _ hc'
        have hlist : ([] : List BeaconBlock) ++ childrenSpec cyclicStore 10 2 5 = [blockB] := by
          decide
        rw [hlist] at hspec
        subst hspec
        simp only
        have hv : VoteCount fuel exampleHelpers blockB (stateWithBalances [10])
            [(0, selfParentBlock)] cyclicStore = none := by
          unfold VoteCount
          rw [VoteCountLoop]
          have := BlockAncestor_selfParent_none fuel
          have hs : blockB.Slot = 2 := rfl
          rw [hs, this]
        unfold chooseChild
        rw [hv]

/-- C4 (counterexample): both stores have a finite highest slot and
`BlockBySlot i` only returns blocks of slot `i`, yet `lmdGhost` returns no
result whatever the fuel. In the first store a block sits at the largest
`uint64` slot, so the scan `i <= highestSlot` of `blockChildren` never ends. In the
second store the attestation target's parent root resolves to the target
itself, so `BlockAncestor`, called by `VoteCount`, recurses without end. -/
theorem lmdGhost_does_not_terminate :
    ((∀ i c, maxSlotStore.BlockBySlot i = .ok (some c) → c.Slot = i) ∧
        ∀ fuel, lmdGhost fuel exampleHelpers maxSlotStore blockA (stateWithBalances [10, 30, 20])
          forkTargets = none) ∧
      ((∀ i c, cyclicStore.BlockBySlot i = .ok (some c) → c.Slot = i) ∧
        cyclicStore.HighestBlockSlot = 5 ∧
        ∀ fuel, lmdGhost fuel exampleHelpers cyclicStore blockA (stateWithBalances [10])
          [(0, selfParentBlock)] = none) := by
  refine ⟨⟨storeOf_slot _ _, ?_⟩, storeOf_slot _ _, rfl, ?_⟩
  · intro fuel
    unfold lmdGhost
    cases fuel with
    | zero => rfl
    | succ n =>
      rw [lmdGhostLoop]
      have hc : blockChildren (n + 1) exampleHelpers maxSlotStore blockA
          maxSlotStore.HighestBlockSlot = none := by
        unfold blockChildren
        exact blockChildrenLoop_diverges (le_refl _) (fun j => ⟨_, rfl⟩) _ _ []
          (addUint64_lt _ _)
      rw [hc]
  · intro fuel
    exact lmdGhostLoop_cyclic_none fuel fuel

/-- C10 (evaluation at the failing input): validator 0 is inactive, validator
1 is active and its latest attestation target is `B`. The oracle is queried
for validator 1, and the entry is stored under key 0, the position of
validator 1 in the list of active indices, not under the validator index 1. -/
theorem attestationTargets_keys_by_position :
    ActiveValidatorIndices secondActiveState.ValidatorRegistry
        (CurrentEpoch exampleHelpers secondActiveState) = [1] ∧
      secondAttests.LatestAttestationTarget 1 = .ok (some blockB) ∧
      attestationTargets exampleHelpers secondAttests secondActiveState = .ok [(0, blockB)] := by
  decide

/-! ## `ApplyForkChoiceRule`: the index, the reorg counter and the chain head -/

theorem revertedSlotLoop_apply (headSlot : Nat) :
    ∀ (revertedSlot : Nat) (canonicalBlocks : CanonicalBlocks) (s : Nat),
      revertedSlotLoop headSlot revertedSlot canonicalBlocks s =
        if headSlot < s ∧ s ≤ revertedSlot then none else canonicalBlocks s := by
  intro revertedSlot
  induction revertedSlot with
  | zero =>
    intro canonicalBlocks s
    have : ¬ (headSlot < s ∧ s ≤ 0) := by omega
    rw [revertedSlotLoop, if_neg this]
  | succ r ih =>
    intro canonicalBlocks s
    rw [revertedSlotLoop]
    by_cases hgt : r + 1 > headSlot
    · rw [if_pos hgt, ih]
      by_cases h1 : headSlot < s ∧ s ≤ r
      · rw [if_pos h1, if_pos (by omega)]
      · rw [if_neg h1]
        by_cases h2 : s = r + 1
        · rw [if_pos (by omega)]
          simp [deleteCanonical, h2]
        · rw [if_neg (by omega)]
          simp [deleteCanonical, h2]
    · rw [if_neg hgt, if_neg (by omega)]

/-- The entry of the index after the head at `headSlot` with root `root` was
written and the slots in `(headSlot, blockSlot]` were deleted. -/
theorem rewritten_index_apply (canonicalBlocks : CanonicalBlocks) (headSlot blockSlot : Nat)
    (root : Digest) (s : Nat) :
    revertedSlotLoop headSlot blockSlot (setCanonical canonicalBlocks headSlot root) s =
      if headSlot < s ∧ s ≤ blockSlot then none
      else if s = headSlot then some root else canonicalBlocks s := by
  rw [revertedSlotLoop_apply]
  rfl

theorem updateChainHead_eq {h : Helpers} {head : BeaconBlock} {root : Digest}
    (hroot : h.HashBeaconBlock head = .ok root) (c : ChainService) (newState : BeaconState) :
    updateChainHead h c head newState =
      match c.archive.UpdateChainHead head newState with
      | some err => some (c, some (.failedToUpdateChain err))
      | none =>
        some ({ c with durable := { c.durable with ChainHead := some (head, newState) } }, none) := by
  unfold updateChainHead
  cases c.archive.UpdateChainHead head newState with
  | some err => rfl
  | none => simp only [hroot]

/-- What a successful `ApplyForkChoiceRule` has done, in terms of the head it selected. -/
theorem ApplyForkChoiceRule_success {fuel : Nat} {h : Helpers} {c c' : ChainService}
    {block head : BeaconBlock} {postState : BeaconState}
    (hsel : selectHead fuel h c = some (.ok head))
    (hret : ApplyForkChoiceRule fuel h c block postState = some (c', none)) :
    ∃ root newState,
      h.HashBeaconBlock head = .ok root ∧
      (if head.Slot ≠ block.Slot then c.archive.HistoricalStateFromSlot head.Slot = .ok newState
        else newState = postState) ∧
      c.archive.UpdateChainHead head newState = none ∧
      c'.canonicalBlocks =
        revertedSlotLoop head.Slot block.Slot (setCanonical c.canonicalBlocks head.Slot root) ∧
      c'.reorgCount = (if head.Slot ≠ block.Slot then c.reorgCount + 1 else c.reorgCount) ∧
      c'.durable = { c.durable with ChainHead := some (head, newState) } ∧
      c'.beaconDB = c.beaconDB ∧ c'.archive = c.archive ∧ c'.attsService = c.attsService := by
  unfold ApplyForkChoiceRule at hret
  simp only [hsel] at hret
  cases hroot : h.HashBeaconBlock head with
  | error err => simp [hroot] at hret
  | ok root =>
    simp only [hroot] at hret
    by_cases hne : head.Slot ≠ block.Slot
    · rw [if_pos hne] at hret
      cases hst : c.archive.HistoricalStateFromSlot head.Slot with
      | error err => simp [hst] at hret
      | ok newState =>
        simp only [hst] at hret
        rw [updateChainHead_eq hroot] at hret
        cases hup : c.archive.UpdateChainHead head newState with
        | some err => simp [hup] at hret
        | none =>
          simp only [hup, Option.some.injEq, Prod.mk.injEq, and_true] at hret
          subst hret
          exact ⟨root, newState, rfl, by rw [if_pos hne], hup, rfl, by rw [if_pos hne], rfl, rfl,
            rfl, rfl⟩
    · rw [if_neg hne] at hret
      rw [updateChainHead_eq hroot] at hret
      cases hup : c.archive.UpdateChainHead head postState with
      | some err => simp [hup] at hret
      | none =>
        simp only [hup, Option.some.injEq, Prod.mk.injEq, and_true] at hret
        subst hret
        have heq : head.Slot = block.Slot := by omega
        refine ⟨root, postState, rfl, by rw [if_neg hne], hup, ?_, by rw [if_neg hne], rfl, rfl,
          rfl, rfl⟩
        funext s
        rw [rewritten_index_apply, ← heq]
        have : ¬ (head.Slot < s ∧ s ≤ head.Slot) := by omega
        rw [if_neg this]
        rfl

/-- C12: after a successful `ApplyForkChoiceRule(block, postState)` with
selected head `head`: when `head.Slot ≠ block.Slot` the index has no entry at
any slot `s` with `block.Slot ≥ s > head.Slot`, its entry at `head.Slot` is the
root of `head`, and the reorg counter went up by exactly 1; when
`head.Slot = block.Slot` no entry is removed (all entries at other slots are
as before) and the counter is unchanged. -/
theorem ApplyForkChoiceRule_reorg_index (fuel : Nat) (h : Helpers) (c c' : ChainService)
    (block head : BeaconBlock) (postState : BeaconState)
    (hsel : selectHead fuel h c = some (.ok head))
    (hret : ApplyForkChoiceRule fuel h c block postState = some (c', none)) :
    (head.Slot ≠ block.Slot →
        (∀ s, head.Slot < s → s ≤ block.Slot → c'.canonicalBlocks s = none) ∧
        (∃ root, h.HashBeaconBlock head = .ok root ∧ c'.canonicalBlocks head.Slot = some root) ∧
        c'.reorgCount = c.reorgCount + 1) ∧
      (head.Slot = block.Slot →
        (∀ s, s ≠ head.Slot → c'.canonicalBlocks s = c.canonicalBlocks s) ∧
        c'.reorgCount = c.reorgCount) := by
  obtain ⟨root, newState, hroot, _, _, hidx, hcount, _, _, _, _⟩ :=
    ApplyForkChoiceRule_success hsel hret
  constructor
  · intro hne
    refine ⟨?_, ⟨root, hroot, ?_⟩, ?_⟩
    · intro s h1 h2
      rw [hidx, rewritten_index_apply, if_pos ⟨h1, h2⟩]
    · rw [hidx, rewritten_index_apply, if_neg (by omega), if_pos rfl]
    · rw [hcount, if_pos hne]
  · intro heq
    refine ⟨?_, ?_⟩
    · intro s hs
      rw [hidx, rewritten_index_apply, if_neg (by omega), if_neg hs]
    · rw [hcount, if_neg (by omega)]

/-- C12 at the reorg service: `X` (slot 4) was processed, the head comes out as
`C` (slot 3); the entry of slot 4 is gone, slot 3 holds the root of `C`, and
the counter went from 0 to 1. -/
theorem ApplyForkChoiceRule_reorg_index_witness :
    ∃ c', ApplyForkChoiceRule 10 exampleHelpers reorgService blockX (stateAtSlot 4)
        = some (c', none) ∧
      c'.canonicalBlocks 4 = none ∧ c'.canonicalBlocks 3 = some 30 ∧ c'.reorgCount = 1 :=
  ⟨_, rfl,
    ((ApplyForkChoiceRule_reorg_index 10 exampleHelpers reorgService _ blockX blockC
      (stateAtSlot 4) (by decide) rfl).1 (by decide)).1 4 (by decide) (by decide),
    rfl, rfl⟩

/-- C13: after a successful `ApplyForkChoiceRule(block, postState)` with
selected head `head`, the chain head is `(head, postState)` when
`head.Slot = block.Slot`, and otherwise `(head, S)` for the historical state `S`
fetched at slot `head.Slot`. -/
theorem ApplyForkChoiceRule_chain_head (fuel : Nat) (h : Helpers) (c c' : ChainService)
    (block head : BeaconBlock) (postState : BeaconState)
    (hsel : selectHead fuel h c = some (.ok head))
    (hret : ApplyForkChoiceRule fuel h c block postState = some (c', none)) :
    (head.Slot = block.Slot → c'.durable.ChainHead = some (head, postState)) ∧
      (head.Slot ≠ block.Slot →
        ∃ S, c.archive.HistoricalStateFromSlot head.Slot = .ok S ∧
          c'.durable.ChainHead = some (head, S)) := by
  obtain ⟨root, newState, _, hst, _, _, _, hdur, _, _, _⟩ :=
    ApplyForkChoiceRule_success hsel hret
  constructor
  · intro heq
    rw [if_neg (by omega)] at hst
    rw [hdur, hst]
  · intro hne
    rw [if_pos hne] at hst
    exact ⟨newState, hst, by rw [hdur]⟩

/-- C13 at the reorg service: the head `C` differs in slot from the processed
block `X`, and the chain head becomes `C` with the historical state of slot 3. -/
theorem ApplyForkChoiceRule_chain_head_witness :
    ∃ c', ApplyForkChoiceRule 10 exampleHelpers reorgService blockX (stateAtSlot 4)
        = some (c', none) ∧
      c'.durable.ChainHead = some (blockC, stateAtSlot 3) :=
  ⟨_, rfl, by
    obtain ⟨S, hS, hhead⟩ := (ApplyForkChoiceRule_chain_head 10 exampleHelpers reorgService _
      blockX blockC (stateAtSlot 4) (by decide) rfl).2 (by decide)
    have hS' : stateAtSlot 3 = S := Except.ok.inj hS
    subst hS'
    exact hhead⟩

/-- C14 (as amended): when the selected head lies at a slot greater than the
processed block's, `ApplyForkChoiceRule` does not bail out: if the historical
state `S` of `head.Slot` can be fetched and `UpdateChainHead` succeeds, it
returns without error, having counted a reorg, written the head into the
index without removing any other entry, and moved the chain head to
`(head, S)`. -/
theorem ApplyForkChoiceRule_head_ahead (fuel : Nat) (h : Helpers) (c : ChainService)
    (block head : BeaconBlock) (postState : BeaconState) (root : Digest) (S : BeaconState)
    (hsel : selectHead fuel h c = some (.ok head))
    (hroot : h.HashBeaconBlock head = .ok root)
    (hahead : block.Slot < head.Slot)
    (hS : c.archive.HistoricalStateFromSlot head.Slot = .ok S)
    (hup : c.archive.UpdateChainHead head S = none) :
    ∃ c', ApplyForkChoiceRule fuel h c block postState = some (c', none) ∧
      c'.durable.ChainHead = some (head, S) ∧
      c'.reorgCount = c.reorgCount + 1 ∧
      c'.canonicalBlocks head.Slot = some root ∧
      ∀ s, s ≠ head.Slot → c'.canonicalBlocks s = c.canonicalBlocks s := by
  have hne : head.Slot ≠ block.Slot := by omega
  have hret : ApplyForkChoiceRule fuel h c block postState =
      some ({ c with
          canonicalBlocks :=
            revertedSlotLoop head.Slot block.Slot
              (setCanonical c.canonicalBlocks head.Slot root),
          reorgCount := c.reorgCount + 1,
          durable := { c.durable with ChainHead := some (head, S) } }, none) := by
    unfold ApplyForkChoiceRule
    simp only [hsel, hroot, if_pos hne, hS]
    rw [updateChainHead_eq hroot]
    simp only [hup]
  refine ⟨_, hret, rfl, rfl, ?_, ?_⟩
  · show revertedSlotLoop head.Slot block.Slot
      (setCanonical c.canonicalBlocks head.Slot root) head.Slot = some root
    rw [rewritten_index_apply, if_neg (by omega), if_pos rfl]
  · intro s hs
    show revertedSlotLoop head.Slot block.Slot
      (setCanonical c.canonicalBlocks head.Slot root) s = c.canonicalBlocks s
    rw [rewritten_index_apply, if_neg (by omega), if_neg hs]

/-- C14 at the reorg service with `B` (slot 2) as processed block: the head `C`
(slot 3) is ahead and the call succeeds. -/
theorem ApplyForkChoiceRule_head_ahead_witness :
    ∃ c', ApplyForkChoiceRule 10 exampleHelpers reorgService blockB (stateAtSlot 2)
        = some (c', none) ∧ c'.durable.ChainHead = some (blockC, stateAtSlot 3) := by
  obtain ⟨c', hret, hhead, _⟩ := ApplyForkChoiceRule_head_ahead 10 exampleHelpers reorgService
    blockB blockC (stateAtSlot 2) 30 (stateAtSlot 3) (by decide) (by decide) (by decide) rfl rfl
  exact ⟨c', hret, hhead⟩

/-- C14 (counterexample): at the reorg service with `B` (slot 2) as processed
block the selected head is `C` at slot 3, ahead of the processed block, and
`ApplyForkChoiceRule` returns no error and replaces the chain head, which was
unset, by `(C, historical state of slot 3)`. -/
theorem ApplyForkChoiceRule_no_bail_out :
    selectHead 10 exampleHelpers reorgService = some (.ok blockC) ∧
      blockB.Slot < blockC.Slot ∧
      reorgService.durable.ChainHead = none ∧
      ∃ c', ApplyForkChoiceRule 10 exampleHelpers reorgService blockB (stateAtSlot 2)
          = some (c', none) ∧
        c'.durable.ChainHead = some (blockC, stateAtSlot 3) :=
  ⟨by decide, by decide, rfl, _, rfl, rfl⟩

/-! ## The index as an ancestor chain -/

theorem nthParent_slot_add_le {beaconDB : BeaconDB} :
    ∀ (n : Nat) (head a : BeaconBlock), SlotsDecreaseFrom beaconDB head →
      nthParent beaconDB n head = some a → a.Slot + n ≤ head.Slot := by
  intro n
  induction n with
  | zero =>
    intro head a _ hn
    have : head = a := by simpa [nthParent] using hn
    rw [this]; omega
  | succ n ih =>
    intro head a hdec hn
    obtain ⟨parent, hp, hn'⟩ := nthParent_succ_eq_some.1 hn
    have h1 := ih parent a (hdec.parent hp) hn'
    have h2 : parent.Slot < head.Slot := hdec 0 head parent rfl hp
    omega

theorem reorgStore_slotsDecrease_X : SlotsDecreaseFrom reorgStore blockX := by
  intro n x parent hn hp
  rcases n with _ | _ | _ | n
  all_goals
    simp [nthParent, reorgStore, storeOf, blockA, blockB, blockC, blockX] at hn
  all_goals
    subst hn
    simp [reorgStore, storeOf, blockA, blockB, blockC, blockX] at hp
  all_goals
    subst hp
    decide

/-! ## `updateFFGCheckPts`: the walk back over skip slots -/

theorem subUint64_one {j : Nat} (h0 : 0 < j) (h1 : j < 2 ^ 64) : subUint64 j 1 = j - 1 := by
  unfold subUint64 uint64Mod
  have : (1 : Nat) % 2 ^ 64 = 1 := by norm_num
  rw [this]
  omega

theorem StartSlot_lt (h : Helpers) (epoch : Nat) : StartSlot h epoch < 2 ^ 64 := by
  unfold StartSlot mulUint64 uint64Mod
  exact Nat.mod_lt _ (by norm_num)

/-- A block found by the loop started above `s` is the block stored at `s`,
when `s` is the greatest slot below the start that has a block. -/
theorem lastAvailBlkLoop_found {beaconDB : BeaconDB} {s : Nat} {b : BeaconBlock}
    (hb : beaconDB.BlockBySlot s = .ok (some b)) :
    ∀ (fuel j : Nat), s < j → j < 2 ^ 64 →
      (∀ i, s < i → i < j → ∀ y, beaconDB.BlockBySlot i ≠ .ok (some y)) →
      ∀ x, lastAvailBlkLoop beaconDB fuel j = some (.ok x) → x = b := by
  intro fuel
  induction fuel with
  | zero => intro j _ _ _ x hx; simp [lastAvailBlkLoop] at hx
  | succ fuel ih =>
    intro j hsj hj hnone x hx
    rw [lastAvailBlkLoop, subUint64_one (by omega) hj] at hx
    by_cases hlast : j - 1 = s
    · rw [hlast, hb] at hx
      simpa using hx.symm
    · cases hl : beaconDB.BlockBySlot (j - 1) with
      | error err => simp [hl] at hx
      | ok r =>
        cases r with
        | some y => exact absurd hl (hnone (j - 1) (by omega) (by omega) y)
        | none =>
          simp only [hl] at hx
          exact ih (j - 1) (by omega) (by omega)
            (fun i h1 h2 => hnone i h1 (by omega)) x hx

theorem newCheckPtBlock_found {beaconDB : BeaconDB} {s T : Nat} {b : BeaconBlock}
    (hb : beaconDB.BlockBySlot s = .ok (some b)) (hs : s ≤ T) (hT : T < 2 ^ 64)
    (hnone : ∀ i, s < i → i ≤ T → ∀ y, beaconDB.BlockBySlot i ≠ .ok (some y))
    {fuel : Nat} {x : BeaconBlock} (hx : newCheckPtBlock fuel beaconDB T = some (.ok x)) :
    x = b := by
  unfold newCheckPtBlock at hx
  by_cases hst : s = T
  · subst hst
    rw [hb] at hx
    simpa using hx.symm
  · cases hl : beaconDB.BlockBySlot T with
    | error err => simp [hl] at hx
    | ok r =>
      cases r with
      | some y => exact absurd hl (hnone T (by omega) (le_refl T) y)
      | none =>
        simp only [hl] at hx
        exact lastAvailBlkLoop_found hb fuel T (by omega) hT
          (fun i h1 h2 => hnone i h1 (by omega)) x hx

/-- When the store answers at slot `s` with a block or an error, the loop
started above `s` returns within `j - s` iterations, and a block it returns was
found at a slot between `s` and the start. -/
theorem lastAvailBlkLoop_returns {beaconDB : BeaconDB} {s : Nat}
    (hs : beaconDB.BlockBySlot s ≠ .ok none) :
    ∀ (fuel j : Nat), s < j → j < 2 ^ 64 → j - s ≤ fuel →
      ∃ r, lastAvailBlkLoop beaconDB fuel j = some r ∧
        ∀ x, r = .ok x → ∃ i, s ≤ i ∧ i < j ∧ beaconDB.BlockBySlot i = .ok (some x) := by
  intro fuel
  induction fuel with
  | zero => intro j hsj _ hf; omega
  | succ fuel ih =>
    intro j hsj hj hf
    rw [lastAvailBlkLoop, subUint64_one (by omega) hj]
    cases hl : beaconDB.BlockBySlot (j - 1) with
    | error err => exact ⟨_, rfl, fun x hx => by simp at hx⟩
    | ok r =>
      cases r with
      | some y =>
        refine ⟨_, rfl, ?_⟩
        intro x hx
        have hxy : y = x := by simpa using hx
        exact ⟨j - 1, by omega, by omega, by rw [← hxy]; exact hl⟩
      | none =>
        have hne : j - 1 ≠ s := by
          intro heq
          rw [heq] at hl
          exact hs hl
        obtain ⟨r, hr, hprop⟩ := ih (j - 1) (by omega) (by omega) (by omega)
        refine ⟨r, hr, ?_⟩
        intro x hx
        obtain ⟨i, h1, h2, h3⟩ := hprop x hx
        exact ⟨i, h1, by omega, h3⟩

theorem newCheckPtBlock_returns {beaconDB : BeaconDB} {s T : Nat} (fuel : Nat)
    (hs : beaconDB.BlockBySlot s ≠ .ok none) (hsT : s ≤ T) (hT : T < 2 ^ 64)
    (hf : T - s ≤ fuel) :
    ∃ r, newCheckPtBlock fuel beaconDB T = some r ∧
      ∀ x, r = .ok x → ∃ i, s ≤ i ∧ i ≤ T ∧ beaconDB.BlockBySlot i = .ok (some x) := by
  unfold newCheckPtBlock
  cases hl : beaconDB.BlockBySlot T with
  | error err => exact ⟨_, rfl, fun x hx => by simp at hx⟩
  | ok r =>
    cases r with
    | some y =>
      refine ⟨_, rfl, ?_⟩
      intro x hx
      have hxy : y = x := by simpa using hx
      exact ⟨T, hsT, le_refl T, by rw [← hxy]; exact hl⟩
    | none =>
      have hne : T ≠ s := by
        intro heq
        rw [heq] at hl
        exact hs hl
      obtain ⟨r, hr, hprop⟩ := lastAvailBlkLoop_returns hs fuel T (by omega) hT hf
      refine ⟨r, hr, ?_⟩
      intro x hx
      obtain ⟨i, h1, h2, h3⟩ := hprop x hx
      exact ⟨i, h1, by omega, h3⟩

/-! ## `updateFFGCheckPts`: what each check point section does -/

/-- The three ways the justified section ends: an error before any write, no
write because the saved block is not older, or the write of a new block
(followed by the write of its state, which may fail). -/
theorem updateJustifiedCheckPt_cases {fuel : Nat} {h : Helpers} {c c1 : ChainService}
    {state : BeaconState} {e : Option Error}
    (hret : updateJustifiedCheckPt fuel h c state = some (c1, e)) :
    (c1 = c ∧ ∃ err, e = some err) ∨
    (c1 = c ∧ e = none ∧ ∃ saved, c.durable.JustifiedBlock = .ok saved ∧
      StartSlot h state.JustifiedEpoch ≤ saved.Slot) ∨
    (∃ saved nb st, c.durable.JustifiedBlock = .ok saved ∧
      saved.Slot < StartSlot h state.JustifiedEpoch ∧
      newCheckPtBlock fuel c.beaconDB (StartSlot h state.JustifiedEpoch) = some (.ok nb) ∧
      c.archive.HistoricalStateFromSlot nb.Slot = .ok st ∧
      c.archive.SaveJustifiedBlock nb = none ∧
      ((∃ err, c.archive.SaveJustifiedState st = some err ∧ e = some err ∧
          c1 = { c with durable := { c.durable with JustifiedBlock := .ok nb } }) ∨
        (c.archive.SaveJustifiedState st = none ∧ e = none ∧
          c1 = { c with durable :=
            { c.durable with JustifiedBlock := .ok nb, JustifiedState := .ok st } }))) := by
  unfold updateJustifiedCheckPt at hret
  cases hsaved : c.durable.JustifiedBlock with
  | error err =>
    simp only [hsaved, Option.some.injEq, Prod.mk.injEq] at hret
    exact Or.inl ⟨hret.1.symm, err, hret.2.symm⟩
  | ok saved =>
    simp only [hsaved] at hret
    by_cases hgt : StartSlot h state.JustifiedEpoch > saved.Slot
    · rw [if_pos hgt] at hret
      cases hnb : newCheckPtBlock fuel c.beaconDB (StartSlot h state.JustifiedEpoch) with
      | none => simp [hnb] at hret
      | some r =>
        cases r with
        | error err =>
          simp only [hnb, Option.some.injEq, Prod.mk.injEq] at hret
          exact Or.inl ⟨hret.1.symm, err, hret.2.symm⟩
        | ok nb =>
          simp only [hnb] at hret
          cases hst : c.archive.HistoricalStateFromSlot nb.Slot with
          | error err =>
            simp only [hst, Option.some.injEq, Prod.mk.injEq] at hret
            exact Or.inl ⟨hret.1.symm, err, hret.2.symm⟩
          | ok st =>
            simp only [hst] at hret
            cases hsb : c.archive.SaveJustifiedBlock nb with
            | some err =>
              simp only [hsb, Option.some.injEq, Prod.mk.injEq] at hret
              exact Or.inl ⟨hret.1.symm, err, hret.2.symm⟩
            | none =>
              simp only [hsb] at hret
              cases hss : c.archive.SaveJustifiedState st with
              | some err =>
                simp only [hss, Option.some.injEq, Prod.mk.injEq] at hret
                exact Or.inr (Or.inr ⟨saved, nb, st, rfl, hgt, rfl, hst, hsb,
                  Or.inl ⟨err, hss, hret.2.symm, hret.1.symm⟩⟩)
              | none =>
                simp only [hss, Option.some.injEq, Prod.mk.injEq] at hret
                exact Or.inr (Or.inr ⟨saved, nb, st, rfl, hgt, rfl, hst, hsb,
                  Or.inr ⟨hss, hret.2.symm, hret.1.symm⟩⟩)
    · rw [if_neg hgt] at hret
      simp only [Option.some.injEq, Prod.mk.injEq] at hret
      exact Or.inr (Or.inl ⟨hret.1.symm, hret.2.symm, saved, rfl, by omega⟩)

/-- The three ways the finalized section ends; the state written is the
historical state of the finalized epoch's start slot. -/
theorem updateFinalizedCheckPt_cases {fuel : Nat} {h : Helpers} {c c1 : ChainService}
    {state : BeaconState} {e : Option Error}
    (hret : updateFinalizedCheckPt fuel h c state = some (c1, e)) :
    (c1 = c ∧ ∃ err, e = some err) ∨
    (c1 = c ∧ e = none ∧ ∃ saved, c.durable.FinalizedBlock = .ok saved ∧
      StartSlot h state.FinalizedEpoch ≤ saved.Slot) ∨
    (∃ saved nb st, c.durable.FinalizedBlock = .ok saved ∧
      saved.Slot < StartSlot h state.FinalizedEpoch ∧
      newCheckPtBlock fuel c.beaconDB (StartSlot h state.FinalizedEpoch) = some (.ok nb) ∧
      c.archive.HistoricalStateFromSlot (StartSlot h state.FinalizedEpoch) = .ok st ∧
      c.archive.SaveFinalizedBlock nb = none ∧
      ((∃ err, c.archive.SaveFinalizedState st = some err ∧ e = some err ∧
          c1 = { c with durable := { c.durable with FinalizedBlock := .ok nb } }) ∨
        (c.archive.SaveFinalizedState st = none ∧ e = none ∧
          c1 = { c with durable :=
            { c.durable with FinalizedBlock := .ok nb, FinalizedState := .ok st } }))) := by
  unfold updateFinalizedCheckPt at hret
  cases hsaved : c.durable.FinalizedBlock with
  | error err =>
    simp only [hsaved, Option.some.injEq, Prod.mk.injEq] at hret
    exact Or.inl ⟨hret.1.symm, err, hret.2.symm⟩
  | ok saved =>
    simp only [hsaved] at hret
    by_cases hgt : StartSlot h state.FinalizedEpoch > saved.Slot
    · rw [if_pos hgt] at hret
      cases hnb : newCheckPtBlock fuel c.beaconDB (StartSlot h state.FinalizedEpoch) with
      | none => simp [hnb] at hret
      | some r =>
        cases r with
        | error err =>
          simp only [hnb, Option.some.injEq, Prod.mk.injEq] at hret
          exact Or.inl ⟨hret.1.symm, err, hret.2.symm⟩
        | ok nb =>
          simp only [hnb] at hret
          cases hst : c.archive.HistoricalStateFromSlot (StartSlot h state.FinalizedEpoch) with
          | error err =>
            simp only [hst, Option.some.injEq, Prod.mk.injEq] at hret
            exact Or.inl ⟨hret.1.symm, err, hret.2.symm⟩
          | ok st =>
            simp only [hst] at hret
            cases hsb : c.archive.SaveFinalizedBlock nb with
            | some err =>
              simp only [hsb, Option.some.injEq, Prod.mk.injEq] at hret
              exact Or.inl ⟨hret.1.symm, err, hret.2.symm⟩
            | none =>
              simp only [hsb] at hret
              cases hss : c.archive.SaveFinalizedState st with
              | some err =>
                simp only [hss, Option.some.injEq, Prod.mk.injEq] at hret
                exact Or.inr (Or.inr ⟨saved, nb, st, rfl, hgt, rfl, rfl, hsb,
                  Or.inl ⟨err, hss, hret.2.symm, hret.1.symm⟩⟩)
              | none =>
                simp only [hss, Option.some.injEq, Prod.mk.injEq] at hret
                exact Or.inr (Or.inr ⟨saved, nb, st, rfl, hgt, rfl, rfl, hsb,
                  Or.inr ⟨hss, hret.2.symm, hret.1.symm⟩⟩)
    · rw [if_neg hgt] at hret
      simp only [Option.some.injEq, Prod.mk.injEq] at hret
      exact Or.inr (Or.inl ⟨hret.1.symm, hret.2.symm, saved, rfl, by omega⟩)

/-- The justified section leaves everything but the justified pair as it was. -/
theorem updateJustifiedCheckPt_frame {fuel : Nat} {h : Helpers} {c c1 : ChainService}
    {state : BeaconState} {e : Option Error}
    (hret : updateJustifiedCheckPt fuel h c state = some (c1, e)) :
    c1.beaconDB = c.beaconDB ∧ c1.archive = c.archive ∧
      c1.durable.FinalizedBlock = c.durable.FinalizedBlock ∧
      c1.durable.FinalizedState = c.durable.FinalizedState := by
  rcases updateJustifiedCheckPt_cases hret with ⟨rfl, _⟩ | ⟨rfl, _⟩ |
    ⟨saved, nb, st, _, _, _, _, _, ⟨err, _, _, rfl⟩ | ⟨_, _, rfl⟩⟩ <;>
    exact ⟨rfl, rfl, rfl, rfl⟩

/-- The finalized section leaves everything but the finalized pair as it was. -/
theorem updateFinalizedCheckPt_frame {fuel : Nat} {h : Helpers} {c c1 : ChainService}
    {state : BeaconState} {e : Option Error}
    (hret : updateFinalizedCheckPt fuel h c state = some (c1, e)) :
    c1.beaconDB = c.beaconDB ∧ c1.archive = c.archive ∧
      c1.durable.JustifiedBlock = c.durable.JustifiedBlock ∧
      c1.durable.JustifiedState = c.durable.JustifiedState := by
  rcases updateFinalizedCheckPt_cases hret with ⟨rfl, _⟩ | ⟨rfl, _⟩ |
    ⟨saved, nb, st, _, _, _, _, _, ⟨err, _, _, rfl⟩ | ⟨_, _, rfl⟩⟩ <;>
    exact ⟨rfl, rfl, rfl, rfl⟩

/-- A returning `updateFFGCheckPts` is a returning justified section followed,
unless that one returned an error, by a returning finalized section. -/
theorem updateFFGCheckPts_cases {fuel : Nat} {h : Helpers} {c c' : ChainService}
    {state : BeaconState} {e : Option Error}
    (hret : updateFFGCheckPts fuel h c state = some (c', e)) :
    (∃ err, e = some err ∧ updateJustifiedCheckPt fuel h c state = some (c', some err)) ∨
      ∃ c1, updateJustifiedCheckPt fuel h c state = some (c1, none) ∧
        updateFinalizedCheckPt fuel h c1 state = some (c', e) := by
  unfold updateFFGCheckPts at hret
  cases hj : updateJustifiedCheckPt fuel h c state with
  | none => simp [hj] at hret
  | some r =>
    obtain ⟨c1, e1⟩ := r
    cases e1 with
    | some err =>
      simp only [hj, Option.some.injEq, Prod.mk.injEq] at hret
      left
      exact ⟨err, hret.2.symm, by rw [hret.1]⟩
    | none =>
      simp only [hj] at hret
      right
      exact ⟨c1, rfl, hret⟩

/-! ## `updateFFGCheckPts`: the persisted check points -/

/-- C15: let the start slot `T` of the post-state's justified epoch be greater
than the slot of the persisted justified block, and let `s ≤ T` be the
greatest slot at which the store has a block, `b`. Then a successful
`updateFFGCheckPts` has persisted `b` as justified block and the historical
state of that block's slot as justified state. -/
theorem updateFFGCheckPts_justified (fuel : Nat) (h : Helpers) (c c' : ChainService)
    (state : BeaconState) (saved b : BeaconBlock) (s : Nat)
    (hsaved : c.durable.JustifiedBlock = .ok saved)
    (hT : saved.Slot < StartSlot h state.JustifiedEpoch)
    (hs : s ≤ StartSlot h state.JustifiedEpoch)
    (hb : c.beaconDB.BlockBySlot s = .ok (some b))
    (hgreatest : ∀ i, s < i → i ≤ StartSlot h state.JustifiedEpoch →
      ∀ y, c.beaconDB.BlockBySlot i ≠ .ok (some y))
    (hret : updateFFGCheckPts fuel h c state = some (c', none)) :
    c'.durable.JustifiedBlock = .ok b ∧
      ∃ st, c.archive.HistoricalStateFromSlot b.Slot = .ok st ∧
        c'.durable.JustifiedState = .ok st := by
  rcases updateFFGCheckPts_cases hret with ⟨err, he, _⟩ | ⟨c1, hj, hf⟩
  · simp at he
  · obtain ⟨_, _, hfb, hfs⟩ := updateFinalizedCheckPt_frame hf
    rw [hfb, hfs]
    rcases updateJustifiedCheckPt_cases hj with ⟨_, err, he⟩ | ⟨_, _, sv, hsv, hle⟩ |
      ⟨sv, nb, st, _, _, hnb, hst, _, ⟨err, _, he, _⟩ | ⟨_, _, hc1⟩⟩
    · simp at he
    · rw [hsaved] at hsv
      have : saved = sv := by simpa using hsv
      subst this
      omega
    · simp at he
    · have hnb' : nb = b := newCheckPtBlock_found hb hs (StartSlot_lt h _) hgreatest hnb
      subst hnb'
      rw [hc1]
      exact ⟨rfl, st, hst, rfl⟩

/-- C15 at the skip service: the justified epoch 5 starts at slot 40, which
is a skip slot; the block of slot 39 and the historical state of slot 39 are
persisted. -/
theorem updateFFGCheckPts_justified_witness :
    ∃ c', updateFFGCheckPts 5 demoHelpers skipService epochFiveState = some (c', none) ∧
      c'.durable.JustifiedBlock = .ok block39 ∧
      c'.durable.JustifiedState = .ok (stateAtSlot 39) := by
  refine ⟨_, rfl, ?_⟩
  obtain ⟨hjb, st, hst, hjs⟩ := updateFFGCheckPts_justified 5 demoHelpers skipService _
    epochFiveState blockA block39 39 rfl (by decide) (by decide) (by decide)
    (by
      intro i h1 h2 y
      have h40 : StartSlot demoHelpers epochFiveState.JustifiedEpoch = 40 := by decide
      rw [h40] at h2
      have hi : i = 40 := by omega
      subst hi
      have hnone : skipService.beaconDB.BlockBySlot 40 = .ok none := by decide
      rw [hnone]
      simp)
    rfl
  have hst' : stateAtSlot 39 = st := Except.ok.inj hst
  subst hst'
  exact ⟨hjb, hjs⟩

/-- C16 (evaluation at the failing input): at the skip service the finalized
epoch 5 starts at slot 40, a skip slot, and the block found is the one of slot
39. The finalized state persisted is the historical state fetched at slot 40,
not the one of slot 39, the slot of the block persisted beside it; the
justified pair of the same run is the block of slot 39 with the historical
state of slot 39. -/
theorem updateFFGCheckPts_finalized_state_at_target_slot :
    ∃ c', updateFFGCheckPts 5 demoHelpers skipService epochFiveState = some (c', none) ∧
      c'.durable.FinalizedBlock = .ok block39 ∧
      c'.durable.FinalizedState = .ok (stateAtSlot 40) ∧
      skipService.archive.HistoricalStateFromSlot block39.Slot = .ok (stateAtSlot 39) ∧
      c'.durable.JustifiedBlock = .ok block39 ∧
      c'.durable.JustifiedState = .ok (stateAtSlot 39) :=
  ⟨_, rfl, rfl, rfl, rfl, rfl, rfl⟩

/-- C17: for each label, when the start slot of the post-state's epoch of that
label is at most the slot of the persisted block of that label,
`updateFFGCheckPts` writes nothing for the label: whenever it returns, with or
without error, the persisted block and state of the label are unchanged, and
the section of the label returns the service as it found it. -/
theorem updateFFGCheckPts_no_write (fuel : Nat) (h : Helpers) (c c' : ChainService)
    (state : BeaconState) (e : Option Error)
    (hret : updateFFGCheckPts fuel h c state = some (c', e)) :
    (∀ saved, c.durable.JustifiedBlock = .ok saved →
        StartSlot h state.JustifiedEpoch ≤ saved.Slot →
        updateJustifiedCheckPt fuel h c state = some (c, none) ∧
        c'.durable.JustifiedBlock = c.durable.JustifiedBlock ∧
        c'.durable.JustifiedState = c.durable.JustifiedState) ∧
      (∀ saved, c.durable.FinalizedBlock = .ok saved →
        StartSlot h state.FinalizedEpoch ≤ saved.Slot →
        (∀ c1 : ChainService, c1.durable.FinalizedBlock = .ok saved →
          updateFinalizedCheckPt fuel h c1 state = some (c1, none)) ∧
        c'.durable.FinalizedBlock = c.durable.FinalizedBlock ∧
        c'.durable.FinalizedState = c.durable.FinalizedState) := by
  constructor
  · intro saved hsaved hle
    have hsec : updateJustifiedCheckPt fuel h c state = some (c, none) := by
      unfold updateJustifiedCheckPt
      simp only [hsaved]
      rw [if_neg (by omega)]
    refine ⟨hsec, ?_⟩
    rcases updateFFGCheckPts_cases hret with ⟨err, _, hj⟩ | ⟨c1, hj, hf⟩
    · rw [hsec] at hj
      simp at hj
    · rw [hsec] at hj
      have hc1 : c = c1 := by simpa using hj
      subst hc1
      obtain ⟨_, _, hfb, hfs⟩ := updateFinalizedCheckPt_frame hf
      exact ⟨hfb, hfs⟩
  · intro saved hsaved hle
    have hsec : ∀ c1 : ChainService, c1.durable.FinalizedBlock = .ok saved →
        updateFinalizedCheckPt fuel h c1 state = some (c1, none) := by
      intro c1 hc1
      unfold updateFinalizedCheckPt
      simp only [hc1]
      rw [if_neg (by omega)]
    refine ⟨hsec, ?_⟩
    rcases updateFFGCheckPts_cases hret with ⟨err, _, hj⟩ | ⟨c1, hj, hf⟩
    · obtain ⟨_, _, hfb, hfs⟩ := updateJustifiedCheckPt_frame hj
      exact ⟨hfb, hfs⟩
    · obtain ⟨_, _, hfb, hfs⟩ := updateJustifiedCheckPt_frame hj
      rw [hsec c1 (by rw [hfb]; exact hsaved)] at hf
      have hc1 : c1 = c' := by
        simp only [Option.some.injEq, Prod.mk.injEq] at hf
        exact hf.1
      subst hc1
      exact ⟨hfb, hfs⟩

/-- C17 at the skip service with a post-state of epoch 0 for both labels:
nothing is written. -/
theorem updateFFGCheckPts_no_write_witness :
    ∃ c', updateFFGCheckPts 5 demoHelpers skipService (stateAtSlot 2) = some (c', none) ∧
      c'.durable.JustifiedBlock = skipService.durable.JustifiedBlock ∧
      c'.durable.JustifiedState = skipService.durable.JustifiedState ∧
      c'.durable.FinalizedBlock = skipService.durable.FinalizedBlock ∧
      c'.durable.FinalizedState = skipService.durable.FinalizedState := by
  refine ⟨_, rfl, ?_⟩
  have hnw := updateFFGCheckPts_no_write 5 demoHelpers skipService _ (stateAtSlot 2) none rfl
  have hj := (hnw.1 blockA rfl (by decide)).2
  have hf := (hnw.2 blockA rfl (by decide)).2
  exact ⟨hj.1, hj.2, hf.1, hf.2⟩

/-! ## Monotone check points -/

theorem updateJustifiedCheckPt_monotone (fuel : Nat) (h : Helpers) (c : ChainService)
    (state : BeaconState) {jb : BeaconBlock}
    (hj : c.durable.JustifiedBlock = .ok jb)
    (hslot : ∀ i x, c.beaconDB.BlockBySlot i = .ok (some x) → x.Slot = i)
    (hjs : c.beaconDB.BlockBySlot jb.Slot ≠ .ok none)
    (hfuel : StartSlot h state.JustifiedEpoch ≤ fuel) :
    ∃ c1 e, updateJustifiedCheckPt fuel h c state = some (c1, e) ∧
      ∃ jb', c1.durable.JustifiedBlock = .ok jb' ∧ jb.Slot ≤ jb'.Slot := by
  by_cases hgt : StartSlot h state.JustifiedEpoch > jb.Slot
  · obtain ⟨r, hr, hprop⟩ := newCheckPtBlock_returns fuel hjs (le_of_lt hgt)
      (StartSlot_lt h _) (by omega)
    have hsome : ∃ c1 e, updateJustifiedCheckPt fuel h c state = some (c1, e) := by
      unfold updateJustifiedCheckPt
      simp only [hj, if_pos hgt, hr]
      cases r with
      | error err => exact ⟨_, _, rfl⟩
      | ok nb =>
        simp only
        cases c.archive.HistoricalStateFromSlot nb.Slot with
        | error err => exact ⟨_, _, rfl⟩
        | ok st =>
          simp only
          cases c.archive.SaveJustifiedBlock nb with
          | some err => exact ⟨_, _, rfl⟩
          | none =>
            simp only
            cases c.archive.SaveJustifiedState st with
            | some err => exact ⟨_, _, rfl⟩
            | none => exact ⟨_, _, rfl⟩
    obtain ⟨c1, e, hret⟩ := hsome
    refine ⟨c1, e, hret, ?_⟩
    rcases updateJustifiedCheckPt_cases hret with ⟨rfl, _⟩ | ⟨rfl, _⟩ |
      ⟨sv, nb, st, _, _, hnb, _, _, ⟨err, _, _, rfl⟩ | ⟨_, _, rfl⟩⟩
    · exact ⟨jb, hj, le_refl _⟩
    · exact ⟨jb, hj, le_refl _⟩
    · rw [hr] at hnb
      obtain ⟨i, h1, _, h3⟩ := hprop nb (by simpa using hnb)
      exact ⟨nb, rfl, by rw [hslot i nb h3]; exact h1⟩
    · rw [hr] at hnb
      obtain ⟨i, h1, _, h3⟩ := hprop nb (by simpa using hnb)
      exact ⟨nb, rfl, by rw [hslot i nb h3]; exact h1⟩
  · refine ⟨c, none, ?_, jb, hj, le_refl _⟩
    unfold updateJustifiedCheckPt
    simp only [hj, if_neg hgt]

theorem updateFinalizedCheckPt_monotone (fuel : Nat) (h : Helpers) (c : ChainService)
    (state : BeaconState) {fb : BeaconBlock}
    (hf : c.durable.FinalizedBlock = .ok fb)
    (hslot : ∀ i x, c.beaconDB.BlockBySlot i = .ok (some x) → x.Slot = i)
    (hfs : c.beaconDB.BlockBySlot fb.Slot ≠ .ok none)
    (hfuel : StartSlot h state.FinalizedEpoch ≤ fuel) :
    ∃ c1 e, updateFinalizedCheckPt fuel h c state = some (c1, e) ∧
      ∃ fb', c1.durable.FinalizedBlock = .ok fb' ∧ fb.Slot ≤ fb'.Slot := by
  by_cases hgt : StartSlot h state.FinalizedEpoch > fb.Slot
  · obtain ⟨r, hr, hprop⟩ := newCheckPtBlock_returns fuel hfs (le_of_lt hgt)
      (StartSlot_lt h _) (by omega)
    have hsome : ∃ c1 e, updateFinalizedCheckPt fuel h c state = some (c1, e) := by
      unfold updateFinalizedCheckPt
      simp only [hf, if_pos hgt, hr]
      cases r with
      | error err => exact ⟨_, _, rfl⟩
      | ok nb =>
        simp only
        cases c.archive.HistoricalStateFromSlot (StartSlot h state.FinalizedEpoch) with
        | error err => exact ⟨_, _, rfl⟩
        | ok st =>
          simp only
          cases c.archive.SaveFinalizedBlock nb with
          | some err => exact ⟨_, _, rfl⟩
          | none =>
            simp only
            cases c.archive.SaveFinalizedState st with
            | some err => exact ⟨_, _, rfl⟩
            | none => exact ⟨_, _, rfl⟩
    obtain ⟨c1, e, hret⟩ := hsome
    refine ⟨c1, e, hret, ?_⟩
    rcases updateFinalizedCheckPt_cases hret with ⟨rfl, _⟩ | ⟨rfl, _⟩ |
      ⟨sv, nb, st, _, _, hnb, _, _, ⟨err, _, _, rfl⟩ | ⟨_, _, rfl⟩⟩
    · exact ⟨fb, hf, le_refl _⟩
    · exact ⟨fb, hf, le_refl _⟩
    · rw [hr] at hnb
      obtain ⟨i, h1, _, h3⟩ := hprop nb (by simpa using hnb)
      exact ⟨nb, rfl, by rw [hslot i nb h3]; exact h1⟩
    · rw [hr] at hnb
      obtain ⟨i, h1, _, h3⟩ := hprop nb (by simpa using hnb)
      exact ⟨nb, rfl, by rw [hslot i nb h3]; exact h1⟩
  · refine ⟨c, none, ?_, fb, hf, le_refl _⟩
    unfold updateFinalizedCheckPt
    simp only [hf, if_neg hgt]

/-- C18 (as amended): in a store whose slot index is faithful (`BlockBySlot i`
only returns blocks of slot `i`) and has a block at the slot of the persisted
justified block and at the slot of the persisted finalized block, every
invocation of `updateFFGCheckPts` returns (with fuel covering the two start
slots) and leaves the slot of the persisted justified block, and likewise of
the persisted finalized block, greater than or equal to what it was. -/
theorem updateFFGCheckPts_monotone (fuel : Nat) (h : Helpers) (c : ChainService)
    (state : BeaconState) (jb fb : BeaconBlock)
    (hj : c.durable.JustifiedBlock = .ok jb) (hf : c.durable.FinalizedBlock = .ok fb)
    (hslot : ∀ i x, c.beaconDB.BlockBySlot i = .ok (some x) → x.Slot = i)
    (hjs : c.beaconDB.BlockBySlot jb.Slot ≠ .ok none)
    (hfs : c.beaconDB.BlockBySlot fb.Slot ≠ .ok none)
    (hfuelJ : StartSlot h state.JustifiedEpoch ≤ fuel)
    (hfuelF : StartSlot h state.FinalizedEpoch ≤ fuel) :
    ∃ c' e, updateFFGCheckPts fuel h c state = some (c', e) ∧
      (∃ jb', c'.durable.JustifiedBlock = .ok jb' ∧ jb.Slot ≤ jb'.Slot) ∧
      (∃ fb', c'.durable.FinalizedBlock = .ok fb' ∧ fb.Slot ≤ fb'.Slot) := by
  obtain ⟨c1, e1, hret1, jb', hjb', hle1⟩ :=
    updateJustifiedCheckPt_monotone fuel h c state hj hslot hjs hfuelJ
  obtain ⟨hdb, _, hfb1, _⟩ := updateJustifiedCheckPt_frame hret1
  cases e1 with
  | some err =>
    refine ⟨c1, some err, ?_, ⟨jb', hjb', hle1⟩, ⟨fb, by rw [hfb1]; exact hf, le_refl _⟩⟩
    unfold updateFFGCheckPts
    simp only [hret1]
  | none =>
    obtain ⟨c2, e2, hret2, fb', hfb', hle2⟩ :=
      updateFinalizedCheckPt_monotone fuel h c1 state
        (by rw [hfb1]; exact hf) (by rw [hdb]; exact hslot) (by rw [hdb]; exact hfs) hfuelF
    obtain ⟨_, _, hjb2, _⟩ := updateFinalizedCheckPt_frame hret2
    refine ⟨c2, e2, ?_, ⟨jb', by rw [hjb2]; exact hjb', hle1⟩, ⟨fb', hfb', hle2⟩⟩
    unfold updateFFGCheckPts
    simp only [hret1]
    exact hret2

/-- C18 at the skip service: both checkpoints move from slot 1 to slot 39. -/
theorem updateFFGCheckPts_monotone_witness :
    ∃ c' e, updateFFGCheckPts 40 demoHelpers skipService epochFiveState = some (c', e) ∧
      (∃ jb', c'.durable.JustifiedBlock = .ok jb' ∧ blockA.Slot ≤ jb'.Slot) ∧
      (∃ fb', c'.durable.FinalizedBlock = .ok fb' ∧ blockA.Slot ≤ fb'.Slot) :=
  updateFFGCheckPts_monotone 40 demoHelpers skipService epochFiveState blockA blockA rfl rfl
    (storeOf_slot _ _) (by decide) (by decide) (by decide) (by decide)

/-- C18 (counterexample): the persisted justified block lies at slot 10, the
store has a block at slot 9 and none at slot 10, and the justified epoch 2
starts at slot 16. `updateFFGCheckPts` walks back from slot 16 to slot 9 and
persists that block: the justified slot went from 10 down to 9. -/
theorem updateFFGCheckPts_checkpoint_moves_back :
    gapService.durable.JustifiedBlock = .ok ⟨10, 0, 100⟩ ∧
      ∃ c', updateFFGCheckPts 10 demoHelpers gapService ⟨17, 2, 0, [], []⟩ = some (c', none) ∧
        c'.durable.JustifiedBlock = .ok ⟨9, 0, 90⟩ :=
  ⟨rfl, _, rfl, rfl⟩

/-! ## The walk back below slot 0 -/

theorem lastAvailBlkLoop_empty_store (highest : Nat) :
    ∀ fuel j, lastAvailBlkLoop (storeOf [] highest) fuel j = none := by
  intro fuel
  induction fuel with
  | zero => intro j; rfl
  | succ fuel ih =>
    intro j
    rw [lastAvailBlkLoop]
    have : (storeOf [] highest).BlockBySlot (subUint64 j 1) = .ok none := rfl
    simp only [this]
    exact ih _

/-- C19 (evaluation at the failing inputs): the justified epoch 1 starts at
slot 8, ahead of the persisted justified block `A` of slot 1. With a store
that has no block at all, `updateFFGCheckPts` returns nothing, whatever the
fuel: after slot 0 the slot counter wraps to `2 ^ 64 - 1` and the walk goes
on. With a store whose only block lies at slot `2 ^ 64 - 1`, the walk passes
slot 0, finds that block, and `updateFFGCheckPts` returns without error having
persisted it as justified block. -/
theorem updateFFGCheckPts_walks_below_slot_zero :
    (∀ fuel, updateFFGCheckPts fuel demoHelpers (serviceOver (storeOf [] 0)) epochOneState
        = none) ∧
      ∃ c', updateFFGCheckPts 10 demoHelpers
          (serviceOver (storeOf [⟨2 ^ 64 - 1, 0, 77⟩] (2 ^ 64 - 1))) epochOneState
          = some (c', none) ∧
        c'.durable.JustifiedBlock = .ok ⟨2 ^ 64 - 1, 0, 77⟩ := by
  refine ⟨?_, _, rfl, rfl⟩
  intro fuel
  have hnew : newCheckPtBlock fuel (storeOf [] 0) (StartSlot demoHelpers epochOneState.JustifiedEpoch)
      = none := by
    unfold newCheckPtBlock
    have : (storeOf [] 0).BlockBySlot (StartSlot demoHelpers epochOneState.JustifiedEpoch)
        = .ok none := rfl
    simp only [this]
    exact lastAvailBlkLoop_empty_store 0 fuel _
  have hsec : updateJustifiedCheckPt fuel demoHelpers (serviceOver (storeOf [] 0)) epochOneState
      = none := by
    unfold updateJustifiedCheckPt
    have hsaved : (serviceOver (storeOf [] 0)).durable.JustifiedBlock = .ok blockA := rfl
    have hgt : StartSlot demoHelpers epochOneState.JustifiedEpoch > blockA.Slot := by decide
    have hdb : (serviceOver (storeOf [] 0)).beaconDB = storeOf [] 0 := rfl
    simp only [hsaved, if_pos hgt, hdb, hnew]
  unfold updateFFGCheckPts
  rw [hsec]

/-! ## `ApplyForkChoiceRule` and the check points -/

theorem updateChainHead_checkpoints {h : Helpers} {c c' : ChainService} {head : BeaconBlock}
    {newState : BeaconState} {e : Option Error}
    (hret : updateChainHead h c head newState = some (c', e)) :
    c'.durable.JustifiedBlock = c.durable.JustifiedBlock ∧
      c'.durable.JustifiedState = c.durable.JustifiedState ∧
      c'.durable.FinalizedBlock = c.durable.FinalizedBlock ∧
      c'.durable.FinalizedState = c.durable.FinalizedState := by
  unfold updateChainHead at hret
  cases hup : c.archive.UpdateChainHead head newState with
  | some err =>
    simp only [hup, Option.some.injEq, Prod.mk.injEq] at hret
    rw [← hret.1]
    exact ⟨rfl, rfl, rfl, rfl⟩
  | none =>
    simp only [hup] at hret
    cases hh : h.HashBeaconBlock head with
    | error err =>
      simp only [hh, Option.some.injEq, Prod.mk.injEq] at hret
      rw [← hret.1]
      exact ⟨rfl, rfl, rfl, rfl⟩
    | ok root =>
      simp only [hh, Option.some.injEq, Prod.mk.injEq] at hret
      rw [← hret.1]
      exact ⟨rfl, rfl, rfl, rfl⟩

/-- Whatever `ApplyForkChoiceRule` returns, the four persisted check point
values are the ones it found. -/
theorem ApplyForkChoiceRule_checkpoints {fuel : Nat} {h : Helpers} {c c' : ChainService}
    {block : BeaconBlock} {postState : BeaconState} {e : Option Error}
    (hret : ApplyForkChoiceRule fuel h c block postState = some (c', e)) :
    c'.durable.JustifiedBlock = c.durable.JustifiedBlock ∧
      c'.durable.JustifiedState = c.durable.JustifiedState ∧
      c'.durable.FinalizedBlock = c.durable.FinalizedBlock ∧
      c'.durable.FinalizedState = c.durable.FinalizedState := by
  unfold ApplyForkChoiceRule at hret
  cases hsel : selectHead fuel h c with
  | none => simp [hsel] at hret
  | some r =>
    cases r with
    | error err =>
      simp only [hsel, Option.some.injEq, Prod.mk.injEq] at hret
      rw [← hret.1]
      exact ⟨rfl, rfl, rfl, rfl⟩
    | ok head =>
      simp only [hsel] at hret
      cases hroot : h.HashBeaconBlock head with
      | error err =>
        simp only [hroot, Option.some.injEq, Prod.mk.injEq] at hret
        rw [← hret.1]
        exact ⟨rfl, rfl, rfl, rfl⟩
      | ok root =>
        simp only [hroot] at hret
        by_cases hne : head.Slot ≠ block.Slot
        · rw [if_pos hne] at hret
          cases hst : c.archive.HistoricalStateFromSlot head.Slot with
          | error err =>
            simp only [hst, Option.some.injEq, Prod.mk.injEq] at hret
            rw [← hret.1]
            exact ⟨rfl, rfl, rfl, rfl⟩
          | ok newState =>
            simp only [hst] at hret
            have hcp := updateChainHead_checkpoints hret
            exact hcp
        · rw [if_neg hne] at hret
          have hcp := updateChainHead_checkpoints hret
          exact hcp

/-- C20 (as amended): `ApplyForkChoiceRule(block, postState)` does not run the
check point updater. Whatever it returns, the persisted justified and
finalized block and state are the ones it found, also when the start slot of
`postState`'s justified epoch is ahead of the persisted justified block; and
its head selection is `lmdGhost` started from the justified block and state
persisted when it was called (the updated ones only if `updateFFGCheckPts` was
run before the call). -/
theorem ApplyForkChoiceRule_uses_persisted_checkpoint (fuel : Nat) (h : Helpers)
    (c c' : ChainService) (block : BeaconBlock) (postState : BeaconState) (e : Option Error)
    (hret : ApplyForkChoiceRule fuel h c block postState = some (c', e)) :
    (c'.durable.JustifiedBlock = c.durable.JustifiedBlock ∧
        c'.durable.JustifiedState = c.durable.JustifiedState ∧
        c'.durable.FinalizedBlock = c.durable.FinalizedBlock ∧
        c'.durable.FinalizedState = c.durable.FinalizedState) ∧
      ∀ justifiedHead justifiedState targets head,
        c.durable.JustifiedBlock = .ok justifiedHead →
        c.durable.JustifiedState = .ok justifiedState →
        attestationTargets h c.attsService justifiedState = .ok targets →
        (selectHead fuel h c = some (.ok head) ↔
          lmdGhost fuel h c.beaconDB justifiedHead justifiedState targets = some (.ok head)) := by
  refine ⟨ApplyForkChoiceRule_checkpoints hret, ?_⟩
  intro justifiedHead justifiedState targets head hjb hjs htg
  unfold selectHead
  simp only [hjs, htg, hjb]
  cases lmdGhost fuel h c.beaconDB justifiedHead justifiedState targets with
  | none => simp
  | some r =>
    cases r with
    | error err => simp
    | ok x => simp

/-- C20 at the reorg service: the justified checkpoint `A` is still `A` after the call. -/
theorem ApplyForkChoiceRule_uses_persisted_checkpoint_witness :
    ∃ c', ApplyForkChoiceRule 10 demoHelpers reorgService blockX ⟨4, 1, 0, [], []⟩
        = some (c', none) ∧
      c'.durable.JustifiedBlock = .ok blockA :=
  ⟨_, rfl,
    (ApplyForkChoiceRule_uses_persisted_checkpoint 10 demoHelpers reorgService _ blockX
      ⟨4, 1, 0, [], []⟩ none rfl).1.1⟩

/-- C20 (counterexample): at the reorg service the post-state's justified
epoch 1 starts at slot 8, ahead of the persisted justified block `A` of slot
1. `ApplyForkChoiceRule` leaves `A` as the justified block and moves the chain
head to `C`, the head chosen from `A`. Had the updater run first, the
justified block would be `X` and the head chosen from it would be `X`. -/
theorem ApplyForkChoiceRule_does_not_update_checkpoints :
    blockA.Slot < StartSlot demoHelpers 1 ∧
      (∃ c', ApplyForkChoiceRule 10 demoHelpers reorgService blockX ⟨4, 1, 0, [], []⟩
          = some (c', none) ∧
        c'.durable.JustifiedBlock = .ok blockA ∧
        c'.durable.ChainHead = some (blockC, stateAtSlot 3)) ∧
      ∃ c1, updateFFGCheckPts 10 demoHelpers reorgService ⟨4, 1, 0, [], []⟩ = some (c1, none) ∧
        c1.durable.JustifiedBlock = .ok blockX ∧
        selectHead 10 demoHelpers c1 = some (.ok blockX) :=
  ⟨by decide, ⟨_, rfl, rfl, rfl⟩, _, rfl, rfl, by decide⟩

/-! ## Frame of the index, missed reorgs -/

/-- C30: after a successful `ApplyForkChoiceRule(block, postState)` with
selected head `head`, every entry of the index at a slot `s` other than
`head.Slot` and outside the range `head.Slot < s ≤ block.Slot` is exactly what
it was before the call: entries below `head.Slot` and entries above
`block.Slot` are neither rewritten nor removed. -/
theorem ApplyForkChoiceRule_index_frame (fuel : Nat) (h : Helpers) (c c' : ChainService)
    (block head : BeaconBlock) (postState : BeaconState)
    (hsel : selectHead fuel h c = some (.ok head))
    (hret : ApplyForkChoiceRule fuel h c block postState = some (c', none)) :
    (∀ s, s ≠ head.Slot → ¬ (head.Slot < s ∧ s ≤ block.Slot) →
        c'.canonicalBlocks s = c.canonicalBlocks s) ∧
      (∀ s, s < head.Slot → c'.canonicalBlocks s = c.canonicalBlocks s) ∧
      (∀ s, head.Slot < s → block.Slot < s → c'.canonicalBlocks s = c.canonicalBlocks s) := by
  obtain ⟨root, newState, _, _, _, hidx, _, _, _, _, _⟩ := ApplyForkChoiceRule_success hsel hret
  have hframe : ∀ s, s ≠ head.Slot → ¬ (head.Slot < s ∧ s ≤ block.Slot) →
      c'.canonicalBlocks s = c.canonicalBlocks s := by
    intro s hs hrange
    rw [hidx, rewritten_index_apply, if_neg hrange, if_neg hs]
  exact ⟨hframe, fun s hs => hframe s (by omega) (by omega),
    fun s h1 h2 => hframe s (by omega) (by omega)⟩

/-- C30 at the reorg service: the entries of slots 1 and 2 survive the reorg
from `X` (slot 4) to `C` (slot 3) unchanged. -/
theorem ApplyForkChoiceRule_index_frame_witness :
    ∃ c', ApplyForkChoiceRule 10 exampleHelpers reorgService blockX (stateAtSlot 4)
        = some (c', none) ∧
      c'.canonicalBlocks 1 = reorgService.canonicalBlocks 1 ∧
      c'.canonicalBlocks 2 = reorgService.canonicalBlocks 2 :=
  ⟨_, rfl,
    (ApplyForkChoiceRule_index_frame 10 exampleHelpers reorgService _ blockX blockC
      (stateAtSlot 4) (by decide) rfl).2.1 1 (by decide),
    (ApplyForkChoiceRule_index_frame 10 exampleHelpers reorgService _ blockX blockC
      (stateAtSlot 4) (by decide) rfl).2.1 2 (by decide)⟩

/-- C24: when `ApplyForkChoiceRule(block, postState)` succeeds with a selected
head whose root differs from the root of the processed block but whose slot
equals the processed block's slot, it counts no reorg, removes no index entry
(every entry at another slot is as before, the entry of the head's slot is the
head's root) and moves the chain head to `(head, postState)`, the post-state
of the processed block. -/
theorem ApplyForkChoiceRule_missed_reorg (fuel : Nat) (h : Helpers) (c c' : ChainService)
    (block head : BeaconBlock) (postState : BeaconState)
    (hsel : selectHead fuel h c = some (.ok head))
    (hret : ApplyForkChoiceRule fuel h c block postState = some (c', none))
    (_hdigest : h.HashBeaconBlock head ≠ h.HashBeaconBlock block)
    (hslot : head.Slot = block.Slot) :
    c'.reorgCount = c.reorgCount ∧
      (∀ s, s ≠ head.Slot → c'.canonicalBlocks s = c.canonicalBlocks s) ∧
      (∃ root, h.HashBeaconBlock head = .ok root ∧ c'.canonicalBlocks head.Slot = some root) ∧
      c'.durable.ChainHead = some (head, postState) := by
  obtain ⟨root, newState, hroot, hst, _, hidx, hcount, hdur, _, _, _⟩ :=
    ApplyForkChoiceRule_success hsel hret
  rw [if_neg (by omega)] at hst hcount
  refine ⟨hcount, ?_, ⟨root, hroot, ?_⟩, by rw [hdur, hst]⟩
  · intro s hs
    rw [hidx, rewritten_index_apply, if_neg (by omega), if_neg hs]
  · rw [hidx, rewritten_index_apply, if_neg (by omega), if_pos rfl]

/-- C24 at the reorg service: the processed block is `P`, a child of `B` at
slot 3; the selected head is `C`, a child of `A` at the same slot 3 with
another root. No reorg is counted, the entries of `B` and `X` stay in the
index, and the chain head becomes `C` with the post-state of `P`. -/
theorem ApplyForkChoiceRule_missed_reorg_witness :
    selectHead 10 exampleHelpers reorgService = some (.ok blockC) ∧
      exampleHelpers.HashBeaconBlock blockC ≠ exampleHelpers.HashBeaconBlock blockP ∧
      blockC.Slot = blockP.Slot ∧
      ∃ c', ApplyForkChoiceRule 10 exampleHelpers reorgService blockP (stateAtSlot 3)
          = some (c', none) ∧
        c'.reorgCount = 0 ∧ c'.canonicalBlocks 2 = some 20 ∧ c'.canonicalBlocks 4 = some 45 ∧
        c'.durable.ChainHead = some (blockC, stateAtSlot 3) := by
  refine ⟨by decide, by decide, by decide, _, rfl, ?_⟩
  obtain ⟨hcount, hframe, _, hhead⟩ := ApplyForkChoiceRule_missed_reorg 10 exampleHelpers
    reorgService _ blockP blockC (stateAtSlot 3) (by decide) rfl (by decide) (by decide)
  exact ⟨hcount, hframe 2 (by decide), hframe 4 (by decide), hhead⟩

/-! ## Recursion depth of `BlockAncestor` -/

/-- C26: when slots strictly decrease along the parent links from `block`,
`BlockAncestor block slot` returns within a recursion depth of
`block.Slot - slot` (that many recursive calls after the first call), hence
within `highestSlot` recursive calls for a block at or below the highest known
slot. -/
theorem BlockAncestor_terminates (beaconDB : BeaconDB) (block : BeaconBlock) (slot : Nat)
    (hdec : SlotsDecreaseFrom beaconDB block) :
    (∀ fuel, block.Slot - slot < fuel → BlockAncestor beaconDB slot fuel block ≠ none) ∧
      (block.Slot ≤ beaconDB.HighestBlockSlot →
        ∀ fuel, beaconDB.HighestBlockSlot < fuel → BlockAncestor beaconDB slot fuel block ≠ none) := by
  refine ⟨fun fuel hf => BlockAncestor_isSome fuel block hdec hf, ?_⟩
  intro hle fuel hf
  exact BlockAncestor_isSome fuel block hdec (by omega)

/-- C26 at the fork store: the walk from `D` (slot 4) to slot 1 returns with depth 3. -/
theorem BlockAncestor_terminates_witness :
    BlockAncestor forkStore 1 4 blockD ≠ none :=
  (BlockAncestor_terminates forkStore blockD 1 forkStore_slotsDecrease).1 4 (by decide)

/-! ## The selection rule of one iteration -/

theorem getLast?_getD_cons {α : Type} (a x : α) (l : List α) :
    ((a :: l).getLast?).getD x = (l.getLast?).getD a := by
  cases l with
  | nil => rfl
  | cons b l =>
    rw [List.getLast?_cons_cons]
    cases hl : (b :: l).getLast? with
    | none => simp at hl
    | some y => rfl

theorem maxChildLoop_eq_last {fuel : Nat} {h : Helpers} {beaconDB : BeaconDB}
    {state : BeaconState} {targets : TargetMap} (w : BeaconBlock → Int) (votes : Int) :
    ∀ (children : List BeaconBlock) (maxChild : BeaconBlock),
      (∀ c ∈ children, VoteCount fuel h c state targets beaconDB = some (.ok (w c))) →
      maxChildLoop fuel h beaconDB state targets votes children maxChild =
        some (.ok (((children.filter (fun c => decide (w c > votes))).getLast?).getD maxChild)) := by
  intro children
  induction children with
  | nil => intro maxChild _; rfl
  | cons child rest ih =>
    intro maxChild hv
    have hrest : ∀ c ∈ rest, VoteCount fuel h c state targets beaconDB = some (.ok (w c)) :=
      fun c hc => hv c (List.mem_cons_of_mem _ hc)
    rw [maxChildLoop, hv child (List.mem_cons_self _ _)]
    simp only
    by_cases hgt : w child > votes
    · rw [if_pos hgt, ih child hrest, List.filter_cons, if_pos (by simpa using hgt),
        getLast?_getD_cons]
    · rw [if_neg hgt, ih maxChild hrest, List.filter_cons, if_neg (by simpa using hgt)]

/-- C27: for a non-empty children list `first :: rest` whose vote counts are
the values `w`, the child chosen by one iteration of `lmdGhost` is `first`
when no child has a vote count strictly greater than that of `first`, and
otherwise the last child, in enumeration order, whose vote count is strictly
greater than that of `first`; every comparison is against the vote count of
`first`. -/
theorem chooseChild_eq_lastHeavier (fuel : Nat) (h : Helpers) (beaconDB : BeaconDB)
    (startState : BeaconState) (voteTargets : TargetMap) (w : BeaconBlock → Int)
    (first : BeaconBlock) (rest : List BeaconBlock)
    (hv : ∀ c ∈ first :: rest,
      VoteCount fuel h c startState voteTargets beaconDB = some (.ok (w c))) :
    chooseChild fuel h beaconDB startState voteTargets first rest
        = some (.ok (lastHeavierThanFirst w first rest)) ∧
      ((∀ c ∈ first :: rest, ¬ w c > w first) → lastHeavierThanFirst w first rest = first) ∧
      (∀ pre c post, first :: rest = pre ++ c :: post → w c > w first →
        (∀ d ∈ post, ¬ w d > w first) → lastHeavierThanFirst w first rest = c) := by
  refine ⟨?_, ?_, ?_⟩
  · unfold chooseChild
    rw [hv first (List.mem_cons_self _ _)]
    simp only
    rw [maxChildLoop_eq_last w (w first) (first :: rest) first hv]
    rfl
  · intro hnone
    unfold lastHeavierThanFirst
    have : (first :: rest).filter (fun c => decide (w c > w first)) = [] := by
      rw [List.filter_eq_nil_iff]
      intro c hc
      simpa using hnone c hc
    rw [this]
    rfl
  · intro pre c post hsplit hc hpost
    unfold lastHeavierThanFirst
    rw [hsplit, List.filter_append, List.filter_cons, if_pos (by simpa using hc)]
    have : post.filter (fun d => decide (w d > w first)) = [] := by
      rw [List.filter_eq_nil_iff]
      intro d hd
      simpa using hpost d hd
    rw [this, List.getLast?_append]
    simp

/-- C27 at the fork store with weights 10, 30, 20 for `B`, `C`, `D`: the
chosen child is `D`, the last child heavier than `B`. -/
theorem chooseChild_eq_lastHeavier_witness :
    chooseChild 10 exampleHelpers forkStore (stateWithBalances [10, 30, 20]) forkTargets
        blockB [blockC, blockD]
      = some (.ok (lastHeavierThanFirst
          (fun c => if c = blockB then 10 else if c = blockC then 30 else 20)
          blockB [blockC, blockD])) :=
  (chooseChild_eq_lastHeavier 10 exampleHelpers forkStore (stateWithBalances [10, 30, 20])
    forkTargets (fun c => if c = blockB then 10 else if c = blockC then 30 else 20)
    blockB [blockC, blockD]
    (by
      intro c hc
      simp only [List.mem_cons, List.mem_singleton, List.not_mem_nil, or_false] at hc
      rcases hc with rfl | rfl | rfl <;> decide)).1

/-! ## Atomicity of the check point writes -/

/-- C21 (as amended): each label is written by two separate writes, the block
first and the state second. Whenever `updateFFGCheckPts` returns, for each
label either neither the persisted block nor the persisted state was changed,
or both were replaced by the new pair, or - only when the write of the state
returned the error that `updateFFGCheckPts` returns - the block was replaced
and the state was left as it was. When `updateFFGCheckPts` returns without
error, each label has either both or neither replaced. -/
theorem updateFFGCheckPts_write_pairs (fuel : Nat) (h : Helpers) (c c' : ChainService)
    (state : BeaconState) (e : Option Error)
    (hret : updateFFGCheckPts fuel h c state = some (c', e)) :
    ((c'.durable.JustifiedBlock = c.durable.JustifiedBlock ∧
          c'.durable.JustifiedState = c.durable.JustifiedState) ∨
        (∃ nb st, c.archive.HistoricalStateFromSlot nb.Slot = .ok st ∧
          c'.durable.JustifiedBlock = .ok nb ∧ c'.durable.JustifiedState = .ok st) ∨
        (∃ nb st err, e = some err ∧ c.archive.SaveJustifiedState st = some err ∧
          c'.durable.JustifiedBlock = .ok nb ∧
          c'.durable.JustifiedState = c.durable.JustifiedState)) ∧
      ((c'.durable.FinalizedBlock = c.durable.FinalizedBlock ∧
          c'.durable.FinalizedState = c.durable.FinalizedState) ∨
        (∃ nb st, c.archive.HistoricalStateFromSlot (StartSlot h state.FinalizedEpoch) = .ok st ∧
          c'.durable.FinalizedBlock = .ok nb ∧ c'.durable.FinalizedState = .ok st) ∨
        (∃ nb st err, e = some err ∧ c.archive.SaveFinalizedState st = some err ∧
          c'.durable.FinalizedBlock = .ok nb ∧
          c'.durable.FinalizedState = c.durable.FinalizedState)) := by
  have hjust : ∀ {c0 c1 : ChainService} {e1 : Option Error},
      updateJustifiedCheckPt fuel h c0 state = some (c1, e1) →
      (c1.durable.JustifiedBlock = c0.durable.JustifiedBlock ∧
          c1.durable.JustifiedState = c0.durable.JustifiedState) ∨
        (e1 = none ∧ ∃ nb st, c0.archive.HistoricalStateFromSlot nb.Slot = .ok st ∧
          c1.durable.JustifiedBlock = .ok nb ∧ c1.durable.JustifiedState = .ok st) ∨
        (∃ nb st err, e1 = some err ∧ c0.archive.SaveJustifiedState st = some err ∧
          c1.durable.JustifiedBlock = .ok nb ∧
          c1.durable.JustifiedState = c0.durable.JustifiedState) := by
    intro c0 c1 e1 hj
    rcases updateJustifiedCheckPt_cases hj with ⟨rfl, _⟩ | ⟨rfl, _⟩ |
      ⟨sv, nb, st, _, _, _, hst, _, ⟨err, hss, he, rfl⟩ | ⟨_, he, rfl⟩⟩
    · exact Or.inl ⟨rfl, rfl⟩
    · exact Or.inl ⟨rfl, rfl⟩
    · exact Or.inr (Or.inr ⟨nb, st, err, he, hss, rfl, rfl⟩)
    · exact Or.inr (Or.inl ⟨he, nb, st, hst, rfl, rfl⟩)
  have hfin : ∀ {c0 c1 : ChainService} {e1 : Option Error},
      updateFinalizedCheckPt fuel h c0 state = some (c1, e1) →
      (c1.durable.FinalizedBlock = c0.durable.FinalizedBlock ∧
          c1.durable.FinalizedState = c0.durable.FinalizedState) ∨
        (∃ nb st, c0.archive.HistoricalStateFromSlot (StartSlot h state.FinalizedEpoch) = .ok st ∧
          c1.durable.FinalizedBlock = .ok nb ∧ c1.durable.FinalizedState = .ok st) ∨
        (∃ nb st err, e1 = some err ∧ c0.archive.SaveFinalizedState st = some err ∧
          c1.durable.FinalizedBlock = .ok nb ∧
          c1.durable.FinalizedState = c0.durable.FinalizedState) := by
    intro c0 c1 e1 hf
    rcases updateFinalizedCheckPt_cases hf with ⟨rfl, _⟩ | ⟨rfl, _⟩ |
      ⟨sv, nb, st, _, _, _, hst, _, ⟨err, hss, he, rfl⟩ | ⟨_, he, rfl⟩⟩
    · exact Or.inl ⟨rfl, rfl⟩
    · exact Or.inl ⟨rfl, rfl⟩
    · exact Or.inr (Or.inr ⟨nb, st, err, he, hss, rfl, rfl⟩)
    · exact Or.inr (Or.inl ⟨nb, st, hst, rfl, rfl⟩)
  rcases updateFFGCheckPts_cases hret with ⟨err, he, hj⟩ | ⟨c1, hj, hf⟩
  · obtain ⟨_, _, hfb, hfs⟩ := updateJustifiedCheckPt_frame hj
    refine ⟨?_, Or.inl ⟨hfb, hfs⟩⟩
    rcases hjust hj with hun | ⟨hnone, _⟩ | ⟨nb, st, err', he', hss, h1, h2⟩
    · exact Or.inl hun
    · simp at hnone
    · refine Or.inr (Or.inr ⟨nb, st, err', ?_, hss, h1, h2⟩)
      rw [he]; exact he'
  · obtain ⟨_, harch, hfb, hfs⟩ := updateJustifiedCheckPt_frame hj
    obtain ⟨_, _, hjb, hjs⟩ := updateFinalizedCheckPt_frame hf
    constructor
    · rw [hjb, hjs]
      rcases hjust hj with hun | ⟨_, nb, st, hst, h1, h2⟩ | ⟨nb, st, err', he', _⟩
      · exact Or.inl hun
      · exact Or.inr (Or.inl ⟨nb, st, hst, h1, h2⟩)
      · simp at he'
    · rw [← hfb, ← hfs, ← harch]
      exact hfin hf

/-- C21 at the skip service with the justified and finalized epoch 5: the run
succeeds and the justified pair is replaced as a whole. -/
theorem updateFFGCheckPts_write_pairs_witness :
    ∃ c', updateFFGCheckPts 5 demoHelpers skipService epochFiveState = some (c', none) ∧
      ((c'.durable.JustifiedBlock = skipService.durable.JustifiedBlock ∧
          c'.durable.JustifiedState = skipService.durable.JustifiedState) ∨
        (∃ nb st, skipService.archive.HistoricalStateFromSlot nb.Slot = .ok st ∧
          c'.durable.JustifiedBlock = .ok nb ∧ c'.durable.JustifiedState = .ok st) ∨
        (∃ nb st err, (none : Option Error) = some err ∧
          skipService.archive.SaveJustifiedState st = some err ∧
          c'.durable.JustifiedBlock = .ok nb ∧
          c'.durable.JustifiedState = skipService.durable.JustifiedState)) :=
  ⟨_, rfl,
    (updateFFGCheckPts_write_pairs 5 demoHelpers skipService _ epochFiveState none rfl).1⟩

/-- C21 (counterexample): the write of the justified block succeeds and the
write of the justified state fails. `updateFFGCheckPts` returns that error;
the persisted justified block is now the block of slot 39 and the persisted
justified state is still the previous one. -/
theorem updateFFGCheckPts_block_without_state :
    ∃ c', updateFFGCheckPts 5 demoHelpers halfWriteService epochFiveState
        = some (c', some (.collaborator 1)) ∧
      halfWriteService.durable.JustifiedBlock = .ok blockA ∧
      c'.durable.JustifiedBlock = .ok block39 ∧
      c'.durable.JustifiedState = halfWriteService.durable.JustifiedState :=
  ⟨_, rfl, rfl, rfl, rfl⟩

/-! ## `ApplyForkChoiceRule` on its error paths -/

theorem revertedSlotLoop_self (canonicalBlocks : CanonicalBlocks) (slot : Nat) :
    revertedSlotLoop slot slot canonicalBlocks = canonicalBlocks := by
  funext s
  rw [revertedSlotLoop_apply]
  have : ¬ (slot < s ∧ s ≤ slot) := by omega
  rw [if_neg this]

/-- The four ways `ApplyForkChoiceRule` ends: an error before the index is
written, a failed fetch of the historical state after the head was written
into the index, a failed `UpdateChainHead` after the index was rewritten, or
success. -/
theorem ApplyForkChoiceRule_cases {fuel : Nat} {h : Helpers} {c c' : ChainService}
    {block : BeaconBlock} {postState : BeaconState} {e : Option Error}
    (hret : ApplyForkChoiceRule fuel h c block postState = some (c', e)) :
    (c' = c ∧ ∃ err, e = some err ∧
        (selectHead fuel h c = some (.error err) ∨
          ∃ head cause, selectHead fuel h c = some (.ok head) ∧
            h.HashBeaconBlock head = .error cause ∧ err = .couldNotHashHeadBlock cause)) ∨
    (∃ head root cause, selectHead fuel h c = some (.ok head) ∧
        h.HashBeaconBlock head = .ok root ∧ head.Slot ≠ block.Slot ∧
        c.archive.HistoricalStateFromSlot head.Slot = .error cause ∧
        e = some (.couldNotGenState cause) ∧
        c' = { c with canonicalBlocks := setCanonical c.canonicalBlocks head.Slot root }) ∨
    (∃ head root newState cause, selectHead fuel h c = some (.ok head) ∧
        h.HashBeaconBlock head = .ok root ∧
        c.archive.UpdateChainHead head newState = some cause ∧
        e = some (.failedToUpdateChain cause) ∧
        c' = { c with
          canonicalBlocks :=
            revertedSlotLoop head.Slot block.Slot (setCanonical c.canonicalBlocks head.Slot root),
          reorgCount := if head.Slot ≠ block.Slot then c.reorgCount + 1 else c.reorgCount }) ∨
    (e = none ∧ ∃ head, selectHead fuel h c = some (.ok head)) := by
  unfold ApplyForkChoiceRule at hret
  cases hsel : selectHead fuel h c with
  | none => simp [hsel] at hret
  | some r =>
    cases r with
    | error err =>
      simp only [hsel, Option.some.injEq, Prod.mk.injEq] at hret
      exact Or.inl ⟨hret.1.symm, err, hret.2.symm, Or.inl rfl⟩
    | ok head =>
      simp only [hsel] at hret
      cases hroot : h.HashBeaconBlock head with
      | error cause =>
        simp only [hroot, Option.some.injEq, Prod.mk.injEq] at hret
        exact Or.inl ⟨hret.1.symm, _, hret.2.symm, Or.inr ⟨head, cause, rfl, hroot, rfl⟩⟩
      | ok root =>
        simp only [hroot] at hret
        by_cases hne : head.Slot ≠ block.Slot
        · rw [if_pos hne] at hret
          cases hst : c.archive.HistoricalStateFromSlot head.Slot with
          | error cause =>
            simp only [hst, Option.some.injEq, Prod.mk.injEq] at hret
            exact Or.inr (Or.inl ⟨head, root, cause, rfl, hroot, hne, hst, hret.2.symm,
              hret.1.symm⟩)
          | ok newState =>
            simp only [hst] at hret
            rw [updateChainHead_eq hroot] at hret
            cases hup : c.archive.UpdateChainHead head newState with
            | some cause =>
              simp only [hup, Option.some.injEq, Prod.mk.injEq] at hret
              refine Or.inr (Or.inr (Or.inl ⟨head, root, newState, cause, rfl, hroot, hup,
                hret.2.symm, ?_⟩))
              rw [← hret.1, if_pos hne]
            | none =>
              simp only [hup, Option.some.injEq, Prod.mk.injEq] at hret
              exact Or.inr (Or.inr (Or.inr ⟨hret.2.symm, head, rfl⟩))
        · rw [if_neg hne] at hret
          rw [updateChainHead_eq hroot] at hret
          cases hup : c.archive.UpdateChainHead head postState with
          | some cause =>
            simp only [hup, Option.some.injEq, Prod.mk.injEq] at hret
            refine Or.inr (Or.inr (Or.inl ⟨head, root, postState, cause, rfl, hroot, hup,
              hret.2.symm, ?_⟩))
            have heq : head.Slot = block.Slot := by omega
            rw [← hret.1, if_neg hne, ← heq, revertedSlotLoop_self]
          | none =>
            simp only [hup, Option.some.injEq, Prod.mk.injEq] at hret
            exact Or.inr (Or.inr (Or.inr ⟨hret.2.symm, head, rfl⟩))

/-- C22 (as amended): when `ApplyForkChoiceRule` returns an error, the chain
head and the check points are as before the call, and the index is in one of
three states. It equals the index before the call when the error arose before
the index is written (head selection or the hash of the head failed). It has
the new head entry written and nothing removed, with no reorg counted, when
the fetch of the historical state failed. It is the complete rewritten index
(head entry written, reverted slots removed, reorg counted) when
`UpdateChainHead` failed. -/
theorem ApplyForkChoiceRule_error_index (fuel : Nat) (h : Helpers) (c c' : ChainService)
    (block : BeaconBlock) (postState : BeaconState) (err : Error)
    (hret : ApplyForkChoiceRule fuel h c block postState = some (c', some err)) :
    c'.durable = c.durable ∧
      (((selectHead fuel h c = some (.error err) ∨
            ∃ head cause, selectHead fuel h c = some (.ok head) ∧
              h.HashBeaconBlock head = .error cause ∧ err = .couldNotHashHeadBlock cause) ∧
          c'.canonicalBlocks = c.canonicalBlocks ∧ c'.reorgCount = c.reorgCount) ∨
        (∃ head root cause, selectHead fuel h c = some (.ok head) ∧
          h.HashBeaconBlock head = .ok root ∧ err = .couldNotGenState cause ∧
          c'.canonicalBlocks = setCanonical c.canonicalBlocks head.Slot root ∧
          c'.reorgCount = c.reorgCount) ∨
        (∃ head root cause, selectHead fuel h c = some (.ok head) ∧
          h.HashBeaconBlock head = .ok root ∧ err = .failedToUpdateChain cause ∧
          c'.canonicalBlocks =
            revertedSlotLoop head.Slot block.Slot
              (setCanonical c.canonicalBlocks head.Slot root) ∧
          c'.reorgCount = (if head.Slot ≠ block.Slot then c.reorgCount + 1
            else c.reorgCount))) := by
  rcases ApplyForkChoiceRule_cases hret with ⟨rfl, err', he, hwhy⟩ |
    ⟨head, root, cause, hsel, hroot, _, _, he, rfl⟩ |
    ⟨head, root, newState, cause, hsel, hroot, _, he, rfl⟩ | ⟨he, _⟩
  · have herr : err = err' := by simpa using he
    subst herr
    exact ⟨rfl, Or.inl ⟨hwhy, rfl, rfl⟩⟩
  · have herr : err = .couldNotGenState cause := by simpa using he
    exact ⟨rfl, Or.inr (Or.inl ⟨head, root, cause, hsel, hroot, herr, rfl, rfl⟩)⟩
  · have herr : err = .failedToUpdateChain cause := by simpa using he
    exact ⟨rfl, Or.inr (Or.inr ⟨head, root, cause, hsel, hroot, herr, rfl, rfl⟩)⟩
  · simp at he

/-- C22 at the service without historical states: the error of the fetch is
returned and the durable state is untouched. -/
theorem ApplyForkChoiceRule_error_index_witness :
    ∃ c', ApplyForkChoiceRule 10 exampleHelpers noHistoryService blockX (stateAtSlot 4)
        = some (c', some (.couldNotGenState (.collaborator 2))) ∧
      c'.durable = noHistoryService.durable :=
  ⟨_, rfl,
    (ApplyForkChoiceRule_error_index 10 exampleHelpers noHistoryService _ blockX (stateAtSlot 4)
      (.couldNotGenState (.collaborator 2)) rfl).1⟩

/-- C22 (counterexample): the index before the call is `A <- B <- X` with no
entry at slot 3. When the fetch of the historical state fails,
`ApplyForkChoiceRule` returns an error and the index has the entry of the new
head `C` at slot 3 while the reverted slot 4 is still there and the chain head
was not updated. When `UpdateChainHead` fails, it returns an error and the
index is rewritten completely (slot 3 written, slot 4 removed) although the
chain head was not updated. -/
theorem ApplyForkChoiceRule_error_leaves_index_changed :
    reorgService.canonicalBlocks 3 = none ∧
      (∃ c', ApplyForkChoiceRule 10 exampleHelpers noHistoryService blockX (stateAtSlot 4)
          = some (c', some (.couldNotGenState (.collaborator 2))) ∧
        c'.canonicalBlocks 3 = some 30 ∧ c'.canonicalBlocks 4 = some 45 ∧
        c'.durable.ChainHead = none) ∧
      ∃ c', ApplyForkChoiceRule 10 exampleHelpers noHeadUpdateService blockX (stateAtSlot 4)
          = some (c', some (.failedToUpdateChain (.collaborator 3))) ∧
        c'.canonicalBlocks 3 = some 30 ∧ c'.canonicalBlocks 4 = none ∧
        c'.durable.ChainHead = none :=
  ⟨rfl, ⟨_, rfl, rfl, rfl, rfl⟩, _, rfl, rfl, rfl, rfl⟩

/-! ## Where the head chosen by `lmdGhost` comes from -/

/-- Every block returned by the loop of `blockChildren` was already collected
or was read from the slot index and names `currentRoot` as its parent. -/
theorem blockChildrenLoop_mem {beaconDB : BeaconDB} {root : Digest} {H : Nat} :
    ∀ (fuel i : Nat) (acc out : List BeaconBlock),
      blockChildrenLoop beaconDB root H fuel i acc = some (.ok out) →
      ∀ b ∈ out, b ∈ acc ∨
        ∃ j, beaconDB.BlockBySlot j = .ok (some b) ∧ root = b.ParentRootHash32 := by
  intro fuel
  induction fuel with
  | zero => intro i acc out h; simp [blockChildrenLoop] at h
  | succ fuel ih =>
    intro i acc out h b hb
    unfold blockChildrenLoop at h
    by_cases hi : i ≤ H
    · rw [if_pos hi] at h
      cases hbs : beaconDB.BlockBySlot i with
      | error e => simp [hbs] at h
      | ok r =>
        cases r with
        | none =>
          simp only [hbs] at h
          exact ih _ _ _ h b hb
        | some blk =>
          simp only [hbs] at h
          by_cases hp : root = blk.ParentRootHash32
          · rw [if_pos hp] at h
            rcases ih _ _ _ h b hb with hmem | hex
            · rcases List.mem_append.mp hmem with hacc | hlast
              · exact Or.inl hacc
              · have hbeq : b = blk := by simpa using hlast
                subst hbeq
                exact Or.inr ⟨i, hbs, hp⟩
            · exact Or.inr hex
          · rw [if_neg hp] at h
            exact ih _ _ _ h b hb
    · rw [if_neg hi] at h
      have hout : acc = out := by simpa using h
      subst hout
      exact Or.inl hb

/-- Every child returned by `blockChildren` was read from the slot index and
names the root of `block` as its parent. -/
theorem blockChildren_mem {fuel : Nat} {h : Helpers} {beaconDB : BeaconDB}
    {block : BeaconBlock} {H : Nat} {children : List BeaconBlock}
    (hc : blockChildren fuel h beaconDB block H = some (.ok children)) :
    ∀ b ∈ children, ∃ j root, beaconDB.BlockBySlot j = .ok (some b) ∧
      h.HashBeaconBlock block = .ok root ∧ root = b.ParentRootHash32 := by
  unfold blockChildren at hc
  cases hr : h.HashBeaconBlock block with
  | error e => simp [hr] at hc
  | ok root =>
    simp only [hr] at hc
    intro b hb
    rcases blockChildrenLoop_mem _ _ _ _ hc b hb with hnil | ⟨j, hj, hp⟩
    · simp at hnil
    · exact ⟨j, root, hj, rfl, hp⟩

/-- The block returned by the comparison loop is the running maximum it was
started with or one of the children it went through. -/
theorem maxChildLoop_mem {fuel : Nat} {h : Helpers} {beaconDB : BeaconDB} {state : BeaconState}
    {targets : TargetMap} (votes : Int) :
    ∀ (children : List BeaconBlock) (maxChild c : BeaconBlock),
      maxChildLoop fuel h beaconDB state targets votes children maxChild = some (.ok c) →
      c = maxChild ∨ c ∈ children := by
  intro children
  induction children with
  | nil =>
    intro maxChild c hc
    have : maxChild = c := by simpa [maxChildLoop] using hc
    exact Or.inl this.symm
  | cons child rest ih =>
    intro maxChild c hc
    rw [maxChildLoop] at hc
    cases hv : VoteCount fuel h child state targets beaconDB with
    | none => simp [hv] at hc
    | some r =>
      cases r with
      | error e => simp [hv] at hc
      | ok v =>
        simp only [hv] at hc
        by_cases hgt : v > votes
        · rw [if_pos hgt] at hc
          rcases ih _ _ hc with h1 | h2
          · exact Or.inr (h1 ▸ List.mem_cons_self _ _)
          · exact Or.inr (List.mem_cons_of_mem _ h2)
        · rw [if_neg hgt] at hc
          rcases ih _ _ hc with h1 | h2
          · exact Or.inl h1
          · exact Or.inr (List.mem_cons_of_mem _ h2)

/-- The child chosen by `lmdGhost` is one of the children. -/
theorem chooseChild_mem {fuel : Nat} {h : Helpers} {beaconDB : BeaconDB} {state : BeaconState}
    {targets : TargetMap} {first : BeaconBlock} {rest : List BeaconBlock} {c : BeaconBlock}
    (hc : chooseChild fuel h beaconDB state targets first rest = some (.ok c)) :
    c ∈ first :: rest := by
  unfold chooseChild at hc
  cases hv : VoteCount fuel h first state targets beaconDB with
  | none => simp [hv] at hc
  | some r =>
    cases r with
    | error e => simp [hv] at hc
    | ok v =>
      simp only [hv] at hc
      rcases maxChildLoop_mem _ _ _ _ hc with h1 | h2
      · exact h1 ▸ List.mem_cons_self _ _
      · exact h2

/-- The head returned by the loop of `lmdGhost` is the block the loop was
started at or a block read from the slot index. -/
theorem lmdGhostLoop_origin {fuel : Nat} {h : Helpers} {beaconDB : BeaconDB}
    {state : BeaconState} {targets : TargetMap} {H : Nat} :
    ∀ (n : Nat) (start head : BeaconBlock),
      lmdGhostLoop fuel h beaconDB state targets H n start = some (.ok head) →
      head = start ∨ ∃ j, beaconDB.BlockBySlot j = .ok (some head) := by
  intro n
  induction n with
  | zero => intro start head hl; simp [lmdGhostLoop] at hl
  | succ n ih =>
    intro start head hl
    rw [lmdGhostLoop] at hl
    cases hch : blockChildren fuel h beaconDB start H with
    | none => simp [hch] at hl
    | some r =>
      cases r with
      | error e => simp [hch] at hl
      | ok children =>
        cases children with
        | nil =>
          have : start = head := by simpa [hch] using hl
          exact Or.inl this.symm
        | cons first rest =>
          simp only [hch] at hl
          cases hcc : chooseChild fuel h beaconDB state targets first rest with
          | none => simp [hcc] at hl
          | some r2 =>
            cases r2 with
            | error e => simp [hcc] at hl
            | ok maxChild =>
              simp only [hcc] at hl
              rcases ih _ _ hl with h1 | h2
              · subst h1
                obtain ⟨j, _, hj, _, _⟩ := blockChildren_mem hch _ (chooseChild_mem hcc)
                exact Or.inr ⟨j, hj⟩
              · exact Or.inr h2

/-- The head selected by `ApplyForkChoiceRule` is the persisted justified block
or a block read from the slot index. -/
theorem selectHead_origin {fuel : Nat} {h : Helpers} {c : ChainService} {head : BeaconBlock}
    (hsel : selectHead fuel h c = some (.ok head)) :
    c.durable.JustifiedBlock = .ok head ∨ ∃ j, c.beaconDB.BlockBySlot j = .ok (some head) := by
  unfold selectHead at hsel
  cases hjs : c.durable.JustifiedState with
  | error e => simp [hjs] at hsel
  | ok justifiedState =>
    simp only [hjs] at hsel
    cases hat : attestationTargets h c.attsService justifiedState with
    | error e => simp [hat] at hsel
    | ok targets =>
      simp only [hat] at hsel
      cases hjb : c.durable.JustifiedBlock with
      | error e => simp [hjb] at hsel
      | ok justifiedHead =>
        simp only [hjb] at hsel
        cases hl : lmdGhost fuel h c.beaconDB justifiedHead justifiedState targets with
        | none => simp [hl] at hsel
        | some r =>
          cases r with
          | error e => simp [hl] at hsel
          | ok head' =>
            simp only [hl, Option.some.injEq, Except.ok.injEq] at hsel
            subst hsel
            unfold lmdGhost at hl
            rcases lmdGhostLoop_origin _ _ _ hl with h1 | h2
            · exact Or.inl (by rw [h1])
            · exact Or.inr h2

/-- Writing the entry of a stored block keeps the index an index of stored blocks. -/
theorem IndexOfStoredBlocks_setCanonical {h : Helpers} {beaconDB : BeaconDB}
    {canonicalBlocks : CanonicalBlocks} {head : BeaconBlock} {root : Digest}
    (hinv : IndexOfStoredBlocks h beaconDB canonicalBlocks)
    (hstored : IsStored beaconDB head) (hroot : h.HashBeaconBlock head = .ok root) :
    IndexOfStoredBlocks h beaconDB (setCanonical canonicalBlocks head.Slot root) := by
  intro s d hsd
  unfold setCanonical at hsd
  by_cases hs : s = head.Slot
  · rw [if_pos hs] at hsd
    have hd : root = d := by simpa using hsd
    exact ⟨head, hstored, hs.symm, hd ▸ hroot⟩
  · rw [if_neg hs] at hsd
    exact hinv s d hsd

/-- Removing the reverted slots after writing the entry of a stored block keeps
the index an index of stored blocks. -/
theorem IndexOfStoredBlocks_rewritten {h : Helpers} {beaconDB : BeaconDB}
    {canonicalBlocks : CanonicalBlocks} {head : BeaconBlock} {root : Digest} (blockSlot : Nat)
    (hinv : IndexOfStoredBlocks h beaconDB canonicalBlocks)
    (hstored : IsStored beaconDB head) (hroot : h.HashBeaconBlock head = .ok root) :
    IndexOfStoredBlocks h beaconDB
      (revertedSlotLoop head.Slot blockSlot (setCanonical canonicalBlocks head.Slot root)) := by
  intro s d hsd
  rw [rewritten_index_apply] at hsd
  by_cases h1 : head.Slot < s ∧ s ≤ blockSlot
  · rw [if_pos h1] at hsd; simp at hsd
  · rw [if_neg h1] at hsd
    by_cases hs : s = head.Slot
    · rw [if_pos hs] at hsd
      have hd : root = d := by simpa using hsd
      exact ⟨head, hstored, hs.symm, hd ▸ hroot⟩
    · rw [if_neg hs] at hsd
      exact hinv s d hsd

/-- The index `A <- B <- X` of the reorg service is an index of stored blocks. -/
theorem reorgService_index_of_stored_blocks :
    IndexOfStoredBlocks exampleHelpers reorgService.beaconDB reorgService.canonicalBlocks := by
  intro s d hsd
  have hcases : s = 1 ∨ s = 2 ∨ s = 4 ∨ (s ≠ 1 ∧ s ≠ 2 ∧ s ≠ 4) := by omega
  rcases hcases with rfl | rfl | rfl | ⟨h1, h2, h4⟩
  · have hd : some 10 = some d := hsd
    exact ⟨blockA, Or.inl ⟨1, rfl⟩, rfl, by rw [← Option.some.inj hd]; rfl⟩
  · have hd : some 20 = some d := hsd
    exact ⟨blockB, Or.inl ⟨2, rfl⟩, rfl, by rw [← Option.some.inj hd]; rfl⟩
  · have hd : some 45 = some d := hsd
    exact ⟨blockX, Or.inl ⟨4, rfl⟩, rfl, by rw [← Option.some.inj hd]; rfl⟩
  · have e1 : (1 == s) = false := by rw [beq_eq_false_iff_ne]; exact Ne.symm h1
    have e2 : (2 == s) = false := by rw [beq_eq_false_iff_ne]; exact Ne.symm h2
    have e4 : (4 == s) = false := by rw [beq_eq_false_iff_ne]; exact Ne.symm h4
    simp [reorgService, canonicalOf, List.find?, e1, e2, e4] at hsd

/-- C23: when the persisted justified block is a stored block and every entry
`slot -> digest` of the index is the digest of a stored block with that slot,
the same holds of the index after `ApplyForkChoiceRule` returns, with or
without an error. (The premise that `BlockBySlot(i)` only returns blocks of
slot `i` is not needed.) -/
theorem ApplyForkChoiceRule_index_of_stored_blocks (fuel : Nat) (h : Helpers)
    (c c' : ChainService) (block : BeaconBlock) (postState : BeaconState) (e : Option Error)
    (hjust : ∀ j, c.durable.JustifiedBlock = .ok j → IsStored c.beaconDB j)
    (hinv : IndexOfStoredBlocks h c.beaconDB c.canonicalBlocks)
    (hret : ApplyForkChoiceRule fuel h c block postState = some (c', e)) :
    IndexOfStoredBlocks h c'.beaconDB c'.canonicalBlocks := by
  have hstored : ∀ head, selectHead fuel h c = some (.ok head) → IsStored c.beaconDB head := by
    intro head hsel
    rcases selectHead_origin hsel with h1 | ⟨j, hj⟩
    · exact hjust _ h1
    · exact Or.inl ⟨j, hj⟩
  rcases ApplyForkChoiceRule_cases hret with ⟨rfl, _⟩ |
    ⟨head, root, cause, hsel, hroot, _, _, _, rfl⟩ |
    ⟨head, root, newState, cause, hsel, hroot, _, _, rfl⟩ | ⟨rfl, head, hsel⟩
  · exact hinv
  · exact IndexOfStoredBlocks_setCanonical hinv (hstored _ hsel) hroot
  · exact IndexOfStoredBlocks_rewritten _ hinv (hstored _ hsel) hroot
  · obtain ⟨root, newState, hroot, _, _, hidx, _, _, hdb, _, _⟩ :=
      ApplyForkChoiceRule_success hsel hret
    rw [hdb, hidx]
    exact IndexOfStoredBlocks_rewritten _ hinv (hstored _ hsel) hroot

/-- C23 at the reorg service: the index `A <- B <- X` is an index of stored
blocks, the call switches the head to `C`, and the index after the call is an
index of stored blocks. -/
theorem ApplyForkChoiceRule_index_of_stored_blocks_witness :
    ∃ c', ApplyForkChoiceRule 10 exampleHelpers reorgService blockX (stateAtSlot 4)
        = some (c', none) ∧
      IndexOfStoredBlocks exampleHelpers reorgService.beaconDB reorgService.canonicalBlocks ∧
      IndexOfStoredBlocks exampleHelpers c'.beaconDB c'.canonicalBlocks :=
  ⟨_, rfl, reorgService_index_of_stored_blocks,
    ApplyForkChoiceRule_index_of_stored_blocks 10 exampleHelpers reorgService _ blockX
      (stateAtSlot 4) none
      (fun _ hj => Or.inl ⟨1, (Except.ok.inj hj) ▸ rfl⟩)
      reorgService_index_of_stored_blocks rfl⟩

/-! ## The head of `lmdGhost` descends from the start block -/

/-- The function `blockChildren` only returns a list for a highest slot below
the largest `uint64`. -/
theorem blockChildren_ok_highest {fuel : Nat} {h : Helpers} {beaconDB : BeaconDB}
    {block : BeaconBlock} {H : Nat} {children : List BeaconBlock}
    (hc : blockChildren fuel h beaconDB block H = some (.ok children)) : H < 2 ^ 64 - 1 := by
  by_contra hH
  unfold blockChildren at hc
  cases hr : h.HashBeaconBlock block with
  | error e => simp [hr] at hc
  | ok root =>
    simp only [hr] at hc
    exact blockChildrenLoop_max (by omega) _ _ _ _ (addUint64_lt _ _) hc

/-- The invariant of the loop of `lmdGhost`: the current head is the start
block or was read from the slot index, lies at or above the slot of the start
block, and `BlockAncestor` walks from it back to the start block. -/
theorem lmdGhostLoop_descends {fuel : Nat} {h : Helpers} {beaconDB : BeaconDB}
    {state : BeaconState} {targets : TargetMap} {H : Nat} {start : BeaconBlock}
    (hslot : ∀ i b, beaconDB.BlockBySlot i = .ok (some b) → b.Slot = i)
    (hdigest : ∀ x, (x = start ∨ ∃ i, beaconDB.BlockBySlot i = .ok (some x)) →
      ∀ d, h.HashBeaconBlock x = .ok d → beaconDB.Block d = .ok (some x)) :
    ∀ (n : Nat) (cur head : BeaconBlock),
      cur.Slot < 2 ^ 64 - 1 → start.Slot ≤ cur.Slot →
      (cur = start ∨ ∃ i, beaconDB.BlockBySlot i = .ok (some cur)) →
      (∀ fuel', cur.Slot - start.Slot < fuel' →
        BlockAncestor beaconDB start.Slot fuel' cur = some (.ok (some start))) →
      lmdGhostLoop fuel h beaconDB state targets H n cur = some (.ok head) →
      start.Slot ≤ head.Slot ∧
        ∀ fuel', head.Slot - start.Slot < fuel' →
          BlockAncestor beaconDB start.Slot fuel' head = some (.ok (some start)) := by
  intro n
  induction n with
  | zero => intro cur head _ _ _ _ hl; simp [lmdGhostLoop] at hl
  | succ n ih =>
    intro cur head hcur hle horigin hwalk hl
    rw [lmdGhostLoop] at hl
    cases hch : blockChildren fuel h beaconDB cur H with
    | none => simp [hch] at hl
    | some r =>
      cases r with
      | error e => simp [hch] at hl
      | ok children =>
        have hH : H < 2 ^ 64 - 1 := blockChildren_ok_highest hch
        cases children with
        | nil =>
          have hh : cur = head := by simpa [hch] using hl
          subst hh
          exact ⟨hle, hwalk⟩
        | cons first rest =>
          simp only [hch] at hl
          cases hcc : chooseChild fuel h beaconDB state targets first rest with
          | none => simp [hcc] at hl
          | some r2 =>
            cases r2 with
            | error e => simp [hcc] at hl
            | ok maxChild =>
              simp only [hcc] at hl
              have hmem := chooseChild_mem hcc
              obtain ⟨hgt, hmax⟩ := blockChildren_slot_bounds hH hcur hslot hch _ hmem
              obtain ⟨j, root, hj, hroot, hparent⟩ := blockChildren_mem hch _ hmem
              have hpar : beaconDB.Block maxChild.ParentRootHash32 = .ok (some cur) := by
                rw [← hparent]
                exact hdigest cur horigin root hroot
              refine ih maxChild head (by omega) (by omega) (Or.inr ⟨j, hj⟩) ?_ hl
              intro fuel' hf
              obtain ⟨f, rfl⟩ : ∃ f, fuel' = f + 1 := ⟨fuel' - 1, by omega⟩
              rw [BlockAncestor_succ_of_gt (by omega) hpar]
              exact hwalk f (by omega)

/-- C29 (as amended): for a start block below the largest `uint64` slot, in a
store where `BlockBySlot(i)` only returns blocks of slot `i` and the digest
lookup of the root of the start block or of a block of the slot index returns
that block, the head `head` returned by `lmdGhost` satisfies
`head.Slot >= start.Slot`, and `BlockAncestor(head, start.Slot)` returns the
start block as soon as its recursion depth exceeds the slot distance. -/
theorem lmdGhost_head_descends_from_start (fuel : Nat) (h : Helpers) (beaconDB : BeaconDB)
    (start head : BeaconBlock) (state : BeaconState) (targets : TargetMap)
    (hstart : start.Slot < 2 ^ 64 - 1)
    (hslot : ∀ i b, beaconDB.BlockBySlot i = .ok (some b) → b.Slot = i)
    (hdigest : ∀ x, (x = start ∨ ∃ i, beaconDB.BlockBySlot i = .ok (some x)) →
      ∀ d, h.HashBeaconBlock x = .ok d → beaconDB.Block d = .ok (some x))
    (hret : lmdGhost fuel h beaconDB start state targets = some (.ok head)) :
    start.Slot ≤ head.Slot ∧
      ∀ fuel', head.Slot - start.Slot < fuel' →
        BlockAncestor beaconDB start.Slot fuel' head = some (.ok (some start)) := by
  unfold lmdGhost at hret
  refine lmdGhostLoop_descends hslot hdigest _ start head hstart (le_refl _) (Or.inl rfl) ?_ hret
  intro fuel' hf
  obtain ⟨f, rfl⟩ : ∃ f, fuel' = f + 1 := ⟨fuel' - 1, by omega⟩
  rw [BlockAncestor, if_pos rfl]

/-- A block read from the slot index of `storeOf blocks` is one of `blocks`. -/
theorem storeOf_mem (blocks : List BeaconBlock) (highest : Nat) :
    ∀ i c, (storeOf blocks highest).BlockBySlot i = .ok (some c) → c ∈ blocks := by
  intro i c hc
  simp only [storeOf, Except.ok.injEq] at hc
  exact List.mem_of_find?_eq_some hc

/-- In the fork store, the digest lookup of the root of `A` or of a block of
the slot index returns that block. -/
theorem forkStore_digest_lookup :
    ∀ x, (x = blockA ∨ ∃ i, forkStore.BlockBySlot i = .ok (some x)) →
      ∀ d, exampleHelpers.HashBeaconBlock x = .ok d → forkStore.Block d = .ok (some x) := by
  intro x hx d hd
  have hmem : x ∈ [blockA, blockB, blockC, blockD] := by
    rcases hx with rfl | ⟨i, hi⟩
    · simp
    · exact storeOf_mem _ _ i x hi
  have hd' : x.StateRootHash32 = d := Except.ok.inj hd
  subst hd'
  simp only [List.mem_cons, List.mem_singleton, List.not_mem_nil, or_false] at hmem
  rcases hmem with rfl | rfl | rfl | rfl <;> decide

/-- In the wrap store, the digest lookup of the root of the block at the
largest slot or of a block of the slot index returns that block. -/
theorem wrapStore_digest_lookup :
    ∀ x, (x = lastSlotBlock ∨ ∃ i, wrapStore.BlockBySlot i = .ok (some x)) →
      ∀ d, exampleHelpers.HashBeaconBlock x = .ok d → wrapStore.Block d = .ok (some x) := by
  intro x hx d hd
  have hmem : x ∈ [wrappedChild, lastSlotBlock] := by
    rcases hx with rfl | ⟨i, hi⟩
    · simp
    · exact storeOf_mem _ _ i x hi
  have hd' : x.StateRootHash32 = d := Except.ok.inj hd
  subst hd'
  simp only [List.mem_cons, List.mem_singleton, List.not_mem_nil, or_false] at hmem
  rcases hmem with rfl | rfl <;> decide

/-- C29 in the fork store: `lmdGhost` started at `A` returns `D`, a block of
slot 4 >= 1 from which `BlockAncestor` walks back to `A`. -/
theorem lmdGhost_head_descends_from_start_witness :
    lmdGhost 10 exampleHelpers forkStore blockA (stateWithBalances [10, 30, 20]) forkTargets
        = some (.ok blockD) ∧
      blockA.Slot ≤ blockD.Slot ∧
      ∀ fuel', blockD.Slot - blockA.Slot < fuel' →
        BlockAncestor forkStore blockA.Slot fuel' blockD = some (.ok (some blockA)) :=
  ⟨by decide,
    lmdGhost_head_descends_from_start 10 exampleHelpers forkStore blockA blockD
      (stateWithBalances [10, 30, 20]) forkTargets (by decide) (storeOf_slot _ _)
      forkStore_digest_lookup (by decide)⟩

/-- C29 (counterexample): the store holds the start block at the largest
`uint64` slot and a block at slot 0 that names it as parent; `BlockBySlot(i)`
only returns blocks of slot `i` and the digest lookup returns the block with
that digest. The scan of `blockChildren` starts at the wrapped slot
`(2 ^ 64 - 1) + 1 = 0`, so `lmdGhost` returns the block of slot 0, which lies
below the start block and from which `BlockAncestor` finds no block at the
slot of the start block. -/
theorem lmdGhost_head_below_start :
    (∀ i b, wrapStore.BlockBySlot i = .ok (some b) → b.Slot = i) ∧
      (∀ x, (x = lastSlotBlock ∨ ∃ i, wrapStore.BlockBySlot i = .ok (some x)) →
        ∀ d, exampleHelpers.HashBeaconBlock x = .ok d → wrapStore.Block d = .ok (some x)) ∧
      lmdGhost 10 exampleHelpers wrapStore lastSlotBlock (stateWithBalances []) []
        = some (.ok wrappedChild) ∧
      wrappedChild.Slot < lastSlotBlock.Slot ∧
      BlockAncestor wrapStore lastSlotBlock.Slot 10 wrappedChild = some (.ok none) :=
  ⟨storeOf_slot _ _, wrapStore_digest_lookup, by decide, by decide, by decide⟩

/-! ## Vote counts of a block and of its child -/

/-- A result of `BlockAncestor` does not change when the fuel grows. -/
theorem BlockAncestor_fuel_mono {beaconDB : BeaconDB} {slot : Nat} :
    ∀ (fuel : Nat) (block : BeaconBlock) (r : Except Error (Option BeaconBlock)),
      BlockAncestor beaconDB slot fuel block = some r →
      ∀ fuel', fuel ≤ fuel' → BlockAncestor beaconDB slot fuel' block = some r := by
  intro fuel
  induction fuel with
  | zero => intro block r h; simp [BlockAncestor] at h
  | succ fuel ih =>
    intro block r h fuel' hle
    obtain ⟨f, rfl⟩ : ∃ f, fuel' = f + 1 := ⟨fuel' - 1, by omega⟩
    rw [BlockAncestor] at h ⊢
    by_cases h1 : block.Slot = slot
    · rw [if_pos h1] at h ⊢; exact h
    · rw [if_neg h1] at h ⊢
      by_cases h2 : block.Slot < slot
      · rw [if_pos h2] at h ⊢; exact h
      · rw [if_neg h2] at h ⊢
        cases hp : beaconDB.Block block.ParentRootHash32 with
        | error e => simp only [hp] at h ⊢; exact h
        | ok p =>
          cases p with
          | none => simp only [hp] at h ⊢; exact h
          | some parent =>
            simp only [hp] at h ⊢
            exact ih parent r h f (by omega)

/-- One more parent link at the far end of a chain of `n` links. -/
theorem nthParent_snoc {beaconDB : BeaconDB} :
    ∀ (n : Nat) (block x parent : BeaconBlock),
      nthParent beaconDB n block = some x →
      beaconDB.Block x.ParentRootHash32 = .ok (some parent) →
      nthParent beaconDB (n + 1) block = some parent := by
  intro n
  induction n with
  | zero =>
    intro block x parent hn hp
    have hb : block = x := by simpa [nthParent] using hn
    subst hb
    exact nthParent_succ_eq_some.2 ⟨parent, hp, rfl⟩
  | succ n ih =>
    intro block x parent hn hp
    obtain ⟨q, hq, hn'⟩ := nthParent_succ_eq_some.1 hn
    exact nthParent_succ_eq_some.2 ⟨q, hq, ih q x parent hn' hp⟩

/-- An entry that was counted without error: the ancestor walk returned, and a
found ancestor was hashed. -/
theorem entryVote_ok_walk {fuel : Nat} {h : Helpers} {candidate : BeaconBlock}
    {state : BeaconState} {beaconDB : BeaconDB} {entry : Nat × BeaconBlock} {r : Option Int}
    (hv : entryVote fuel h candidate state beaconDB entry = some (.ok r)) :
    (∃ r', BlockAncestor beaconDB candidate.Slot fuel entry.2 = some (.ok r')) ∧
      ∀ a, BlockAncestor beaconDB candidate.Slot fuel entry.2 = some (.ok (some a)) →
        ∃ d, h.HashBeaconBlock a = .ok d := by
  unfold entryVote at hv
  cases hba : BlockAncestor beaconDB candidate.Slot fuel entry.2 with
  | none => simp [hba] at hv
  | some x =>
    cases x with
    | error e => simp [hba] at hv
    | ok o =>
      refine ⟨⟨o, rfl⟩, ?_⟩
      intro a ha
      have hoa : o = some a := by simpa using ha
      subst hoa
      simp only [hba] at hv
      cases hh : h.HashBeaconBlock a with
      | error e => simp [hh] at hv
      | ok d => exact ⟨d, rfl⟩

/-- When the loop of `VoteCount` returns a tally, every entry was counted
without error. -/
theorem VoteCountLoop_ok_entries (fuel : Nat) (h : Helpers) (candidate : BeaconBlock)
    (state : BeaconState) (beaconDB : BeaconDB) :
    ∀ (targets : TargetMap) (balances v : Int),
      VoteCountLoop fuel h candidate state beaconDB targets balances = some (.ok v) →
      ∀ e ∈ targets, ∃ r, entryVote fuel h candidate state beaconDB e = some (.ok r) := by
  intro targets
  induction targets with
  | nil => intro _ _ _ e he; simp at he
  | cons x rest ih =>
    intro balances v hv e he
    rw [VoteCountLoop_cons] at hv
    cases hx : entryVote fuel h candidate state beaconDB x with
    | none => simp [hx] at hv
    | some res =>
      cases res with
      | error err => simp [hx] at hv
      | ok o =>
        rcases List.mem_cons.mp he with rfl | hmem
        · exact ⟨o, hx⟩
        · cases o with
          | none =>
            simp only [hx] at hv
            exact ih _ _ hv e hmem
          | some w =>
            simp only [hx] at hv
            exact ih _ _ hv e hmem

/-- A tally returned by `VoteCount` is the supporting balance, when that
balance fits a Go `int`. -/
theorem VoteCount_ok_eq_sum {fuel : Nat} {h : Helpers} {candidate : BeaconBlock}
    {state : BeaconState} {targets : TargetMap} {beaconDB : BeaconDB} {root : Digest} {v : Int}
    (hroot : h.HashBeaconBlock candidate = .ok root)
    (hsum : supportingBalance fuel h candidate state targets beaconDB < 2 ^ 63)
    (hv : VoteCount fuel h candidate state targets beaconDB = some (.ok v)) :
    v = (supportingBalance fuel h candidate state targets beaconDB : Int) := by
  have hent := VoteCountLoop_ok_entries fuel h candidate state beaconDB targets 0 v hv
  have hwalk : ∀ entry ∈ targets, ∃ r,
      BlockAncestor beaconDB candidate.Slot fuel entry.2 = some (.ok r) := by
    intro e he
    obtain ⟨r, hr⟩ := hent e he
    exact (entryVote_ok_walk hr).1
  have hanc : ∀ entry ∈ targets, ∀ a,
      BlockAncestor beaconDB candidate.Slot fuel entry.2 = some (.ok (some a)) →
      ∃ d, h.HashBeaconBlock a = .ok d := by
    intro e he
    obtain ⟨r, hr⟩ := hent e he
    exact (entryVote_ok_walk hr).2
  have hcount := VoteCountLoop_eq_sum fuel h candidate state beaconDB root hroot targets 0
    hwalk hanc (le_refl 0) (by
      have : ((supportingBalance fuel h candidate state targets beaconDB : Nat) : Int) < 2 ^ 63 := by
        exact_mod_cast hsum
      omega)
  unfold VoteCount at hv
  rw [hcount] at hv
  have : (0 + (supportingBalance fuel h candidate state targets beaconDB : Int)) = v := by
    simpa using hv
  omega

/-- The balance sum over the entries selected by `p` is at most the one over
the entries selected by `q`, when `q` selects every entry that `p` selects. -/
theorem filter_balance_sum_le {α : Type} (w : α → Nat) (p q : α → Bool) :
    ∀ (l : List α), (∀ e ∈ l, p e = true → q e = true) →
      ((l.filter p).map w).sum ≤ ((l.filter q).map w).sum := by
  intro l
  induction l with
  | nil => intro _; simp
  | cons x l ih =>
    intro hpq
    have ih' := ih (fun e he => hpq e (List.mem_cons_of_mem _ he))
    by_cases hp : p x = true
    · have hq : q x = true := hpq x (List.mem_cons_self _ _) hp
      rw [List.filter_cons, if_pos hp, List.filter_cons, if_pos hq]
      simp only [List.map_cons, List.sum_cons]
      omega
    · rw [List.filter_cons, if_neg hp]
      by_cases hq : q x = true
      · rw [List.filter_cons, if_pos hq]
        simp only [List.map_cons, List.sum_cons]
        omega
      · rw [List.filter_cons, if_neg hq]
        exact ih'

/-- An entry that supports the child `c` supports its parent `b`, when the walk
of the entry to the slot of `b` returns. -/
theorem supports_parent_of_child {fuel : Nat} {h : Helpers} {beaconDB : BeaconDB}
    {b c : BeaconBlock} {rootB rootC : Digest} {entry : Nat × BeaconBlock}
    (hrootB : h.HashBeaconBlock b = .ok rootB) (hrootC : h.HashBeaconBlock c = .ok rootC)
    (hparent : beaconDB.Block c.ParentRootHash32 = .ok (some b))
    (hinj : ∀ n a, nthParent beaconDB n entry.2 = some a → h.HashBeaconBlock a = .ok rootC →
      a = c)
    (hdec : SlotsDecreaseFrom beaconDB entry.2)
    (hwalk : ∃ r, BlockAncestor beaconDB b.Slot fuel entry.2 = some (.ok r))
    (hs : supports fuel h c beaconDB entry = true) :
    supports fuel h b beaconDB entry = true := by
  unfold supports at hs
  cases hba : BlockAncestor beaconDB c.Slot fuel entry.2 with
  | none => simp [hba] at hs
  | some x =>
    cases x with
    | error e => simp [hba] at hs
    | ok o =>
      cases o with
      | none => simp [hba] at hs
      | some a =>
        simp only [hba, hrootC] at hs
        cases hha : h.HashBeaconBlock a with
        | error e => simp [hha] at hs
        | ok d =>
          simp only [hha, decide_eq_true_eq] at hs
          obtain ⟨⟨n, hn⟩, _⟩ := BlockAncestor_sound fuel entry.2 a hba
          have hac : a = c := hinj n a hn (by rw [hha, hs])
          subst hac
          have hnb := nthParent_snoc n entry.2 a b hn hparent
          obtain ⟨_, _, hfound⟩ := BlockAncestor_complete (n + 1) entry.2 b hdec hnb rfl
          obtain ⟨r, hr⟩ := hwalk
          have h1 := BlockAncestor_fuel_mono fuel entry.2 _ hr (max fuel (n + 2)) (le_max_left _ _)
          have h2 := hfound (max fuel (n + 2)) (by
            have := le_max_right fuel (n + 2)
            omega)
          rw [h2] at h1
          have hrb : r = some b := by
            have := Option.some.inj h1
            exact (Except.ok.inj this).symm
          subst hrb
          unfold supports
          simp only [hr, hrootB, decide_True]

/-- C28 (as amended): let `c` be a child of `b` (the parent root of `c` is the
root of `b`, and the digest lookup of that root returns `b`), let the root of
`c` be the root of no other block on the parent chains of the targets, and let
slots strictly decrease along the parent links of those chains. When the sum of
the effective balances that support `b` is below `2 ^ 63`, so that the Go `int`
tally does not wrap, and `VoteCount` returns a tally for both blocks, then
`VoteCount(c) <= VoteCount(b)`. -/
theorem VoteCount_child_le_parent (fuel : Nat) (h : Helpers) (beaconDB : BeaconDB)
    (b c : BeaconBlock) (state : BeaconState) (targets : TargetMap) (rootB rootC : Digest)
    (vb vc : Int)
    (hrootB : h.HashBeaconBlock b = .ok rootB) (hrootC : h.HashBeaconBlock c = .ok rootC)
    (hchild : c.ParentRootHash32 = rootB)
    (hlookup : beaconDB.Block rootB = .ok (some b))
    (hinj : ∀ e ∈ targets, ∀ n a, nthParent beaconDB n e.2 = some a →
      h.HashBeaconBlock a = .ok rootC → a = c)
    (hdec : ∀ e ∈ targets, SlotsDecreaseFrom beaconDB e.2)
    (hsum : supportingBalance fuel h b state targets beaconDB < 2 ^ 63)
    (hb : VoteCount fuel h b state targets beaconDB = some (.ok vb))
    (hc : VoteCount fuel h c state targets beaconDB = some (.ok vc)) :
    vc ≤ vb := by
  have hparent : beaconDB.Block c.ParentRootHash32 = .ok (some b) := by rw [hchild]; exact hlookup
  have hentB := VoteCountLoop_ok_entries fuel h b state beaconDB targets 0 vb hb
  have hle : supportingBalance fuel h c state targets beaconDB ≤
      supportingBalance fuel h b state targets beaconDB := by
    unfold supportingBalance
    apply filter_balance_sum_le
    intro e he hs
    obtain ⟨r, hr⟩ := hentB e he
    exact supports_parent_of_child hrootB hrootC hparent (hinj e he) (hdec e he)
      (entryVote_ok_walk hr).1 hs
  have hvb := VoteCount_ok_eq_sum hrootB hsum hb
  have hvc := VoteCount_ok_eq_sum hrootC (by omega) hc
  rw [hvb, hvc]
  exact_mod_cast hle

/-- Following parent links in `storeOf blocks` from one of `blocks` stays
within `blocks`. -/
theorem nthParent_storeOf_mem (blocks : List BeaconBlock) (highest : Nat) :
    ∀ (n : Nat) (t a : BeaconBlock), t ∈ blocks →
      nthParent (storeOf blocks highest) n t = some a → a ∈ blocks := by
  intro n
  induction n with
  | zero =>
    intro t a ht hn
    have : t = a := by simpa [nthParent] using hn
    exact this ▸ ht
  | succ n ih =>
    intro t a _ hn
    obtain ⟨q, hq, hn'⟩ := nthParent_succ_eq_some.1 hn
    have hq' : blocks.find? (fun b => b.StateRootHash32 == t.ParentRootHash32) = some q := by
      simpa [storeOf] using hq
    exact ih q a (List.mem_of_find?_eq_some hq') hn'

/-- In the fork store, `C` is the only block with root 30 on the parent chains
of the fork targets. -/
theorem forkStore_root_of_C :
    ∀ e ∈ forkTargets, ∀ n a, nthParent forkStore n e.2 = some a →
      exampleHelpers.HashBeaconBlock a = .ok 30 → a = blockC := by
  intro e he n a hn ha
  have hmemT : e.2 ∈ [blockA, blockB, blockC, blockD] := by
    simp only [forkTargets, List.mem_cons, List.mem_singleton, List.not_mem_nil, or_false] at he
    rcases he with rfl | rfl | rfl <;> simp
  have hmem := nthParent_storeOf_mem _ _ n e.2 a hmemT hn
  simp only [List.mem_cons, List.mem_singleton, List.not_mem_nil, or_false] at hmem
  rcases hmem with rfl | rfl | rfl | rfl
  · exact absurd ha (by decide)
  · exact absurd ha (by decide)
  · rfl
  · exact absurd ha (by decide)

/-- C28 in the fork store: `C` is a child of `A`; one validator of balance 30
supports `C`, all three validators (balance 60) support `A`, and 30 <= 60. -/
theorem VoteCount_child_le_parent_witness :
    VoteCount 10 exampleHelpers blockC (stateWithBalances [10, 30, 20]) forkTargets forkStore
        = some (.ok 30) ∧
      VoteCount 10 exampleHelpers blockA (stateWithBalances [10, 30, 20]) forkTargets forkStore
        = some (.ok 60) ∧
      (30 : Int) ≤ 60 :=
  ⟨by decide, by decide,
    VoteCount_child_le_parent 10 exampleHelpers forkStore blockA blockC
      (stateWithBalances [10, 30, 20]) forkTargets 10 30 60 30 rfl rfl rfl (by decide)
      forkStore_root_of_C forkStore_slotsDecrease_of_mem (by decide) (by decide) (by decide)⟩

theorem entryVote_unanimous_parent (n i : Nat) (hi : i < n) :
    entryVote 2 exampleHelpers blockA (fullDepositState n) forkStore (i, blockB)
      = some (.ok (some 32000000000)) := by
  have hbal : exampleHelpers.EffectiveBalance (fullDepositState n) i = 32000000000 := by
    simp [exampleHelpers, fullDepositState, List.getD_eq_getElem?_getD, List.getElem?_replicate, hi]
  have hba : BlockAncestor forkStore blockA.Slot 2 blockB = some (.ok (some blockA)) := by decide
  have hh : exampleHelpers.HashBeaconBlock blockA = .ok 10 := rfl
  unfold entryVote
  simp only [hba, hh, hbal, if_true]
  decide

theorem VoteCountLoop_unanimous_parent (n : Nat) :
    ∀ (len k : Nat) (acc : Int), k + len ≤ n →
      VoteCountLoop 2 exampleHelpers blockA (fullDepositState n) forkStore
          ((List.range' k len).map (fun i => (i, blockB))) (toInt64 acc)
        = some (.ok (toInt64 (acc + len * 32000000000))) := by
  intro len
  induction len with
  | zero => intro k acc _; simp [VoteCountLoop]
  | succ len ih =>
    intro k acc hk
    rw [List.range'_succ, List.map_cons, VoteCountLoop_cons,
      entryVote_unanimous_parent n k (by omega)]
    simp only
    have h32 : (32000000000 : Int) = toInt64 32000000000 := by decide
    rw [h32, toInt64_add_toInt64, ← h32, ih (k + 1) _ (by omega)]
    congr 3
    push_cast
    ring

theorem supportingBalance_unanimous_parent (n : Nat) :
    ∀ (len k : Nat), k + len ≤ n →
      supportingBalance 2 exampleHelpers blockA (fullDepositState n)
          ((List.range' k len).map (fun i => (i, blockB))) forkStore
        = len * 32000000000 := by
  intro len
  induction len with
  | zero => intro k _; simp [supportingBalance]
  | succ len ih =>
    intro k hk
    have hs : supports 2 exampleHelpers blockA forkStore (k, blockB) = true := by
      show supports 2 exampleHelpers blockA forkStore (k, blockB) = true
      unfold supports
      have hba : BlockAncestor forkStore blockA.Slot 2 blockB = some (.ok (some blockA)) := by
        decide
      simp only [hba]
      decide
    have hbal : exampleHelpers.EffectiveBalance (fullDepositState n) k = 32000000000 := by
      have hk' : k < n := by omega
      simp [exampleHelpers, fullDepositState, List.getD_eq_getElem?_getD,
        List.getElem?_replicate, hk']
    have ih' := ih (k + 1) (by omega)
    unfold supportingBalance at ih' ⊢
    rw [List.range'_succ, List.map_cons, List.filter_cons, if_pos hs, List.map_cons,
      List.sum_cons, ih', hbal]
    ring

theorem VoteCountLoop_unanimous_sibling (state : BeaconState) :
    ∀ (len k : Nat) (acc : Int),
      VoteCountLoop 2 exampleHelpers blockC state forkStore
          ((List.range' k len).map (fun i => (i, blockB))) acc
        = some (.ok acc) := by
  intro len
  induction len with
  | zero => intro k acc; simp [VoteCountLoop]
  | succ len ih =>
    intro k acc
    have hba : BlockAncestor forkStore blockC.Slot 2 blockB = some (.ok none) := by decide
    have hev : entryVote 2 exampleHelpers blockC state forkStore (k, blockB) = some (.ok none) := by
      unfold entryVote
      simp only [hba]
    rw [List.range'_succ, List.map_cons, VoteCountLoop_cons, hev]
    exact ih (k + 1) acc

/-- C28 (counterexample): in the fork store `C` is a child of `A`, digest
lookup returns the block with that digest, the digest function is injective on
the stored blocks and slots decrease along parent links. With 288230377
validators that each hold the maximum deposit and all attest to `B`, the sum of
effective balances supporting `A` is 9223372064000000000, the Go `int` tally of
`A` wraps to -9223372009709551616, and the tally of `C` is 0: the vote count of
the child exceeds that of its parent. -/
theorem VoteCount_child_exceeds_parent :
    (exampleHelpers.HashBeaconBlock blockA = .ok 10 ∧ blockC.ParentRootHash32 = 10 ∧
        forkStore.Block 10 = .ok (some blockA)) ∧
      (∀ x ∈ [blockA, blockB, blockC, blockD],
        forkStore.Block x.StateRootHash32 = .ok (some x)) ∧
      (∀ x ∈ [blockA, blockB, blockC, blockD], ∀ y ∈ [blockA, blockB, blockC, blockD],
        exampleHelpers.HashBeaconBlock x = exampleHelpers.HashBeaconBlock y → x = y) ∧
      (∀ e ∈ unanimousTargets 288230377 blockB, SlotsDecreaseFrom forkStore e.2) ∧
      supportingBalance 2 exampleHelpers blockA (fullDepositState 288230377)
        (unanimousTargets 288230377 blockB) forkStore = 9223372064000000000 ∧
      VoteCount 2 exampleHelpers blockA (fullDepositState 288230377)
        (unanimousTargets 288230377 blockB) forkStore = some (.ok (-9223372009709551616)) ∧
      VoteCount 2 exampleHelpers blockC (fullDepositState 288230377)
        (unanimousTargets 288230377 blockB) forkStore = some (.ok 0) := by
  refine ⟨⟨rfl, rfl, by decide⟩, by decide, by decide, ?_, ?_, ?_, ?_⟩
  · intro e he
    unfold unanimousTargets at he
    rw [List.mem_map] at he
    obtain ⟨i, _, rfl⟩ := he
    exact forkStore_slotsDecrease_of_mem (0, blockB) (by simp [forkTargets])
  · exact supportingBalance_unanimous_parent 288230377 288230377 0 (le_refl _)
  · have h := VoteCountLoop_unanimous_parent 288230377 288230377 0 0 (le_refl _)
    have h0 : toInt64 0 = 0 := by decide
    rw [h0] at h
    unfold VoteCount unanimousTargets
    rw [h]
    decide
  · unfold VoteCount unanimousTargets
    exact VoteCountLoop_unanimous_sibling _ 288230377 0 0

/-! ## `CalculateRewards` -/

/-- One iteration of the loop of `CalculateRewards` writes the record at the
position `i` with the reward decided by the bit of `attesterIndex`. -/
theorem rewardLoop_cons (p : CasperHelpers) (bitfield : List Nat) (i attesterIndex : Nat)
    (rest : List Nat) (validators : List ValidatorRecord) (v : ValidatorRecord)
    (hv : validators[i]? = some v) :
    rewardLoop p bitfield i (attesterIndex :: rest) validators =
      rewardLoop p bitfield (i + 1) rest
        (validators.set i (rewardFor p bitfield attesterIndex v)) := by
  rw [rewardLoop]
  simp only [hv, rewardFor]
  by_cases hb : p.CheckBit bitfield attesterIndex = true
  · simp only [hb, if_true]
  · simp only [hb, if_false, Bool.false_eq_true]

/-- What the loop of `CalculateRewards` does as a whole: the record at position
`j` receives the reward decided by the bit of the `(j - i)`-th active index,
for the positions `i <= j < i + len(activeValidators)`; other records are
unchanged. -/
theorem rewardLoop_getElem? (p : CasperHelpers) (bitfield : List Nat) :
    ∀ (active : List Nat) (i : Nat) (validators : List ValidatorRecord),
      i + active.length ≤ validators.length →
      ∃ out, rewardLoop p bitfield i active validators = some out ∧
        ∀ j, out[j]? =
          if i ≤ j ∧ j < i + active.length then
            (validators[j]?).map (rewardFor p bitfield (active.getD (j - i) 0))
          else validators[j]? := by
  intro active
  induction active with
  | nil =>
    intro i validators _
    refine ⟨validators, rfl, ?_⟩
    intro j
    have : ¬ (i ≤ j ∧ j < i + ([] : List Nat).length) := by simp
    rw [if_neg this]
  | cons a rest ih =>
    intro i validators hlen
    have hi : i < validators.length := by simp only [List.length_cons] at hlen; omega
    have hv : validators[i]? = some validators[i] := List.getElem?_eq_getElem hi
    obtain ⟨out, hout, hget⟩ := ih (i + 1) (validators.set i (rewardFor p bitfield a validators[i]))
      (by simp only [List.length_cons] at hlen; simp only [List.length_set]; omega)
    refine ⟨out, by rw [rewardLoop_cons p bitfield i a rest validators _ hv]; exact hout, ?_⟩
    intro j
    rw [hget j]
    by_cases hji : j = i
    · subst hji
      have h1 : ¬ (j + 1 ≤ j ∧ j < j + 1 + rest.length) := by omega
      have h2 : j ≤ j ∧ j < j + (a :: rest).length := by
        simp only [List.length_cons]; omega
      rw [if_neg h1, if_pos h2, List.getElem?_set_self hi, hv]
      simp
    · have hset : (validators.set i (rewardFor p bitfield a validators[i]))[j]? = validators[j]? :=
        List.getElem?_set_ne (Ne.symm hji)
      rw [hset]
      by_cases hr : i + 1 ≤ j ∧ j < i + 1 + rest.length
      · have h2 : i ≤ j ∧ j < i + (a :: rest).length := by
          simp only [List.length_cons]; omega
        rw [if_pos hr, if_pos h2]
        have hidx : j - i = (j - (i + 1)) + 1 := by omega
        rw [hidx, List.getD_cons_succ]
      · have h2 : ¬ (i ≤ j ∧ j < i + (a :: rest).length) := by
          simp only [List.length_cons]; omega
        rw [if_neg hr, if_neg h2]

/-- Below the threshold `CalculateRewards` returns the validators unchanged. -/
theorem CalculateRewards_below_threshold (p : CasperHelpers)
    (attestations : List AggregatedAttestation) (validators : List ValidatorRecord)
    (dynasty totalDeposit totalParticipatedDeposit : Nat)
    (hne : attestations ≠ [])
    (hlow : ¬ mulUint64 totalParticipatedDeposit 3 ≥ mulUint64 totalDeposit 2) :
    CalculateRewards p attestations validators dynasty totalDeposit totalParticipatedDeposit
      = some (.ok validators) := by
  unfold CalculateRewards
  cases hl : attestations.getLast? with
  | none => exact absurd (List.getLast?_eq_none_iff.mp hl) hne
  | some last => simp only [if_neg hlow]

/-- When every validator is active, so that the active indices are
`0, 1, ..., len(validators) - 1` and position and index coincide,
`CalculateRewards` at or above the threshold returns what the claim describes. -/
theorem CalculateRewards_all_active (p : CasperHelpers)
    (attestations : List AggregatedAttestation) (last : AggregatedAttestation)
    (validators : List ValidatorRecord) (dynasty totalDeposit totalParticipatedDeposit : Nat)
    (hlast : attestations.getLast? = some last)
    (hall : p.ActiveValidatorIndices validators dynasty = List.range validators.length)
    (hhigh : mulUint64 totalParticipatedDeposit 3 ≥ mulUint64 totalDeposit 2) :
    CalculateRewards p attestations validators dynasty totalDeposit totalParticipatedDeposit
      = some (.ok (rewardedByIndex p last.AttesterBitfield
          (p.ActiveValidatorIndices validators dynasty) validators)) := by
  unfold CalculateRewards
  simp only [hlast, if_pos hhigh, hall]
  obtain ⟨out, hout, hget⟩ := rewardLoop_getElem? p last.AttesterBitfield
    (List.range validators.length) 0 validators (by simp)
  rw [hout]
  simp only [Option.map_some', Option.some.injEq, Except.ok.injEq]
  apply List.ext_getElem?
  intro j
  rw [hget j]
  unfold rewardedByIndex
  rw [List.getElem?_map, List.getElem?_enum]
  by_cases hj : j < validators.length
  · have h2 : 0 ≤ j ∧ j < 0 + (List.range validators.length).length := by simp; exact hj
    rw [if_pos h2]
    simp [List.getElem?_eq_getElem hj, List.getD_eq_getElem?_getD, List.getElem?_range hj, hj]
  · have h2 : ¬ (0 ≤ j ∧ j < 0 + (List.range validators.length).length) := by simp; omega
    rw [if_neg h2]
    simp [List.getElem?_eq_none (by omega : validators.length ≤ j)]

/-- C31 (evaluation at the failing input): validator 0 is not active and
validator 1 is active, so the active indices are `[1]`; bit 1 of the bitfield
of the last attestation is set and the threshold `3 * 2 >= 2 * 3` is met. The
claim describes the list in which validator 0 keeps its balance 100 and
validator 1 is rewarded (201). `CalculateRewards` reads the bit of index 1 and
writes the balance at the loop position 0: the validator that is not active is
rewarded (101) and the active validator keeps its balance 200. -/
theorem CalculateRewards_rewards_by_position :
    exampleCasper.ActiveValidatorIndices secondActiveRecords 0 = [1] ∧
      exampleCasper.CheckBit [64] 1 = true ∧
      mulUint64 2 3 ≥ mulUint64 3 2 ∧
      rewardedByIndex exampleCasper [64] [1] secondActiveRecords
        = [⟨10, 20, 100⟩, ⟨0, 100, 201⟩] ∧
      CalculateRewards exampleCasper bitOneAttestation secondActiveRecords 0 3 2
        = some (.ok [⟨10, 20, 101⟩, ⟨0, 100, 200⟩]) := by
  decide

/-! ## Independence of the listing order: returned values -/

/-- A tally returned under one listing of the target map is returned under
every permutation of the listing. -/
theorem VoteCount_ok_perm {fuel : Nat} {h : Helpers} {candidate : BeaconBlock}
    {state : BeaconState} {beaconDB : BeaconDB} {t1 t2 : TargetMap} (hperm : t1.Perm t2)
    {v : Int} (hv : VoteCount fuel h candidate state t1 beaconDB = some (.ok v)) :
    VoteCount fuel h candidate state t2 beaconDB = some (.ok v) := by
  have hent := VoteCountLoop_ok_entries fuel h candidate state beaconDB t1 0 v hv
  have hne : ∀ e ∈ t1, entryVote fuel h candidate state beaconDB e ≠ none := by
    intro e he
    obtain ⟨r, hr⟩ := hent e he
    rw [hr]
    simp
  have hout := VoteCountLoop_perm fuel h candidate state beaconDB hperm hne 0
  unfold VoteCount at hv ⊢
  rcases outcome_cases hout with ⟨h1, _⟩ | ⟨e1, _, h1, _⟩ | ⟨w, h1, h2⟩
  · rw [hv] at h1; simp at h1
  · rw [hv] at h1; simp at h1
  · rw [hv] at h1
    have hw : v = w := by simpa using h1
    rw [hw]; exact h2

/-- A child returned by the comparison loop under one target map is returned
under every target map that returns the same tallies. -/
theorem maxChildLoop_ok_transfer {fuel : Nat} {h : Helpers} {beaconDB : BeaconDB}
    {state : BeaconState} {t1 t2 : TargetMap}
    (hv : ∀ c v, VoteCount fuel h c state t1 beaconDB = some (.ok v) →
      VoteCount fuel h c state t2 beaconDB = some (.ok v)) (votes : Int) :
    ∀ (children : List BeaconBlock) (maxChild r : BeaconBlock),
      maxChildLoop fuel h beaconDB state t1 votes children maxChild = some (.ok r) →
      maxChildLoop fuel h beaconDB state t2 votes children maxChild = some (.ok r) := by
  intro children
  induction children with
  | nil => intro maxChild r hr; simpa [maxChildLoop] using hr
  | cons child rest ih =>
    intro maxChild r hr
    rw [maxChildLoop] at hr ⊢
    cases hc : VoteCount fuel h child state t1 beaconDB with
    | none => simp [hc] at hr
    | some res =>
      cases res with
      | error e => simp [hc] at hr
      | ok w =>
        simp only [hc] at hr
        simp only [hv child w hc]
        by_cases hgt : w > votes
        · rw [if_pos hgt] at hr ⊢; exact ih _ _ hr
        · rw [if_neg hgt] at hr ⊢; exact ih _ _ hr

theorem chooseChild_ok_transfer {fuel : Nat} {h : Helpers} {beaconDB : BeaconDB}
    {state : BeaconState} {t1 t2 : TargetMap}
    (hv : ∀ c v, VoteCount fuel h c state t1 beaconDB = some (.ok v) →
      VoteCount fuel h c state t2 beaconDB = some (.ok v))
    {first : BeaconBlock} {rest : List BeaconBlock} {r : BeaconBlock}
    (hr : chooseChild fuel h beaconDB state t1 first rest = some (.ok r)) :
    chooseChild fuel h beaconDB state t2 first rest = some (.ok r) := by
  unfold chooseChild at hr ⊢
  cases hc : VoteCount fuel h first state t1 beaconDB with
  | none => simp [hc] at hr
  | some res =>
    cases res with
    | error e => simp [hc] at hr
    | ok w =>
      simp only [hc] at hr
      simp only [hv first w hc]
      exact maxChildLoop_ok_transfer hv w _ _ _ hr

theorem lmdGhostLoop_ok_transfer {fuel : Nat} {h : Helpers} {beaconDB : BeaconDB}
    {state : BeaconState} {t1 t2 : TargetMap}
    (hv : ∀ c v, VoteCount fuel h c state t1 beaconDB = some (.ok v) →
      VoteCount fuel h c state t2 beaconDB = some (.ok v)) (H : Nat) :
    ∀ (n : Nat) (head r : BeaconBlock),
      lmdGhostLoop fuel h beaconDB state t1 H n head = some (.ok r) →
      lmdGhostLoop fuel h beaconDB state t2 H n head = some (.ok r) := by
  intro n
  induction n with
  | zero => intro head r hr; simp [lmdGhostLoop] at hr
  | succ n ih =>
    intro head r hr
    rw [lmdGhostLoop] at hr ⊢
    cases hch : blockChildren fuel h beaconDB head H with
    | none => simp [hch] at hr
    | some res =>
      cases res with
      | error e => simp [hch] at hr
      | ok children =>
        cases children with
        | nil => simpa [hch] using hr
        | cons first rest =>
          simp only [hch] at hr ⊢
          cases hcc : chooseChild fuel h beaconDB state t1 first rest with
          | none => simp [hcc] at hr
          | some res2 =>
            cases res2 with
            | error e => simp [hcc] at hr
            | ok maxChild =>
              simp only [hcc] at hr
              simp only [chooseChild_ok_transfer hv hcc]
              exact ih _ _ hr

/-- Two results with the same returned values have the same outcome whenever
both are returned. -/
theorem outcome_eq_of_ok_iff {α : Type} {r1 r2 : Res α}
    (hiff : ∀ v, r1 = some (.ok v) ↔ r2 = some (.ok v)) (h1 : r1 ≠ none) (h2 : r2 ≠ none) :
    outcome r1 = outcome r2 := by
  rcases r1 with _ | ⟨e1 | v1⟩
  · exact absurd rfl h1
  · rcases r2 with _ | ⟨e2 | v2⟩
    · exact absurd rfl h2
    · rfl
    · have := (hiff v2).2 rfl
      simp at this
  · rw [(hiff v1).1 rfl]

/-- C8: for two listings `t1`, `t2` of the same entries of the target map,
`VoteCount` returns a tally `v` for a candidate under `t1` exactly when it
returns `v` under `t2`, and `lmdGhost` returns a head block under `t1` exactly
when it returns that block under `t2`, for the same block store, start block
and start state. Moreover, whenever `VoteCount` (or `lmdGhost`) returns under
both listings, it returns the same value under both or an error under both. -/
theorem head_selection_order_independent (fuel : Nat) (h : Helpers) (beaconDB : BeaconDB)
    (startBlock : BeaconBlock) (startState : BeaconState) (t1 t2 : TargetMap)
    (hperm : t1.Perm t2) :
    (∀ candidate v, VoteCount fuel h candidate startState t1 beaconDB = some (.ok v) ↔
        VoteCount fuel h candidate startState t2 beaconDB = some (.ok v)) ∧
      (∀ head, lmdGhost fuel h beaconDB startBlock startState t1 = some (.ok head) ↔
        lmdGhost fuel h beaconDB startBlock startState t2 = some (.ok head)) ∧
      (∀ candidate, VoteCount fuel h candidate startState t1 beaconDB ≠ none →
        VoteCount fuel h candidate startState t2 beaconDB ≠ none →
        outcome (VoteCount fuel h candidate startState t1 beaconDB)
          = outcome (VoteCount fuel h candidate startState t2 beaconDB)) ∧
      (lmdGhost fuel h beaconDB startBlock startState t1 ≠ none →
        lmdGhost fuel h beaconDB startBlock startState t2 ≠ none →
        outcome (lmdGhost fuel h beaconDB startBlock startState t1)
          = outcome (lmdGhost fuel h beaconDB startBlock startState t2)) := by
  have hvote : ∀ candidate v,
      VoteCount fuel h candidate startState t1 beaconDB = some (.ok v) ↔
        VoteCount fuel h candidate startState t2 beaconDB = some (.ok v) :=
    fun candidate v => ⟨VoteCount_ok_perm hperm, VoteCount_ok_perm hperm.symm⟩
  have hhead : ∀ head, lmdGhost fuel h beaconDB startBlock startState t1 = some (.ok head) ↔
      lmdGhost fuel h beaconDB startBlock startState t2 = some (.ok head) := by
    intro head
    unfold lmdGhost
    exact ⟨lmdGhostLoop_ok_transfer (fun _ _ => VoteCount_ok_perm hperm) _ _ _ _,
      lmdGhostLoop_ok_transfer (fun _ _ => VoteCount_ok_perm hperm.symm) _ _ _ _⟩
  exact ⟨hvote, hhead, fun candidate => outcome_eq_of_ok_iff (hvote candidate),
    outcome_eq_of_ok_iff hhead⟩

/-- C8 at the fork store: the tally 30 of `C` and the head `D` are returned
for the targets listed in reverse order as well. -/
theorem head_selection_order_independent_witness :
    forkTargets.Perm forkTargets.reverse ∧
      VoteCount 10 exampleHelpers blockC (stateWithBalances [10, 30, 20]) forkTargets.reverse
        forkStore = some (.ok 30) ∧
      lmdGhost 10 exampleHelpers forkStore blockA (stateWithBalances [10, 30, 20])
        forkTargets.reverse = some (.ok blockD) :=
  ⟨(List.reverse_perm _).symm,
    ((head_selection_order_independent 10 exampleHelpers forkStore blockA
      (stateWithBalances [10, 30, 20]) forkTargets forkTargets.reverse
      (List.reverse_perm _).symm).1 blockC 30).1 (by decide),
    ((head_selection_order_independent 10 exampleHelpers forkStore blockA
      (stateWithBalances [10, 30, 20]) forkTargets forkTargets.reverse
      (List.reverse_perm _).symm).2.1 blockD).1 (by decide)⟩

/-- When every ancestor walk returns within the fuel, the two listings agree
on errors as well: `VoteCount` returns under both, with the same tally or an
error under both, and so does `lmdGhost`. -/
theorem head_selection_outcomes_agree (fuel : Nat) (h : Helpers) (beaconDB : BeaconDB)
    (startBlock : BeaconBlock) (startState : BeaconState) (t1 t2 : TargetMap)
    (hperm : t1.Perm t2)
    (hwalk : ∀ e ∈ t1, ∀ slot, BlockAncestor beaconDB slot fuel e.2 ≠ none) :
    (∀ candidate, VoteCount fuel h candidate startState t1 beaconDB ≠ none ∧
        outcome (VoteCount fuel h candidate startState t1 beaconDB)
          = outcome (VoteCount fuel h candidate startState t2 beaconDB)) ∧
      outcome (lmdGhost fuel h beaconDB startBlock startState t1)
        = outcome (lmdGhost fuel h beaconDB startBlock startState t2) := by
  have hne : ∀ candidate, ∀ e ∈ t1,
      entryVote fuel h candidate startState beaconDB e ≠ none :=
    fun candidate e he => entryVote_ne_none (hwalk e he candidate.Slot)
  have hv : ∀ c, outcome (VoteCount fuel h c startState t1 beaconDB)
      = outcome (VoteCount fuel h c startState t2 beaconDB) :=
    fun c => VoteCountLoop_perm fuel h c startState beaconDB hperm (hne c) 0
  refine ⟨fun c => ⟨VoteCountLoop_ne_none fuel h c startState beaconDB t1 (hne c) 0, hv c⟩, ?_⟩
  exact lmdGhostLoop_agree fuel h beaconDB startState t1 t2 hv _ _ _

/-- Where an ancestor walk does not return, the listing order decides between
an error and no return at all: in the cyclic store, with a target whose parent
is not stored listed before the self-parented target, `VoteCount` for `B`
returns an error; with the two listed the other way round it does not return,
whatever the fuel. No tally is returned under either listing. -/
theorem VoteCount_error_or_no_return_by_order :
    (∀ fuel, 0 < fuel →
        VoteCount fuel exampleHelpers blockB (stateWithBalances [10, 10])
          [(0, orphanBlock), (1, selfParentBlock)] cyclicStore
          = some (.error .parentBlockDoesNotExist)) ∧
      ∀ fuel, VoteCount fuel exampleHelpers blockB (stateWithBalances [10, 10])
          [(1, selfParentBlock), (0, orphanBlock)] cyclicStore = none := by
  constructor
  · intro fuel hf
    obtain ⟨f, rfl⟩ : ∃ f, fuel = f + 1 := ⟨fuel - 1, by omega⟩
    have hba : BlockAncestor cyclicStore blockB.Slot (f + 1) orphanBlock
        = some (.error .parentBlockDoesNotExist) := by
      have hp : cyclicStore.Block orphanBlock.ParentRootHash32 = .ok none := by decide
      rw [BlockAncestor, if_neg (by decide), if_neg (by decide)]
      simp only [hp]
    unfold VoteCount
    rw [VoteCountLoop]
    simp only [hba]
  · intro fuel
    have hba : BlockAncestor cyclicStore blockB.Slot fuel selfParentBlock = none :=
      BlockAncestor_selfParent_none fuel
    unfold VoteCount
    rw [VoteCountLoop]
    simp only [hba]

/-! ## The index as the ancestor chain of the new head -/

/-- Rewriting the ancestor chain of the processed block gives the ancestor
chain of the new head, when the two blocks have the same ancestors below the
slot of the new head. -/
theorem rewritten_index_ancestor_chain {h : Helpers} {beaconDB : BeaconDB}
    {canonicalBlocks : CanonicalBlocks} {block head : BeaconBlock} {root : Digest}
    (hroot : h.HashBeaconBlock head = .ok root)
    (hdecB : SlotsDecreaseFrom beaconDB block) (hdecH : SlotsDecreaseFrom beaconDB head)
    (hpre : IsAncestorChain h beaconDB block canonicalBlocks)
    (hagree : ∀ x, x.Slot < head.Slot →
      ((∃ n, nthParent beaconDB n head = some x) ↔ ∃ m, nthParent beaconDB m block = some x)) :
    IsAncestorChain h beaconDB head
      (revertedSlotLoop head.Slot block.Slot (setCanonical canonicalBlocks head.Slot root)) := by
  intro s d
  rw [rewritten_index_apply]
  by_cases hrange : head.Slot < s ∧ s ≤ block.Slot
  · rw [if_pos hrange]
    constructor
    · intro hcon; simp at hcon
    · rintro ⟨n, a, hn, hs, _⟩
      have := nthParent_slot_add_le n head a hdecH hn
      omega
  · rw [if_neg hrange]
    by_cases hs : s = head.Slot
    · rw [if_pos hs]
      constructor
      · intro hd
        have hd' : root = d := by simpa using hd
        exact ⟨0, head, rfl, hs.symm, by rw [← hd']; exact hroot⟩
      · rintro ⟨n, a, hn, hsl, hd⟩
        have hn0 : n = 0 := by
          have := nthParent_slot_add_le n head a hdecH hn
          omega
        subst hn0
        have ha : head = a := by simpa [nthParent] using hn
        subst ha
        rw [hroot] at hd
        have : root = d := by simpa using hd
        rw [this]
    · rw [if_neg hs, hpre s d]
      constructor
      · rintro ⟨m, a, hm, hsl, hd⟩
        have hle := nthParent_slot_add_le m block a hdecB hm
        have hlt : a.Slot < head.Slot := by omega
        obtain ⟨n, hn⟩ := (hagree a hlt).2 ⟨m, hm⟩
        exact ⟨n, a, hn, hsl, hd⟩
      · rintro ⟨n, a, hn, hsl, hd⟩
        have hle := nthParent_slot_add_le n head a hdecH hn
        have hlt : a.Slot < head.Slot := by omega
        obtain ⟨m, hm⟩ := (hagree a hlt).1 ⟨n, hn⟩
        exact ⟨m, a, hm, hsl, hd⟩

/-- C11 (as amended): let the index before the call be exactly the ancestor
chain of the processed block `block`, let slots strictly decrease along the
parent links from `block` and from the new head, and let the new head and the
processed block have the same ancestors below the slot of the new head. Then
after `ApplyForkChoiceRule` returns success with new head `head`, the index
holds exactly the ancestor chain of `head` (one entry `slot -> root` for `head`
and each of its ancestors) and no entry with slot greater than `head.Slot`. -/
theorem ApplyForkChoiceRule_index_ancestor_chain (fuel : Nat) (h : Helpers)
    (c c' : ChainService) (block head : BeaconBlock) (postState : BeaconState)
    (hsel : selectHead fuel h c = some (.ok head))
    (hret : ApplyForkChoiceRule fuel h c block postState = some (c', none))
    (hdecB : SlotsDecreaseFrom c.beaconDB block)
    (hdecH : SlotsDecreaseFrom c.beaconDB head)
    (hpre : IsAncestorChain h c.beaconDB block c.canonicalBlocks)
    (hagree : ∀ x, x.Slot < head.Slot →
      ((∃ n, nthParent c.beaconDB n head = some x) ↔
        ∃ m, nthParent c.beaconDB m block = some x)) :
    IsAncestorChain h c.beaconDB head c'.canonicalBlocks ∧
      ∀ s, head.Slot < s → c'.canonicalBlocks s = none := by
  obtain ⟨root, newState, hroot, _, _, hidx, _, _, _, _, _⟩ :=
    ApplyForkChoiceRule_success hsel hret
  have hchain : IsAncestorChain h c.beaconDB head c'.canonicalBlocks := by
    rw [hidx]
    exact rewritten_index_ancestor_chain hroot hdecB hdecH hpre hagree
  refine ⟨hchain, ?_⟩
  intro s hs
  cases hv : c'.canonicalBlocks s with
  | none => rfl
  | some d =>
    obtain ⟨n, a, hn, hsl, _⟩ := (hchain s d).1 hv
    have := nthParent_slot_add_le n head a hdecH hn
    omega

/-- A chain of `m + j` parent links is a chain of `m` links followed by one of
`j` links. -/
theorem nthParent_add {beaconDB : BeaconDB} :
    ∀ (m j : Nat) (b y : BeaconBlock),
      nthParent beaconDB (m + j) b = some y ↔
        ∃ x, nthParent beaconDB m b = some x ∧ nthParent beaconDB j x = some y := by
  intro m
  induction m with
  | zero =>
    intro j b y
    rw [Nat.zero_add]
    constructor
    · intro hy; exact ⟨b, rfl, hy⟩
    · rintro ⟨x, hx, hy⟩
      have hb : b = x := by simpa [nthParent] using hx
      rw [hb]; exact hy
  | succ m ih =>
    intro j b y
    rw [Nat.succ_add_eq_add_succ, Nat.add_succ, nthParent_succ_eq_some]
    constructor
    · rintro ⟨parent, hp, hy⟩
      obtain ⟨x, hx, hxy⟩ := (ih j parent y).1 hy
      exact ⟨x, nthParent_succ_eq_some.2 ⟨parent, hp, hx⟩, hxy⟩
    · rintro ⟨x, hx, hxy⟩
      obtain ⟨parent, hp, hx'⟩ := nthParent_succ_eq_some.1 hx
      exact ⟨parent, hp, (ih j parent y).2 ⟨x, hx', hxy⟩⟩

/-- Slots decrease along the parent links from every block of a chain along
which they decrease. -/
theorem SlotsDecreaseFrom.nth {beaconDB : BeaconDB} {block x : BeaconBlock} {m : Nat}
    (hdec : SlotsDecreaseFrom beaconDB block) (hm : nthParent beaconDB m block = some x) :
    SlotsDecreaseFrom beaconDB x := by
  intro n y parent hn hp
  exact hdec (m + n) y parent ((nthParent_add m n block y).2 ⟨x, hm, hn⟩) hp

/-- Of two blocks of one chain, the one at the lower slot is an ancestor of the
other. -/
theorem nthParent_of_slot_le {beaconDB : BeaconDB} {block x y : BeaconBlock} {m k : Nat}
    (hdec : SlotsDecreaseFrom beaconDB block)
    (hm : nthParent beaconDB m block = some x) (hk : nthParent beaconDB k block = some y)
    (hle : x.Slot ≤ y.Slot) : ∃ n, nthParent beaconDB n y = some x := by
  by_cases hkm : k ≤ m
  · obtain ⟨j, rfl⟩ : ∃ j, m = k + j := ⟨m - k, by omega⟩
    obtain ⟨y', hy', hx⟩ := (nthParent_add k j block x).1 hm
    rw [hk] at hy'
    have : y = y' := Option.some.inj hy'
    subst this
    exact ⟨j, hx⟩
  · obtain ⟨j, rfl⟩ : ∃ j, k = m + j := ⟨k - m, by omega⟩
    obtain ⟨x', hx', hy⟩ := (nthParent_add m j block y).1 hk
    rw [hm] at hx'
    have : x = x' := Option.some.inj hx'
    subst this
    have hs := nthParent_slot_add_le j x y (hdec.nth hm) hy
    have hj : j = 0 := by omega
    subst hj
    have : x = y := by simpa [nthParent] using hy
    subst this
    exact ⟨0, rfl⟩

/-- A new head on the chain of the processed block (the processed block itself
or one of its ancestors) has the same ancestors as the processed block below
its own slot. -/
theorem chains_agree_of_on_chain {beaconDB : BeaconDB} {block head : BeaconBlock} {k : Nat}
    (hdecB : SlotsDecreaseFrom beaconDB block)
    (hk : nthParent beaconDB k block = some head) :
    ∀ x, x.Slot < head.Slot →
      ((∃ n, nthParent beaconDB n head = some x) ↔ ∃ m, nthParent beaconDB m block = some x) := by
  intro x hx
  constructor
  · rintro ⟨n, hn⟩
    exact ⟨k + n, (nthParent_add k n block x).2 ⟨head, hk, hn⟩⟩
  · rintro ⟨m, hm⟩
    exact nthParent_of_slot_le hdecB hm hk (by omega)

/-- A new head whose parent `p` lies on the chain of the processed block, with
no block of that chain at a slot strictly between `p` and the new head, has the
same ancestors as the processed block below its own slot. -/
theorem chains_agree_of_parent_on_chain {beaconDB : BeaconDB} {block head p : BeaconBlock}
    {k : Nat} (hdecB : SlotsDecreaseFrom beaconDB block)
    (hp : beaconDB.Block head.ParentRootHash32 = .ok (some p))
    (hk : nthParent beaconDB k block = some p)
    (hgap : ∀ m x, nthParent beaconDB m block = some x →
      ¬ (p.Slot < x.Slot ∧ x.Slot < head.Slot)) :
    ∀ x, x.Slot < head.Slot →
      ((∃ n, nthParent beaconDB n head = some x) ↔ ∃ m, nthParent beaconDB m block = some x) := by
  intro x hx
  constructor
  · rintro ⟨n, hn⟩
    cases n with
    | zero =>
      have : head = x := by simpa [nthParent] using hn
      subst this
      omega
    | succ n =>
      obtain ⟨q, hq, hn'⟩ := nthParent_succ_eq_some.1 hn
      rw [hp] at hq
      have hqp : p = q := by simpa using hq
      subst hqp
      exact ⟨k + n, (nthParent_add k n block x).2 ⟨p, hk, hn'⟩⟩
  · rintro ⟨m, hm⟩
    have hle : x.Slot ≤ p.Slot := by
      have := hgap m x hm
      omega
    obtain ⟨n, hn⟩ := nthParent_of_slot_le hdecB hm hk hle
    exact ⟨n + 1, nthParent_succ_eq_some.2 ⟨p, hp, hn⟩⟩

/-- Slots decrease along the parent links of `storeOf blocks` from each of
`blocks`, when every block of the list lies above the block of the list that
its parent root names. -/
theorem storeOf_slotsDecrease (blocks : List BeaconBlock) (highest : Nat)
    (hall : ∀ b ∈ blocks, ∀ q ∈ blocks, q.StateRootHash32 = b.ParentRootHash32 → q.Slot < b.Slot)
    (t : BeaconBlock) (ht : t ∈ blocks) : SlotsDecreaseFrom (storeOf blocks highest) t := by
  intro n x parent hn hp
  have hx := nthParent_storeOf_mem blocks highest n t x ht hn
  have hp' : blocks.find? (fun b => b.StateRootHash32 == x.ParentRootHash32) = some parent := by
    simpa [storeOf] using hp
  have hroot : parent.StateRootHash32 = x.ParentRootHash32 := by
    simpa using List.find?_some hp'
  exact hall x hx parent (List.mem_of_find?_eq_some hp') hroot

/-- The index `{1 -> 10, 2 -> 20, 4 -> 45}` is the ancestor chain `A <- B <- X`
of `X` in every store that resolves the parent roots of `X` and `B` and not
that of `A`. -/
theorem chainX_index (beaconDB : BeaconDB)
    (hB : beaconDB.Block 20 = .ok (some blockB)) (hA : beaconDB.Block 10 = .ok (some blockA))
    (h0 : beaconDB.Block 0 = .ok none) :
    IsAncestorChain exampleHelpers beaconDB blockX (canonicalOf [(1, 10), (2, 20), (4, 45)]) := by
  have hX1 : nthParent beaconDB 1 blockX = some blockB :=
    nthParent_succ_eq_some.2 ⟨blockB, hB, rfl⟩
  have hX2 : nthParent beaconDB 2 blockX = some blockA :=
    nthParent_succ_eq_some.2 ⟨blockB, hB, nthParent_succ_eq_some.2 ⟨blockA, hA, rfl⟩⟩
  intro s d
  constructor
  · intro hidx
    have hcases : s = 1 ∨ s = 2 ∨ s = 4 ∨ (s ≠ 1 ∧ s ≠ 2 ∧ s ≠ 4) := by omega
    rcases hcases with rfl | rfl | rfl | ⟨h1, h2, h4⟩
    · have hd : some 10 = some d := hidx
      exact ⟨2, blockA, hX2, rfl, by rw [← Option.some.inj hd]; rfl⟩
    · have hd : some 20 = some d := hidx
      exact ⟨1, blockB, hX1, rfl, by rw [← Option.some.inj hd]; rfl⟩
    · have hd : some 45 = some d := hidx
      exact ⟨0, blockX, rfl, rfl, by rw [← Option.some.inj hd]; rfl⟩
    · have e1 : (1 == s) = false := by rw [beq_eq_false_iff_ne]; exact Ne.symm h1
      have e2 : (2 == s) = false := by rw [beq_eq_false_iff_ne]; exact Ne.symm h2
      have e4 : (4 == s) = false := by rw [beq_eq_false_iff_ne]; exact Ne.symm h4
      simp [canonicalOf, List.find?, e1, e2, e4] at hidx
  · rintro ⟨n, a, hn, hsl, hd⟩
    have hd' : a.StateRootHash32 = d := Except.ok.inj hd
    rcases n with _ | _ | _ | n
    · have ha : blockX = a := by simpa [nthParent] using hn
      subst ha; subst hsl; subst hd'; rfl
    · rw [hX1] at hn
      have ha : blockB = a := Option.some.inj hn
      subst ha; subst hsl; subst hd'; rfl
    · rw [hX2] at hn
      have ha : blockA = a := Option.some.inj hn
      subst ha; subst hsl; subst hd'; rfl
    · exfalso
      obtain ⟨x, hx, hxa⟩ := (nthParent_add 2 (n + 1) blockX a).1 (by
        have : n + 1 + 1 + 1 = 2 + (n + 1) := by omega
        rw [← this]; exact hn)
      rw [hX2] at hx
      have : blockA = x := Option.some.inj hx
      subst this
      obtain ⟨q, hq, _⟩ := nthParent_succ_eq_some.1 hxa
      rw [show blockA.ParentRootHash32 = 0 from rfl, h0] at hq
      simp at hq

/-- C11 at the attach service: the index is the chain `A <- B <- X` of the
processed block `X`; the new head `P` is a child of `B` at slot 3. The call
removes the entry of slot 4 and writes the entry of slot 3, and the index is
the ancestor chain `A <- B <- P` of `P`. -/
theorem ApplyForkChoiceRule_index_ancestor_chain_witness :
    selectHead 10 exampleHelpers attachService = some (.ok blockP) ∧
      IsAncestorChain exampleHelpers attachService.beaconDB blockX
        attachService.canonicalBlocks ∧
      ∃ c', ApplyForkChoiceRule 10 exampleHelpers attachService blockX (stateAtSlot 4)
          = some (c', none) ∧
        c'.reorgCount = 1 ∧ c'.canonicalBlocks 3 = some 35 ∧ c'.canonicalBlocks 4 = none ∧
        IsAncestorChain exampleHelpers attachService.beaconDB blockP c'.canonicalBlocks :=
  ⟨by decide, chainX_index attachStore (by decide) (by decide) (by decide), _, rfl, rfl, rfl, rfl,
    (ApplyForkChoiceRule_index_ancestor_chain 10 exampleHelpers attachService _ blockX blockP
      (stateAtSlot 4) (by decide) rfl
      (storeOf_slotsDecrease _ _ (by decide) blockX (by decide))
      (storeOf_slotsDecrease _ _ (by decide) blockP (by decide))
      (chainX_index attachStore (by decide) (by decide) (by decide))
      (chains_agree_of_parent_on_chain
        (storeOf_slotsDecrease _ _ (by decide) blockX (by decide))
        (show attachStore.Block blockP.ParentRootHash32 = .ok (some blockB) by decide)
        (show nthParent attachStore 1 blockX = some blockB by decide)
        (fun m x _ hgap => by
          have h2 : blockB.Slot = 2 := rfl
          have h3 : blockP.Slot = 3 := rfl
          omega))).1⟩

/-- C11 (counterexample): at the reorg service the index is exactly the
ancestor chain `A <- B <- X` of the processed block `X`; `ApplyForkChoiceRule`
succeeds with new head `C`, a child of `A` at slot 3. Afterwards the index
still maps slot 2 to the root 20 of `B`, although no ancestor of `C` lies at
slot 2. -/
theorem ApplyForkChoiceRule_keeps_stale_entry :
    IsAncestorChain exampleHelpers reorgService.beaconDB blockX reorgService.canonicalBlocks ∧
      selectHead 10 exampleHelpers reorgService = some (.ok blockC) ∧
      ∃ c', ApplyForkChoiceRule 10 exampleHelpers reorgService blockX (stateAtSlot 4)
          = some (c', none) ∧
        c'.canonicalBlocks 2 = some 20 ∧
        ¬ ∃ n a, nthParent reorgService.beaconDB n blockC = some a ∧ a.Slot = 2 := by
  refine ⟨chainX_index reorgStore (by decide) (by decide) (by decide), by decide, _, rfl, rfl, ?_⟩
  rintro ⟨n, a, hn, hs⟩
  rcases n with _ | _ | n
  all_goals
    simp [nthParent, reorgService, reorgStore, storeOf, blockA, blockB, blockC, blockX] at hn
  all_goals
    subst hn
    simp at hs

end Prysm
